import Mathlib

/-!
Majority-inverter-graph synthesis and NPN classification.

A shallow embedding of `mig_structure.cpp`, `mig_synthesizer.cpp` and
`npn_classifier.cpp`, followed by the properties proved about it.

Conventions of the embedding.
* `std::string` is a `List Char`; `std::vector<T>` is a `List T` (`push_back` appends at
  the end).
* `int` values that hold indices or counts (`index`, `id`, `n_vars`, `output_gate`) are
  natural numbers: every operand the API creates (`PI(i)`, `C0()`, `C1()`, `NODE(id)`)
  and every gate id is non-negative.
* The 32-bit width of `int` is visible in the synthesizer, where a table of `2^31`
  characters makes `1 << n_vars` overflow; the expression is modelled by `shl_one_int`.
  In `npn_classifier.cpp` the same expression is reached only with variable counts whose
  `n!` permutations can be enumerated, far below 31, and is taken on the naturals.
* Values flowing through the evaluator (`inputs`, `memo`, results) are `Int`, as in the
  source; the memo uses `-1` for "not yet computed".
* An out-of-range vector access and a used-up recursion budget of the evaluator are
  `none`.  In the classifier, whose accesses are in range for a permutation vector and a
  table of `2^n` rows, an access reads a default outside the range.
* A C++ exception is `Except.error`.
-/

set_option autoImplicit false

deriving instance DecidableEq for Except

/-! ## mig_structure.h / mig_structure.cpp -/

/-- Discriminator of an operand (`MIGInput::Kind`). -/
inductive Kind where
  | PI
  | CONST0
  | CONST1
  | NODE
deriving DecidableEq, Repr

/-- An operand of a majority gate (`struct MIGInput`). -/
structure MIGInput where
  kind : Kind
  index : Nat
  inverted : Bool
deriving DecidableEq, Repr

/-- A three-input majority gate (`struct MIGGate`). -/
structure MIGGate where
  id : Nat
  a : MIGInput
  b : MIGInput
  c : MIGInput
deriving DecidableEq, Repr

/-- The network (`class MIG`). -/
structure MIG where
  n_vars : Nat
  gates : List MIGGate
  output_gate : Nat
  output_inverted : Bool
deriving DecidableEq, Repr

/-- The function `MIGGate::maj`: `(x + y + z >= 2) ? 1 : 0`. -/
def MIGGate.maj (x y z : Int) : Int :=
  if x + y + z ≥ 2 then 1 else 0

namespace MIG

/-- Constructor `MIG::MIG(int vars)`; `output_gate{0}`, `output_inverted{false}`. -/
def new (vars : Nat) : MIG :=
  { n_vars := vars, gates := [], output_gate := 0, output_inverted := false }

/-- Operand creator `MIG::PI`. -/
def PI (i : Nat) (inv : Bool) : MIGInput := { kind := Kind.PI, index := i, inverted := inv }

/-- Operand creator `MIG::C0`. -/
def C0 : MIGInput := { kind := Kind.CONST0, index := 0, inverted := false }

/-- Operand creator `MIG::C1`. -/
def C1 : MIGInput := { kind := Kind.CONST1, index := 1, inverted := false }

/-- Operand creator `MIG::NODE`. -/
def NODE (id : Nat) (inv : Bool) : MIGInput := { kind := Kind.NODE, index := id, inverted := inv }

/-- The method `MIG::addGate`: appends `{id, a, b, c}` with `id = gates.size()` and
returns the id together with the updated network. -/
def addGate (m : MIG) (a b c : MIGInput) : Nat × MIG :=
  let id := m.gates.length
  (id, { m with gates := m.gates ++ [{ id := id, a := a, b := b, c := c }] })

/-- The method `MIG::setOutput`. -/
def setOutput (m : MIG) (gate_id : Nat) (polarity_inverted : Bool) : MIG :=
  { m with output_gate := gate_id, output_inverted := polarity_inverted }

/-- The method `MIG::size`. -/
def size (m : MIG) : Nat := m.gates.length

/-- The method `MIG::depth`: the number of gates. -/
def depth (m : MIG) : Nat := m.size

/-- The statement `if (in.inverted) val ^= 1;`. -/
def applyInv (inverted : Bool) (val : Int) : Int :=
  if inverted then Int.xor val 1 else val

/-- The method `MIG::evalInput`, with the memo threaded through.  The recursion of the
source follows gate references; `fuel` bounds its depth (one unit per `NODE` operand
entered), and `none` is returned when it is used up or a vector is indexed out of range. -/
def evalInput (gates : List MIGGate) (inputs : List Int) :
    Nat → MIGInput → List Int → Option (Int × List Int)
  | fuel, inp, memo =>
    match inp.kind with
    | Kind.PI =>
      match inputs[inp.index]? with
      | none => none
      | some v => some (applyInv inp.inverted v, memo)
    | Kind.CONST0 => some (applyInv inp.inverted 0, memo)
    | Kind.CONST1 => some (applyInv inp.inverted 1, memo)
    | Kind.NODE =>
      match fuel with
      | 0 => none
      | fuel + 1 =>
        match memo[inp.index]? with
        | none => none
        | some mv =>
          if mv = -1 then
            match gates[inp.index]? with
            | none => none
            | some g =>
              match evalInput gates inputs fuel g.a memo with
              | none => none
              | some (av, memo1) =>
                match evalInput gates inputs fuel g.b memo1 with
                | none => none
                | some (bv, memo2) =>
                  match evalInput gates inputs fuel g.c memo2 with
                  | none => none
                  | some (cv, memo3) =>
                    let memo4 := memo3.set inp.index (MIGGate.maj av bv cv)
                    match memo4[inp.index]? with
                    | none => none
                    | some val => some (applyInv inp.inverted val, memo4)
          else some (applyInv inp.inverted mv, memo)

/-- The method `MIG::evaluate`: a fresh memo of `-1`, the output gate resolved through
`evalInput`, and the output polarity applied.  A chain of gate references in a network
whose gates refer only to earlier gates has at most `gates.size()` links, so the budget
`gates.size() + 1` is never used up there. -/
def evaluate (m : MIG) (input_values : List Int) : Option Int :=
  let memo := List.replicate m.gates.length (-1 : Int)
  match evalInput m.gates input_values (m.gates.length + 1) (NODE m.output_gate false) memo with
  | none => none
  | some (out, _) => some (if m.output_inverted then Int.xor out 1 else out)

end MIG

/-- The value of the `int` expression `1 << n` for a 32-bit `int`: `2^n` for `n ≤ 30`,
`INT_MIN` for `n = 31`; for `n ≥ 32` (undefined in C++) the bits shifted out are lost. -/
def shl_one_int (n : Nat) : Int :=
  let r : Nat := (1 <<< n) % 2 ^ 32
  if r < 2 ^ 31 then (r : Int) else (r : Int) - 2 ^ 32

/-- The conversion `(std::size_t) x` of an `int` to a 64-bit unsigned value. -/
def to_size_t (x : Int) : Nat := (x % 2 ^ 64).toNat

namespace MIG

/-- The input vector built by `getTruthTable` for row `i`: `inputs[j] = (i >> j) & 1`. -/
def rowInputs (n_vars : Nat) (i : Nat) : List Int :=
  (List.range n_vars).map (fun j => (((i >>> j) &&& 1 : Nat) : Int))

/-- The row loop of `getTruthTable`: `tt[i] = evaluate(inputs) ? '1' : '0'`. -/
def getTruthTableRows (m : MIG) : List Nat → Option (List Char)
  | [] => some []
  | i :: rest =>
    match m.evaluate (rowInputs m.n_vars i) with
    | none => none
    | some v =>
      match getTruthTableRows m rest with
      | none => none
      | some cs => some ((if v ≠ 0 then '1' else '0') :: cs)

/-- The method `MIG::getTruthTable`, with `rows = 1 << n_vars`. -/
def getTruthTable (m : MIG) : Option (List Char) :=
  getTruthTableRows m (List.range (shl_one_int m.n_vars).toNat)

/-- The method `MIG::validate`: `getTruthTable() == tt`. -/
def validate (m : MIG) (tt : List Char) : Option Bool :=
  match m.getTruthTable with
  | none => none
  | some t => some (decide (t = tt))

end MIG

/-! ## mig_synthesizer.cpp -/

/-- The loop `while (p < len) { p <<= 1; ++n; }` of `deduce_n`, returning the final
`(p, n)`.  A `std::string` has fewer than `2^63` characters, so the 64-bit `p` never
wraps; `fuel` bounds the number of iterations. -/
def deduce_n_loop (len : Nat) : Nat → Nat → Nat → Nat × Nat
  | 0, p, n => (p, n)
  | fuel + 1, p, n => if p < len then deduce_n_loop len fuel (p <<< 1) (n + 1) else (p, n)

/-- The function `deduce_n`.  The loop doubles `p` from 1, so it leaves after fewer than
`len` iterations and the budget `len` is never used up. -/
def deduce_n (len : Nat) : Int :=
  if len = 0 then -1
  else
    let r := deduce_n_loop len len 1 0
    if r.1 = len then (r.2 : Int) else -1

/-- The call `std::to_string(in.index)` for a non-negative index. -/
def to_string (n : Nat) : List Char := Nat.toDigits 10 n

/-- The function `encode_input`. -/
def encode_input (inp : MIGInput) : List Char :=
  let k : Char :=
    match inp.kind with
    | Kind.PI => 'P'
    | Kind.CONST0 => '0'
    | Kind.CONST1 => '1'
    | Kind.NODE => 'N'
  [k] ++ (if inp.inverted then ['\''] else []) ++ ['#'] ++ to_string inp.index

/-- The sort key `struct InKey`. -/
structure InKey where
  kind_rank : Nat
  base_index : Nat
  inverted : Bool
  full : List Char
deriving DecidableEq, Repr

/-- The function `key_of`. -/
def key_of (inp : MIGInput) : InKey :=
  let kr : Nat :=
    match inp.kind with
    | Kind.CONST0 => 0
    | Kind.CONST1 => 1
    | Kind.PI => 2
    | Kind.NODE => 3
  { kind_rank := kr, base_index := inp.index, inverted := inp.inverted, full := encode_input inp }

/-- The function `same_base`. -/
def same_base (a b : MIGInput) : Bool :=
  decide (a.kind = b.kind) && decide (a.index = b.index)

/-- The function `complementary`. -/
def complementary (a b : MIGInput) : Bool :=
  same_base a b && (a.inverted != b.inverted) &&
    (decide (a.kind = Kind.PI) || decide (a.kind = Kind.NODE))

/-- The function `equal_inputs`. -/
def equal_inputs (a b : MIGInput) : Bool :=
  decide (a.kind = b.kind) && decide (a.index = b.index) && decide (a.inverted = b.inverted)

/-- The comparator passed to `std::sort` in `make_maj`. -/
def key_less (x y : InKey) : Bool :=
  if x.kind_rank ≠ y.kind_rank then decide (x.kind_rank < y.kind_rank)
  else if x.base_index ≠ y.base_index then decide (x.base_index < y.base_index)
  else if x.inverted ≠ y.inverted then decide (x.inverted < y.inverted)
  else decide (x.full < y.full)

/-- Insertion of one key into an ascending list (before the first key it is less than). -/
def key_insert (x : InKey) : List InKey → List InKey
  | [] => [x]
  | y :: ys => if key_less x y then x :: y :: ys else y :: key_insert x ys

/-- The call `std::sort(arr.begin(), arr.end(), less)`: the ascending arrangement of the
keys.  Keys that the comparator does not separate are equal in all four fields, so the
ascending arrangement is unique and does not depend on the sorting algorithm. -/
def key_sort : List InKey → List InKey
  | [] => []
  | x :: xs => key_insert x (key_sort xs)

/-- The cache key `"MAJ(" + arr[0].full + "," + arr[1].full + "," + arr[2].full + ")"`. -/
def maj_key (a b c : MIGInput) : List Char :=
  match key_sort [key_of a, key_of b, key_of c] with
  | [k0, k1, k2] => "MAJ(".toList ++ k0.full ++ [','] ++ k1.full ++ [','] ++ k2.full ++ [')']
  | _ => []

/-- The state of a `MIGBuilder`: the variable count, the network under construction and
the structural cache `maj_cache` (an association list, newest entry first). -/
structure MIGBuilder where
  n_vars : Nat
  mig : MIG
  maj_cache : List (List Char × Nat)
deriving DecidableEq, Repr

namespace MIGBuilder

/-- Constructor `MIGBuilder(int n)`. -/
def new (n : Nat) : MIGBuilder := { n_vars := n, mig := MIG.new n, maj_cache := [] }

/-- The member `c0`. -/
def c0 : MIGInput := MIG.C0

/-- The member `c1`. -/
def c1 : MIGInput := MIG.C1

/-- The call `maj_cache.emplace(key, gid)`: no effect when the key is present. -/
def emplace (cache : List (List Char × Nat)) (key : List Char) (gid : Nat) :
    List (List Char × Nat) :=
  match cache.lookup key with
  | some _ => cache
  | none => (key, gid) :: cache

/-- The method `make_maj`. -/
def make_maj (b : MIGBuilder) (x y z : MIGInput) : MIGInput × MIGBuilder :=
  if equal_inputs x y || equal_inputs x z then (x, b)
  else if equal_inputs y z then (y, b)
  else if complementary x y then (z, b)
  else if complementary x z then (y, b)
  else if complementary y z then (x, b)
  else
    let key := maj_key x y z
    match b.maj_cache.lookup key with
    | some id => (MIG.NODE id false, b)
    | none =>
      let r := b.mig.addGate x y z
      (MIG.NODE r.1 false, { b with mig := r.2, maj_cache := emplace b.maj_cache key r.1 })

/-- The method `and2`. -/
def and2 (b : MIGBuilder) (x y : MIGInput) : MIGInput × MIGBuilder :=
  if x.kind = Kind.CONST0 ∨ y.kind = Kind.CONST0 then (c0, b)
  else if x.kind = Kind.CONST1 then (y, b)
  else if y.kind = Kind.CONST1 then (x, b)
  else if equal_inputs x y then (x, b)
  else if complementary x y then (c0, b)
  else make_maj b x y c0

/-- The method `or2`. -/
def or2 (b : MIGBuilder) (x y : MIGInput) : MIGInput × MIGBuilder :=
  if x.kind = Kind.CONST1 ∨ y.kind = Kind.CONST1 then (c1, b)
  else if x.kind = Kind.CONST0 then (y, b)
  else if y.kind = Kind.CONST0 then (x, b)
  else if equal_inputs x y then (x, b)
  else if complementary x y then (c1, b)
  else make_maj b x y c1

/-- The loop of `and_chain` over `lits[1..]`, with the early return on constant 0. -/
def and_chain_loop : MIGBuilder → MIGInput → List MIGInput → MIGInput × MIGBuilder
  | b, acc, [] => (acc, b)
  | b, acc, l :: rest =>
    let r := and2 b acc l
    if r.1.kind = Kind.CONST0 then (c0, r.2) else and_chain_loop r.2 r.1 rest

/-- The method `and_chain`. -/
def and_chain (b : MIGBuilder) (lits : List MIGInput) : MIGInput × MIGBuilder :=
  match lits with
  | [] => (c1, b)
  | l0 :: rest => and_chain_loop b l0 rest

/-- The loop of `or_chain` over `terms[1..]`, with the early return on constant 1. -/
def or_chain_loop : MIGBuilder → MIGInput → List MIGInput → MIGInput × MIGBuilder
  | b, acc, [] => (acc, b)
  | b, acc, t :: rest =>
    let r := or2 b acc t
    if r.1.kind = Kind.CONST1 then (c1, r.2) else or_chain_loop r.2 r.1 rest

/-- The method `or_chain`. -/
def or_chain (b : MIGBuilder) (terms : List MIGInput) : MIGInput × MIGBuilder :=
  match terms with
  | [] => (c0, b)
  | t0 :: rest => or_chain_loop b t0 rest

/-- The method `materialize_as_gate`. -/
def materialize_as_gate (b : MIGBuilder) (inp : MIGInput) : Nat × MIGBuilder :=
  if inp.kind = Kind.NODE ∧ inp.inverted = false then (inp.index, b)
  else if inp.kind = Kind.CONST0 then
    let r := b.mig.addGate c0 c0 c0
    (r.1, { b with mig := r.2 })
  else if inp.kind = Kind.CONST1 then
    let r := b.mig.addGate c1 c1 c1
    (r.1, { b with mig := r.2 })
  else
    let r := b.mig.addGate inp c0 c1
    (r.1, { b with mig := r.2 })

/-- The literals of row `i`: for `k = 0 .. n_vars-1`, with
`bit_k = ((i >> (n_vars - 1 - k)) & 1) != 0`, the operand
`bit_k ? PI(k,false) : PI(k,true)`. -/
def row_lits (n_vars : Nat) (i : Nat) : List MIGInput :=
  (List.range n_vars).map (fun k =>
    let bit_k : Bool := decide (((i >>> (n_vars - 1 - k)) &&& 1) ≠ 0)
    if bit_k then MIG.PI k false else MIG.PI k true)

/-- The row loop of `build_from_truth`: for every `i` with `tt[i] == '1'` the conjunction
of the row literals is pushed onto `sum_terms`.  The list argument is the part of the
table not yet visited, `i` the index of its first character. -/
def sum_terms_loop : MIGBuilder → List MIGInput → Nat → List Char → List MIGInput × MIGBuilder
  | b, sum_terms, _, [] => (sum_terms, b)
  | b, sum_terms, i, ch :: rest =>
    if ch = '1' then
      let r := and_chain b (row_lits b.n_vars i)
      sum_terms_loop r.2 (sum_terms ++ [r.1]) (i + 1) rest
    else sum_terms_loop b sum_terms (i + 1) rest

/-- The choice of `root` in `build_from_truth`. -/
def build_root (b : MIGBuilder) (tt : List Char) : MIGInput × MIGBuilder :=
  if b.n_vars = 0 then
    (if tt[0]? = some '1' then c1 else c0, b)
  else
    let r := sum_terms_loop b [] 0 tt
    match r.1 with
    | [] => (c0, r.2)
    | [t] => (t, r.2)
    | _ => or_chain r.2 r.1

/-- The method `build_from_truth`; the `std::invalid_argument` exception is
`Except.error`. -/
def build_from_truth (b : MIGBuilder) (tt : List Char) : Except String MIG :=
  if tt.length ≠ to_size_t (if b.n_vars = 0 then 1 else shl_one_int b.n_vars) then
    Except.error "truth length != 2^n"
  else
    let r := build_root b tt
    let g := materialize_as_gate r.2 r.1
    Except.ok (g.2.mig.setOutput g.1 false)

end MIGBuilder

/-- The method `MIGSynthesizer::synthesize`. -/
def synthesize (truth_table : List Char) : Except String MIG :=
  let n := deduce_n truth_table.length
  if n < 0 then
    let m := MIG.new 1
    let r := m.addGate MIG.C0 MIG.C0 MIG.C0
    Except.ok (r.2.setOutput r.1 false)
  else
    MIGBuilder.build_from_truth (MIGBuilder.new n.toNat) truth_table

/-! ## truth_table.h (not part of the sources) -/

namespace TruthTable

/-- Modelled from the spec: `TruthTable::getNumVars` (`numVars`), whose source file
`truth_table.cpp` is missing.  It returns the `n` with `length(tt) = 2^n` and fails with
`InvalidInput` if the length is not a power of two. -/
def getNumVars (tt : List Char) : Except String Nat :=
  match (List.range (tt.length + 1)).find? (fun n => decide (2 ^ n = tt.length)) with
  | some n => Except.ok n
  | none => Except.error "InvalidInput"

/-- Modelled from the spec: `TruthTable::truthTableToBinary`, whose source file
`truth_table.cpp` is missing.  It maps a bit string to its unsigned-integer value (first
character most significant), used only as the canonical ordering key. -/
def truthTableToBinary (tt : List Char) : Nat :=
  tt.foldl (fun acc ch => 2 * acc + (if ch = '1' then 1 else 0)) 0

end TruthTable

/-! ## npn_classifier.cpp -/

namespace NPNClassifier

/-- The loop `for (j = n_vars - 1; j >= 0; --j) { inputs[j] = temp & 1; temp >>= 1; }`:
the entries are produced from the last position to the first, so each new entry is put
in front of the ones already written.  The first argument is the number of positions
still to fill. -/
def row_inputs_loop : Nat → Nat → List Nat → List Nat
  | 0, _, acc => acc
  | j + 1, temp, acc => row_inputs_loop j (temp >>> 1) ((temp &&& 1) :: acc)

/-- The vector `inputs` of row `i` after the decomposition loop. -/
def row_inputs (n_vars i : Nat) : List Nat := row_inputs_loop n_vars i []

/-- The loop `for (j = 0; j < n_vars; ++j) new_index += v[j] * (1 << (n_vars - 1 - j));`
starting from `new_index = 0`. -/
def new_index (n_vars : Nat) (v : List Nat) : Nat :=
  (List.range n_vars).foldl (fun acc j => acc + v.getD j 0 * (1 <<< (n_vars - 1 - j))) 0

/-- The loop `if (neg_inputs[j]) inputs[j] = 1 - inputs[j];` over `j = 0 .. n_vars-1`. -/
def negate_inputs (n_vars : Nat) (neg_inputs : List Int) (inputs : List Nat) : List Nat :=
  (List.range n_vars).map (fun j =>
    if neg_inputs.getD j 0 ≠ 0 then 1 - inputs.getD j 0 else inputs.getD j 0)

/-- The output character of `applyNegationPattern`:
`output_val = ch - '0'; if (neg_output) output_val = 1 - output_val; '0' + output_val`,
stored as a byte. -/
def neg_output_char (neg_output : Int) (ch : Char) : Char :=
  let output_val : Int := (ch.toNat : Int) - 48
  let output_val : Int := if neg_output ≠ 0 then 1 - output_val else output_val
  Char.ofNat ((48 + output_val) % 256).toNat

/-- The row loop of `applyNegationPattern` for a table of `n_vars` variables, with
`num_rows = 1 << n_vars`. -/
def applyNegationPatternRows (n_vars : Nat) (tt : List Char) (neg_inputs : List Int)
    (neg_output : Int) : List Char :=
  (List.range (1 <<< n_vars)).map (fun i =>
    let inputs := negate_inputs n_vars neg_inputs (row_inputs n_vars i)
    neg_output_char neg_output (tt.getD (new_index n_vars inputs) '0'))

/-- The method `NPNClassifier::applyNegationPattern`. -/
def applyNegationPattern (tt : List Char) (neg_inputs : List Int) (neg_output : Int) :
    Except String (List Char) :=
  match TruthTable.getNumVars tt with
  | Except.error e => Except.error e
  | Except.ok n_vars => Except.ok (applyNegationPatternRows n_vars tt neg_inputs neg_output)

/-- The loop `permuted_inputs[j] = inputs[perm[j]]` over `j = 0 .. n_vars-1`. -/
def permute_inputs (n_vars : Nat) (perm : List Nat) (inputs : List Nat) : List Nat :=
  (List.range n_vars).map (fun j => inputs.getD (perm.getD j 0) 0)

/-- The row loop of `applyPermutation` for a table of `n_vars` variables. -/
def applyPermutationRows (n_vars : Nat) (tt : List Char) (perm : List Nat) : List Char :=
  (List.range (1 <<< n_vars)).map (fun i =>
    tt.getD (new_index n_vars (permute_inputs n_vars perm (row_inputs n_vars i))) '0')

/-- The method `NPNClassifier::applyPermutation`. -/
def applyPermutation (tt : List Char) (perm : List Nat) : Except String (List Char) :=
  match TruthTable.getNumVars tt with
  | Except.error e => Except.error e
  | Except.ok n_vars => Except.ok (applyPermutationRows n_vars tt perm)

/-- The arrays visited by `do { ... } while (std::next_permutation(...))` when the loop
starts from an ascending array `l` of `k` distinct entries: every arrangement of `l`, in
lexicographic order (the first entry is chosen in ascending order, then the rest is
arranged in the same way). -/
def perms_lex : Nat → List Nat → List (List Nat)
  | 0, _ => [[]]
  | k + 1, l => l.flatMap (fun x => (perms_lex k (l.erase x)).map (fun p => x :: p))

/-- The vector `neg_inputs` built from `neg_mask`: `neg_inputs[i] = (neg_mask >> i) & 1`. -/
def mask_neg_inputs (n_vars neg_mask : Nat) : List Int :=
  (List.range n_vars).map (fun i => (((neg_mask >>> i) &&& 1 : Nat) : Int))

/-- The iteration space of the three nested loops of `getNPNRepresentative`, in the order
in which the body is run: permutations outermost, then `neg_mask = 0 .. 2^n - 1`, then
`neg_output = 0, 1`. -/
def npn_iterations (n_vars : Nat) : List (List Nat × Nat × Int) :=
  (perms_lex n_vars (List.range n_vars)).flatMap (fun perm =>
    (List.range (1 <<< n_vars)).flatMap (fun neg_mask =>
      [(perm, neg_mask, (0 : Int)), (perm, neg_mask, (1 : Int))]))

/-- The body of the innermost loop of `getNPNRepresentative`, acting on the pair
`(min_tt, min_value)`.  The absent `TruthTable::truthTableToBinary` is the parameter
`key`. -/
def npn_step (key : List Char → Nat) (n_vars : Nat) (tt : List Char) (st : List Char × Nat)
    (it : List Nat × Nat × Int) : Except String (List Char × Nat) :=
  match applyPermutation tt it.1 with
  | Except.error e => Except.error e
  | Except.ok transformed =>
    match applyNegationPattern transformed (mask_neg_inputs n_vars it.2.1) it.2.2 with
    | Except.error e => Except.error e
    | Except.ok transformed =>
      let value := key transformed
      if value < st.2 then Except.ok (transformed, value) else Except.ok st

/-- The loops of `getNPNRepresentative` over a list of iterations. -/
def npn_loop (key : List Char → Nat) (n_vars : Nat) (tt : List Char) :
    List Char × Nat → List (List Nat × Nat × Int) → Except String (List Char × Nat)
  | st, [] => Except.ok st
  | st, it :: rest =>
    match npn_step key n_vars tt st it with
    | Except.error e => Except.error e
    | Except.ok st' => npn_loop key n_vars tt st' rest

/-- The method `NPNClassifier::getNPNRepresentative`.  The function
`TruthTable::truthTableToBinary` it calls is not part of the sources and is taken as the
parameter `key`: the `uint64_t` ordering key of a table.  The spec gives the key as the
unsigned value of the bit string, `TruthTable.truthTableToBinary`. -/
def getNPNRepresentative (key : List Char → Nat) (tt : List Char) :
    Except String (List Char) :=
  match TruthTable.getNumVars tt with
  | Except.error e => Except.error e
  | Except.ok n_vars =>
    match npn_loop key n_vars tt (tt, key tt) (npn_iterations n_vars) with
    | Except.error e => Except.error e
    | Except.ok st => Except.ok st.1

/-- The method `NPNClassifier::areNPNEquivalent`. -/
def areNPNEquivalent (key : List Char → Nat) (tt1 tt2 : List Char) : Except String Bool :=
  match getNPNRepresentative key tt1 with
  | Except.error e => Except.error e
  | Except.ok r1 =>
    match getNPNRepresentative key tt2 with
    | Except.error e => Except.error e
    | Except.ok r2 => Except.ok (decide (r1 = r2))

end NPNClassifier

/-! ## Specification-level notions for networks -/

/-- An `int` that holds a truth value. -/
def isBit (v : Int) : Prop := v = 0 ∨ v = 1

/-- An operand is well formed over `n` variables and `size` gates when a primary input
names a variable below `n` and a gate reference names a gate below `size`. -/
def MIGInput.wf (n size : Nat) (x : MIGInput) : Prop :=
  (x.kind = Kind.PI → x.index < n) ∧ (x.kind = Kind.NODE → x.index < size)

/-- The DAG invariant of a gate list: the gate at position `k` has id `k` and its operands
name variables below `n` and gates created strictly earlier. -/
def DagInv (n : Nat) (gates : List MIGGate) : Prop :=
  ∀ (k : Nat) (g : MIGGate), gates[k]? = some g → g.id = k ∧ g.a.wf n k ∧ g.b.wf n k ∧ g.c.wf n k

/-- The value of an operand before its inversion flag is applied. -/
def baseVal (inputs vals : List Int) (x : MIGInput) : Int :=
  match x.kind with
  | Kind.PI => inputs.getD x.index 0
  | Kind.CONST0 => 0
  | Kind.CONST1 => 1
  | Kind.NODE => vals.getD x.index 0

/-- The value of an operand, given the input assignment and the values of the gates. -/
def opVal (inputs vals : List Int) (x : MIGInput) : Int :=
  MIG.applyInv x.inverted (baseVal inputs vals x)

/-- The values of all gates in creation order: each gate is the majority of its operand
values, read from the gates before it. -/
def gateVals (inputs : List Int) (gates : List MIGGate) : List Int :=
  gates.foldl (fun vals g =>
    vals ++ [MIGGate.maj (opVal inputs vals g.a) (opVal inputs vals g.b)
      (opVal inputs vals g.c)]) []

/-- The assignment of row `i` in the MSB-first convention of the truth-table data model:
variable `x_k` has the value of bit `n - 1 - k` of `i`. -/
def msbAssignment (n i : Nat) : List Int :=
  (List.range n).map (fun k => (((i >>> (n - 1 - k)) &&& 1 : Nat) : Int))

/-- A memo is consistent with the gate values: it has one cell per gate and each cell is
either `-1` or the value of its gate. -/
def MemoOK (gates : List MIGGate) (inputs memo : List Int) : Prop :=
  memo.length = gates.length ∧
    ∀ (k : Nat) (v : Int), memo[k]? = some v → v = -1 ∨ v = (gateVals inputs gates).getD k 0

/-- The number denoted by a string of decimal digits. -/
def decimalValue (s : List Char) : Nat :=
  s.foldl (fun acc ch => 10 * acc + (ch.toNat - 48)) 0

/-- The invariant of a builder: the network has the builder's variable count, the gate list
satisfies the DAG invariant, and every cache entry maps the key of an existing gate to the
id of that gate. -/
def BuilderInv (b : MIGBuilder) : Prop :=
  b.mig.n_vars = b.n_vars ∧ DagInv b.n_vars b.mig.gates ∧
    ∀ (key : List Char) (id : Nat), b.maj_cache.lookup key = some id →
      ∃ g, b.mig.gates[id]? = some g ∧ key = maj_key g.a g.b g.c

/-- The builder `b2` is a later state of `b1`: same variable count, gates only appended. -/
def BuilderExt (b1 b2 : MIGBuilder) : Prop :=
  b2.n_vars = b1.n_vars ∧ ∃ ex, b2.mig.gates = b1.mig.gates ++ ex

/-- A constant operand carries no inversion (as `C0()` and `C1()` create it). -/
def MIGInput.plainConst (x : MIGInput) : Prop :=
  (x.kind = Kind.CONST0 ∨ x.kind = Kind.CONST1) → x.inverted = false

/-- An operand usable in a builder: well formed over its gates, constants not inverted. -/
def MIGBuilder.valid (b : MIGBuilder) (x : MIGInput) : Prop :=
  x.wf b.n_vars b.mig.gates.length ∧ x.plainConst

/-- The value of an operand over the gates of a builder. -/
def MIGBuilder.val (b : MIGBuilder) (inputs : List Int) (x : MIGInput) : Int :=
  opVal inputs (gateVals inputs b.mig.gates) x

/-- The outcome `r` of a builder operation started in state `b`: the invariant holds again,
gates were only appended, and the returned operand is usable in the new state. -/
def StepOK (b : MIGBuilder) (r : MIGInput × MIGBuilder) : Prop :=
  BuilderInv r.2 ∧ BuilderExt b r.2 ∧ r.2.valid r.1

/-- Conjunction of two truth values held in `int`s. -/
def andBit (x y : Int) : Int := if x = 1 ∧ y = 1 then 1 else 0

/-- Disjunction of two truth values held in `int`s. -/
def orBit (x y : Int) : Int := if x = 1 ∨ y = 1 then 1 else 0

/-- Row `i` is selected by an assignment: every literal of the row has the value 1. -/
def rowSelected (n i : Nat) (inputs : List Int) : Prop :=
  ∀ l ∈ MIGBuilder.row_lits n i, opVal inputs [] l = 1

/-- The one-gate network `G0 = MAJ(x0, 0, 1)`, `OUTPUT = G0`, over two variables. -/
def literalNetwork : MIG :=
  { n_vars := 2,
    gates := [{ id := 0, a := MIG.PI 0 false, b := MIG.C0, c := MIG.C1 }],
    output_gate := 0,
    output_inverted := false }

/-! ## Specification-level notions for the NPN transforms -/

/-- The number below `2^n` whose bit `n - 1 - j` is `f j` for every `j < n` (the row whose
variable `j` has the value `f j` in the MSB-first convention). -/
def mkIndex : Nat → (Nat → Bool) → Nat
  | 0, _ => 0
  | n + 1, f => 2 * mkIndex n f + (if f n then 1 else 0)

/-- The row read by an NPN transform for output row `i`: its variable `j` is variable
`p j` of `i`, complemented when `v j` holds. -/
def npnIndex (n : Nat) (p : Nat → Nat) (v : Nat → Bool) (i : Nat) : Nat :=
  mkIndex n (fun j => xor (i.testBit (n - 1 - p j)) (v j))

/-- The table produced by an NPN transform given by a variable map `p`, input
complementations `v` and an output complementation `o`. -/
def npnTransform (n : Nat) (p : Nat → Nat) (v : Nat → Bool) (o : Bool) (tt : List Char) :
    List Char :=
  (List.range (2 ^ n)).map (fun i =>
    NPNClassifier.neg_output_char (if o then 1 else 0) (tt.getD (npnIndex n p v i) '0'))

/-- The maps `p` and `q` are mutually inverse permutations of `{0, .., n-1}`. -/
def IsPermPair (n : Nat) (p q : Nat → Nat) : Prop :=
  (∀ j, j < n → p j < n ∧ q (p j) = j) ∧ (∀ k, k < n → q k < n ∧ p (q k) = k)

/-- The table `t` is an NPN transform of `tt` (over `n` variables). -/
def NPNRel (n : Nat) (tt t : List Char) : Prop :=
  ∃ (p q : Nat → Nat) (v : Nat → Bool) (o : Bool), IsPermPair n p q ∧ t = npnTransform n p v o tt

/-- A string over `'0'`/`'1'`. -/
def isBinary (tt : List Char) : Prop := ∀ ch ∈ tt, ch = '0' ∨ ch = '1'

/-- The table `t` is obtained from `tt` by the code: a permutation `perm` of
`{0, .., n-1}`, a negation vector `neg` of length `n` and an output flag `o` with
`t == applyNegationPattern(applyPermutation(tt, perm), neg, o)`. -/
def InOrbit (n : Nat) (tt t : List Char) : Prop :=
  ∃ (perm : List Nat) (neg : List Int) (o : Int) (t1 : List Char),
    perm.Perm (List.range n) ∧ neg.length = n ∧
      NPNClassifier.applyPermutation tt perm = Except.ok t1 ∧
      NPNClassifier.applyNegationPattern t1 neg o = Except.ok t

/-- The table computed in one iteration of the loops of `getNPNRepresentative`, as a
transform map: permutation vector `it.1`, negation mask `it.2.1`, output flag `it.2.2`. -/
def npnCandidate (n : Nat) (tt : List Char) (it : List Nat × Nat × Int) : List Char :=
  npnTransform n (fun j => it.1.getD j 0)
    (fun j => decide ((NPNClassifier.mask_neg_inputs n it.2.1).getD (it.1.getD j 0) 0 ≠ 0))
    (decide (it.2.2 ≠ 0)) tt

/-- The update `if (value < min_value) { min_value = value; min_tt = transformed; }`. -/
def minStep (key : List Char → Nat) (st : List Char × Nat) (t : List Char) :
    List Char × Nat :=
  if key t < st.2 then (t, key t) else st

/-! ## mig_structure.cpp: serialization -/

/-- The lambda `inputToStr` of `MIGGate::toText`. -/
def MIGGate.inputToStr (inp : MIGInput) : List Char :=
  (match inp.kind with
    | Kind.PI => ['x'] ++ to_string inp.index
    | Kind.CONST0 => ['0']
    | Kind.CONST1 => ['1']
    | Kind.NODE => ['G'] ++ to_string inp.index) ++
  (if inp.inverted then ['\''] else [])

/-- The method `MIGGate::toText`; the argument `n_vars` is not used by the source. -/
def MIGGate.toText (g : MIGGate) (_n_vars : Nat) : List Char :=
  ['G'] ++ to_string g.id ++ " = MAJ(".toList ++ MIGGate.inputToStr g.a ++ [','] ++
    MIGGate.inputToStr g.b ++ [','] ++ MIGGate.inputToStr g.c ++ [')']

/-- The method `MIG::toText`: the stream receives one line per gate and then the output
line. -/
def MIG.toText (m : MIG) : List Char :=
  let oss := m.gates.foldl (fun oss g => oss ++ g.toText m.n_vars ++ ['\n']) []
  let oss := oss ++ "OUTPUT = G".toList ++ to_string m.output_gate
  let oss := if m.output_inverted then oss ++ ['\''] else oss
  oss ++ ['\n']

/-! ## truth_table.h: table generation (not part of the sources) -/

/-- All strings over `'0'`/`'1'` of a given length, in counting order. -/
def TruthTable.allBitStrings : Nat → List (List Char)
  | 0 => [[]]
  | len + 1 =>
    (TruthTable.allBitStrings len).map (fun s => '0' :: s) ++
      (TruthTable.allBitStrings len).map (fun s => '1' :: s)

/-- Modelled from the spec: `TruthTable::generateAllTruthTables`, whose source file
`truth_table.cpp` is missing.  It produces the full set of `2^(2^n)` truth tables of `n`
variables. -/
def TruthTable.generateAllTruthTables (n : Nat) : List (List Char) :=
  TruthTable.allBitStrings (2 ^ n)

/-! ## npn_classifier.cpp: classes and symmetry -/

namespace NPNClassifier

/-- The call `reps.insert(s)` on a `std::set<std::string>`, held as the ascending list of
its elements (`std::string` compares lexicographically): the string is put in front of
the first larger element and is not inserted when it is present. -/
def set_insert (s : List Char) : List (List Char) → List (List Char)
  | [] => [s]
  | y :: ys =>
    if s < y then s :: y :: ys
    else if y < s then y :: set_insert s ys
    else y :: ys

/-- The loop of `findNPNClasses` over the tables not yet visited; the progress lines
written to `std::cout` do not affect the result. -/
def findNPNClasses_loop (key : List Char → Nat) :
    List (List Char) → List (List Char) → Except String (List (List Char))
  | reps, [] => Except.ok reps
  | reps, tt :: rest =>
    match getNPNRepresentative key tt with
    | Except.error e => Except.error e
    | Except.ok r => findNPNClasses_loop key (set_insert r reps) rest

/-- The method `NPNClassifier::findNPNClasses`: the elements of the set in ascending
order. -/
def findNPNClasses (key : List Char → Nat) (truth_tables : List (List Char)) :
    Except String (List (List Char)) :=
  findNPNClasses_loop key [] truth_tables

/-- The call `std::swap(perm[var1], perm[var2])`. -/
def swap_entries (perm : List Nat) (var1 var2 : Nat) : List Nat :=
  (perm.set var1 (perm.getD var2 0)).set var2 (perm.getD var1 0)

/-- The method `NPNClassifier::checkSymmetry`. -/
def checkSymmetry (tt : List Char) (var1 var2 : Nat) : Except String Bool :=
  match TruthTable.getNumVars tt with
  | Except.error e => Except.error e
  | Except.ok n_vars =>
    let perm := swap_entries (List.range n_vars) var1 var2
    match applyPermutation tt perm with
    | Except.error e => Except.error e
    | Except.ok swapped => Except.ok (decide (swapped = tt))

end NPNClassifier

/-! ## Specification-level notions for serialization and row maps -/

/-- The text of one operand: `x<index>`, `G<index>`, `0` or `1`, with a trailing `'` when
the operand is inverted. -/
def operandToken (x : MIGInput) : List Char :=
  (match x.kind with
    | Kind.PI => 'x' :: to_string x.index
    | Kind.NODE => 'G' :: to_string x.index
    | Kind.CONST0 => ['0']
    | Kind.CONST1 => ['1']) ++
  (if x.inverted then ['\''] else [])

/-- The serialized network in the layout of the text format, the operands of a gate being
separated by `sep`: for each position `k` the line `G<k> = MAJ(<in1><sep><in2><sep><in3>)`
and then the line `OUTPUT = G<output_gate>` with a trailing `'` when the output is
inverted, every line ended by a newline. -/
def toTextFormat (sep : List Char) (m : MIG) : List Char :=
  (m.gates.enum.map (fun kg =>
      "G".toList ++ to_string kg.1 ++ " = MAJ(".toList ++ operandToken kg.2.a ++ sep ++
        operandToken kg.2.b ++ sep ++ operandToken kg.2.c ++ ")".toList ++ "\n".toList)).flatten ++
    ("OUTPUT = G".toList ++ to_string m.output_gate ++
      (if m.output_inverted then "'".toList else []) ++ "\n".toList)

/-- The complement of a table character. -/
def flipChar (ch : Char) : Char := if ch = '0' then '1' else '0'

/-- The mask of a negation vector: bit `n - 1 - j` is set exactly when `neg[j] != 0`. -/
def negMask (n : Nat) (neg : List Int) : Nat :=
  mkIndex n (fun j => decide (neg.getD j 0 ≠ 0))

/-! ## Specification-level notions for the structural cache -/

/-- The four fields of a sort key in the order in which the comparator inspects them, as
an element of the lexicographic product. -/
def keyTuple (x : InKey) : Nat ×ₗ (Nat ×ₗ (Bool ×ₗ List Char)) :=
  toLex (x.kind_rank, toLex (x.base_index, toLex (x.inverted, x.full)))

/-- The builder state `b2` is reached from `b` by a sequence of calls of the builder
methods that change the state. -/
inductive BuilderReach : MIGBuilder → MIGBuilder → Prop
  | refl (b : MIGBuilder) : BuilderReach b b
  | make_maj (b b2 : MIGBuilder) (x y z : MIGInput) :
      BuilderReach b b2 → BuilderReach b (b2.make_maj x y z).2
  | and2 (b b2 : MIGBuilder) (x y : MIGInput) :
      BuilderReach b b2 → BuilderReach b (b2.and2 x y).2
  | or2 (b b2 : MIGBuilder) (x y : MIGInput) :
      BuilderReach b b2 → BuilderReach b (b2.or2 x y).2
  | and_chain (b b2 : MIGBuilder) (lits : List MIGInput) :
      BuilderReach b b2 → BuilderReach b (b2.and_chain lits).2
  | or_chain (b b2 : MIGBuilder) (terms : List MIGInput) :
      BuilderReach b b2 → BuilderReach b (b2.or_chain terms).2
  | materialize_as_gate (b b2 : MIGBuilder) (inp : MIGInput) :
      BuilderReach b b2 → BuilderReach b (b2.materialize_as_gate inp).2

/-- Every cache entry of `b1` is still found in `b2`. -/
def CacheExt (b1 b2 : MIGBuilder) : Prop :=
  ∀ (key : List Char) (id : Nat), b1.maj_cache.lookup key = some id →
    b2.maj_cache.lookup key = some id

/-! ## Specification-level notions for symmetry -/

/-- The number of 1 bits of a row `r` of a table of `n` variables (the bits `0 .. n-1`,
which are all the bits of a row below `2^n`). -/
def popcount (n r : Nat) : Nat := (List.range n).countP (fun k => r.testBit k)

/-- The map on variable numbers given by a permutation of `{0, .., n-1}`. -/
def permFun (n : Nat) (σ : Equiv.Perm (Fin n)) (j : Nat) : Nat :=
  if h : j < n then (σ ⟨j, h⟩).val else j

/-- The table is unchanged when the variables of every row are rearranged by `p`: row `r`
holds the character of the row whose variable `j` is variable `p j` of `r`. -/
def RowInvariant (n : Nat) (tt : List Char) (p : Nat → Nat) : Prop :=
  ∀ r, r < 2 ^ n → tt.getD (npnIndex n p (fun _ => false) r) '0' = tt.getD r '0'

/-! ## Specification-level notions for the network interface -/

/-- The network after a sequence of `addGate` calls. -/
def MIG.addGates (m : MIG) (ops : List (MIGInput × MIGInput × MIGInput)) : MIG :=
  ops.foldl (fun acc t => (acc.addGate t.1 t.2.1 t.2.2).2) m

/-- Two operands are the same primary input or the same gate with opposite polarity. -/
def oppositeOps (x y : MIGInput) : Prop :=
  x.kind = y.kind ∧ x.index = y.index ∧ x.inverted ≠ y.inverted ∧
    (x.kind = Kind.PI ∨ x.kind = Kind.NODE)

/-! ## The plain recursive evaluation -/

/-- The value of an operand by the plain recursive definition, without a memo: a primary
input reads the assignment, a constant is its bit, a gate reference is the majority of the
values of the three operands of the gate; an inverted operand contributes the complemented
value.  `fuel` bounds the depth of the recursion through gate references. -/
def plainEvalInput (gates : List MIGGate) (inputs : List Int) : Nat → MIGInput → Option Int
  | fuel, inp =>
    match inp.kind with
    | Kind.PI =>
      match inputs[inp.index]? with
      | none => none
      | some v => some (MIG.applyInv inp.inverted v)
    | Kind.CONST0 => some (MIG.applyInv inp.inverted 0)
    | Kind.CONST1 => some (MIG.applyInv inp.inverted 1)
    | Kind.NODE =>
      match fuel with
      | 0 => none
      | fuel + 1 =>
        match gates[inp.index]? with
        | none => none
        | some g =>
          (plainEvalInput gates inputs fuel g.a).bind (fun av =>
            (plainEvalInput gates inputs fuel g.b).bind (fun bv =>
              (plainEvalInput gates inputs fuel g.c).bind (fun cv =>
                some (MIG.applyInv inp.inverted (MIGGate.maj av bv cv)))))

/-- The output bit by the plain recursive definition: the value of the output gate,
complemented when `output_inverted` is set.  A chain of gate references in a network
whose gates refer only to earlier gates has at most `size` links. -/
def plainEvaluate (m : MIG) (inputs : List Int) : Option Int :=
  match plainEvalInput m.gates inputs (m.gates.length + 1) (MIG.NODE m.output_gate false) with
  | none => none
  | some out => some (if m.output_inverted then Int.xor out 1 else out)

/-! ## Reversal of the variable order -/

/-- The row obtained from `i` by reversing its `n`-bit binary representation: bit
`n - 1 - j` of the result is bit `j` of `i`. -/
def bitReverse (n i : Nat) : Nat := mkIndex n (fun j => i.testBit j)

/-! ## Specification-level notions for the shape of conjunctions -/

/-- The length of the longest chain of gates below an operand, given the chain lengths of
the gates created so far: a gate reference has the chain length of its gate, a primary
input or a constant has none. -/
def operandDepth (depths : List Nat) (x : MIGInput) : Nat :=
  match x.kind with
  | Kind.NODE => depths.getD x.index 0
  | _ => 0

/-- For every gate in creation order, the number of gates on the longest chain from the
gate down to a primary input or constant (the gate itself included). -/
def gateDepths (gates : List MIGGate) : List Nat :=
  gates.foldl (fun ds g =>
    ds ++ [1 + max (operandDepth ds g.a) (max (operandDepth ds g.b) (operandDepth ds g.c))]) []

/-- The number of gates on the longest chain from the output gate down to a primary
input. -/
def MIG.chainLength (m : MIG) : Nat := (gateDepths m.gates).getD m.output_gate 0

/-- The gates of a linear conjunction chain starting at gate id `k`: the first gate is
`MAJ(acc, l, 0)` for the first literal `l`, every further gate is `MAJ(G, l, 0)` with `G`
the gate before it and `l` the next literal. -/
def chainGates : Nat → MIGInput → List MIGInput → List MIGGate
  | _, _, [] => []
  | k, acc, l :: rest =>
    { id := k, a := acc, b := l, c := MIG.C0 } :: chainGates (k + 1) (MIG.NODE k false) rest

/-- The network of the claimed balanced reduction for the 4-variable AND table:
`G0 = MAJ(x0,x1,0)`, `G1 = MAJ(x2,x3,0)`, `G2 = MAJ(G0,G1,0)`, `OUTPUT = G2`. -/
def balancedAnd4 : MIG :=
  { n_vars := 4,
    gates := [{ id := 0, a := MIG.PI 0 false, b := MIG.PI 1 false, c := MIG.C0 },
              { id := 1, a := MIG.PI 2 false, b := MIG.PI 3 false, c := MIG.C0 },
              { id := 2, a := MIG.NODE 0 false, b := MIG.NODE 1 false, c := MIG.C0 }],
    output_gate := 2,
    output_inverted := false }

/-! ## Specification-level notions for structural uniqueness -/

/-- The cache is complete: the key of every gate of the network is in the cache, with the
position of the gate. -/
def CacheComplete (b : MIGBuilder) : Prop :=
  ∀ (k : Nat) (g : MIGGate), b.mig.gates[k]? = some g →
    b.maj_cache.lookup (maj_key g.a g.b g.c) = some k

/-- The shape of the gates created through `and2` and `or2`: two operands that are
primary inputs or gate references, and a constant as third operand. -/
def GateShape (g : MIGGate) : Prop :=
  (g.a.kind = Kind.PI ∨ g.a.kind = Kind.NODE) ∧ (g.b.kind = Kind.PI ∨ g.b.kind = Kind.NODE) ∧
    (g.c.kind = Kind.CONST0 ∨ g.c.kind = Kind.CONST1)

/-- The builder invariant behind structural uniqueness. -/
def BuilderUniq (b : MIGBuilder) : Prop :=
  CacheComplete b ∧ ∀ g ∈ b.mig.gates, GateShape g

/-- The operand is a constant. -/
def MIGInput.isConst (x : MIGInput) : Bool :=
  decide (x.kind = Kind.CONST0) || decide (x.kind = Kind.CONST1)

/-! ## The ordering key in 64 bits -/

/-- The ordering key as `getNPNRepresentative` holds it, in the variables
`uint64_t min_value = TruthTable::truthTableToBinary(tt)` and
`uint64_t value = TruthTable::truthTableToBinary(transformed)`: the unsigned value of the
bit string in 64-bit unsigned arithmetic, where the bits above the low 64 are lost.  For a
table of at most 6 variables (at most 64 characters) it is the unsigned value itself. -/
def NPNClassifier.key64 (tt : List Char) : Nat :=
  TruthTable.truthTableToBinary tt % 2 ^ 64

/-- The table of 7 variables that is `'1'` at row 0 only. -/
def rowZeroTable7 : List Char := '1' :: List.replicate 127 '0'

/-- The table of 7 variables that is `'1'` at row 1 only. -/
def rowOneTable7 : List Char := '0' :: '1' :: List.replicate 126 '0'

/-! # Verification -/

/-! ## Variable-count deduction -/

theorem deduce_n_loop_spec (len : Nat) :
    ∀ (fuel k : Nat), len ≤ 2 ^ (k + fuel) →
      ∃ j, deduce_n_loop len fuel (2 ^ k) k = (2 ^ j, j) ∧ k ≤ j ∧ len ≤ 2 ^ j ∧
        (k < j → 2 ^ (j - 1) < len) := by
  intro fuel
  induction fuel with
  | zero =>
    intro k h
    exact ⟨k, rfl, le_refl _, by simpa using h, fun h => absurd h (lt_irrefl _)⟩
  | succ f ih =>
    intro k h
    unfold deduce_n_loop
    by_cases hp : 2 ^ k < len
    · rw [if_pos hp]
      have h2 : (2 ^ k) <<< 1 = 2 ^ (k + 1) := by
        rw [Nat.shiftLeft_eq]; ring
      rw [h2]
      obtain ⟨j, hj, hkj, hlen, hlow⟩ :=
        ih (k + 1) (by rw [show k + 1 + f = k + (f + 1) by omega]; exact h)
      refine ⟨j, hj, by omega, hlen, fun _ => ?_⟩
      by_cases hj' : k + 1 < j
      · exact hlow hj'
      · have : j = k + 1 := by omega
        subst this
        simpa using hp
    · rw [if_neg hp]
      exact ⟨k, rfl, le_refl _, by omega, fun h => absurd h (lt_irrefl _)⟩

/-- With the budget `len` the loop of `deduce_n` leaves through its condition: the final
`p` is a power of two that is at least `len`, and the previous power is below `len`. -/
theorem deduce_n_loop_exit (len : Nat) :
    ∃ j, deduce_n_loop len len 1 0 = (2 ^ j, j) ∧ len ≤ 2 ^ j ∧
      (0 < j → 2 ^ (j - 1) < len) := by
  obtain ⟨j, hj, _, h1, h2⟩ := deduce_n_loop_spec len len 0
    (by rw [Nat.zero_add]; exact le_of_lt (Nat.lt_two_pow len))
  exact ⟨j, by simpa using hj, h1, h2⟩

theorem deduce_n_pow (n : Nat) : deduce_n (2 ^ n) = (n : Int) := by
  obtain ⟨j, hj, h1, h2⟩ := deduce_n_loop_exit (2 ^ n)
  have hnj : n ≤ j := (Nat.pow_le_pow_iff_right (by norm_num)).mp h1
  have hjn : j ≤ n := by
    by_contra hc
    have hpos : 0 < j := by omega
    have := (Nat.pow_lt_pow_iff_right (by norm_num : 1 < 2)).mp (h2 hpos)
    omega
  have hjeq : j = n := le_antisymm hjn hnj
  subst hjeq
  unfold deduce_n
  rw [if_neg (by positivity)]
  simp [hj]

theorem deduce_n_not_pow (len : Nat) (h : ∀ n, len ≠ 2 ^ n) : deduce_n len = -1 := by
  obtain ⟨j, hj, _, _⟩ := deduce_n_loop_exit len
  unfold deduce_n
  by_cases h0 : len = 0
  · rw [if_pos h0]
  · rw [if_neg h0]
    simp only [hj]
    rw [if_neg (fun hc => h j hc.symm)]

theorem shl_one_int_small (n : Nat) (h : n < 31) : shl_one_int n = ((2 ^ n : Nat) : Int) := by
  have hlt : 2 ^ n < 2 ^ 31 := Nat.pow_lt_pow_right (by norm_num) h
  unfold shl_one_int
  have h1 : (1 <<< n) % 2 ^ 32 = 2 ^ n := by
    rw [Nat.shiftLeft_eq, Nat.one_mul]
    exact Nat.mod_eq_of_lt (by omega)
  simp only [h1]
  rw [if_pos hlt]

theorem to_size_t_small (x : Nat) (h : x < 2 ^ 31) : to_size_t (x : Int) = x := by
  unfold to_size_t
  omega

theorem expected_length_small (n : Nat) (h : n < 31) :
    to_size_t (if n = 0 then 1 else shl_one_int n) = 2 ^ n := by
  have hlt : 2 ^ n < 2 ^ 31 := Nat.pow_lt_pow_right (by norm_num) h
  by_cases h0 : n = 0
  · subst h0
    simp [to_size_t]
  · rw [if_neg h0, shl_one_int_small n h, to_size_t_small _ hlt]

theorem pow_lt_imp_exp_lt (n : Nat) (h : 2 ^ n < 2 ^ 31) : n < 31 :=
  (Nat.pow_lt_pow_iff_right (by norm_num : 1 < 2)).mp h

/-- On a table of length `2^n < 2^31` the synthesizer runs the builder past its length
check. -/
theorem synthesize_pow (tt : List Char) (n : Nat) (hlen : tt.length = 2 ^ n)
    (hsmall : tt.length < 2 ^ 31) :
    synthesize tt =
      Except.ok ((MIGBuilder.materialize_as_gate
          (MIGBuilder.build_root (MIGBuilder.new n) tt).2
          (MIGBuilder.build_root (MIGBuilder.new n) tt).1).2.mig.setOutput
        (MIGBuilder.materialize_as_gate
          (MIGBuilder.build_root (MIGBuilder.new n) tt).2
          (MIGBuilder.build_root (MIGBuilder.new n) tt).1).1 false) := by
  have hn : n < 31 := pow_lt_imp_exp_lt n (hlen ▸ hsmall)
  unfold synthesize
  simp only [hlen, deduce_n_pow]
  rw [if_neg (by omega)]
  unfold MIGBuilder.build_from_truth
  simp only [Int.toNat_ofNat]
  rw [if_neg]
  · simp only [MIGBuilder.new]
    rw [expected_length_small n hn]
    simp [hlen]

/-- On a table whose length is not a power of two the synthesizer returns the fallback
network. -/
theorem synthesize_not_pow (tt : List Char) (h : ∀ n, tt.length ≠ 2 ^ n) :
    synthesize tt =
      Except.ok { n_vars := 1, gates := [{ id := 0, a := MIG.C0, b := MIG.C0, c := MIG.C0 }],
                  output_gate := 0, output_inverted := false } := by
  unfold synthesize
  simp only [deduce_n_not_pow _ h]
  rfl

/-! ## Gate values -/

theorem isBit_maj (x y z : Int) : isBit (MIGGate.maj x y z) := by
  unfold MIGGate.maj isBit
  split <;> simp

theorem isBit_applyInv (inv : Bool) (v : Int) (h : isBit v) : isBit (MIG.applyInv inv v) := by
  unfold MIG.applyInv
  cases inv
  · simpa using h
  · rcases h with h | h <;> subst h
    · right; decide
    · left; decide

theorem gateVals_snoc (inputs : List Int) (gs : List MIGGate) (g : MIGGate) :
    gateVals inputs (gs ++ [g]) =
      gateVals inputs gs ++
        [MIGGate.maj (opVal inputs (gateVals inputs gs) g.a)
          (opVal inputs (gateVals inputs gs) g.b) (opVal inputs (gateVals inputs gs) g.c)] := by
  simp [gateVals, List.foldl_append]

theorem gateVals_length (inputs : List Int) (gs : List MIGGate) :
    (gateVals inputs gs).length = gs.length := by
  induction gs using List.reverseRecOn with
  | nil => rfl
  | append_singleton gs g ih => rw [gateVals_snoc]; simp [ih]

theorem gateVals_isBit (inputs : List Int) (gs : List MIGGate) :
    ∀ v ∈ gateVals inputs gs, isBit v := by
  induction gs using List.reverseRecOn with
  | nil => intro v hv; simp [gateVals] at hv
  | append_singleton gs g ih =>
    intro v hv
    rw [gateVals_snoc, List.mem_append] at hv
    rcases hv with hv | hv
    · exact ih v hv
    · rw [List.mem_singleton] at hv
      subst hv
      exact isBit_maj _ _ _

theorem gateVals_append (inputs : List Int) (gs ex : List MIGGate) :
    ∃ rest, gateVals inputs (gs ++ ex) = gateVals inputs gs ++ rest := by
  induction ex using List.reverseRecOn with
  | nil => exact ⟨[], by simp⟩
  | append_singleton ex g ih =>
    obtain ⟨rest, hrest⟩ := ih
    rw [← List.append_assoc, gateVals_snoc, hrest]
    exact ⟨rest ++ [_], by rw [List.append_assoc]⟩

theorem gateVals_getD_append (inputs : List Int) (gs ex : List MIGGate) (k : Nat)
    (hk : k < gs.length) :
    (gateVals inputs (gs ++ ex)).getD k 0 = (gateVals inputs gs).getD k 0 := by
  obtain ⟨rest, hrest⟩ := gateVals_append inputs gs ex
  rw [hrest]
  simp only [List.getD_eq_getElem?_getD]
  rw [List.getElem?_append_left (by rw [gateVals_length]; exact hk)]

theorem getD_isBit (l : List Int) (h : ∀ v ∈ l, isBit v) (k : Nat) : isBit (l.getD k 0) := by
  rw [List.getD_eq_getElem?_getD]
  cases hk : l[k]? with
  | none => left; rfl
  | some v => exact h v (List.getElem?_mem hk)

theorem baseVal_isBit (inputs vals : List Int) (x : MIGInput)
    (hi : ∀ v ∈ inputs, isBit v) (hv : ∀ v ∈ vals, isBit v) : isBit (baseVal inputs vals x) := by
  unfold baseVal
  cases x.kind
  · exact getD_isBit inputs hi _
  · left; rfl
  · right; rfl
  · exact getD_isBit vals hv _

theorem opVal_isBit (inputs vals : List Int) (x : MIGInput)
    (hi : ∀ v ∈ inputs, isBit v) (hv : ∀ v ∈ vals, isBit v) : isBit (opVal inputs vals x) :=
  isBit_applyInv _ _ (baseVal_isBit inputs vals x hi hv)

theorem opVal_congr (inputs vals vals' : List Int) (n size : Nat) (x : MIGInput)
    (hx : x.wf n size) (h : ∀ k, k < size → vals.getD k 0 = vals'.getD k 0) :
    opVal inputs vals x = opVal inputs vals' x := by
  unfold opVal baseVal
  cases hk : x.kind <;> simp only []
  rw [h _ (hx.2 hk)]

theorem wf_mono (n size size' : Nat) (x : MIGInput) (h : x.wf n size) (hs : size ≤ size') :
    x.wf n size' :=
  ⟨h.1, fun hk => lt_of_lt_of_le (h.2 hk) hs⟩

/-- Appending gates does not change the value of an operand over the earlier gates. -/
theorem opVal_append (inputs : List Int) (gs ex : List MIGGate) (n : Nat) (x : MIGInput)
    (hx : x.wf n gs.length) :
    opVal inputs (gateVals inputs (gs ++ ex)) x = opVal inputs (gateVals inputs gs) x :=
  opVal_congr inputs _ _ n gs.length x hx (fun k hk => gateVals_getD_append inputs gs ex k hk)

theorem DagInv_of_append (n : Nat) (gs ex : List MIGGate) (h : DagInv n (gs ++ ex)) :
    DagInv n gs := by
  intro k g hk
  have hlt : k < gs.length := by
    rcases Nat.lt_or_ge k gs.length with h1 | h1
    · exact h1
    · rw [List.getElem?_eq_none h1] at hk; cases hk
  exact h k g (by rw [List.getElem?_append_left hlt]; exact hk)

/-- Under the DAG invariant the value of gate `k` is the majority of its operand values. -/
theorem gateVals_getD (inputs : List Int) (n : Nat) (gs : List MIGGate) (h : DagInv n gs) :
    ∀ k g, gs[k]? = some g →
      (gateVals inputs gs).getD k 0 =
        MIGGate.maj (opVal inputs (gateVals inputs gs) g.a)
          (opVal inputs (gateVals inputs gs) g.b) (opVal inputs (gateVals inputs gs) g.c) := by
  induction gs using List.reverseRecOn with
  | nil => intro k g hk; simp at hk
  | append_singleton gs g' ih =>
    intro k g hk
    have hd := h k g hk
    rcases Nat.lt_or_ge k gs.length with hlt | hge
    · have hk' : gs[k]? = some g := by
        rw [List.getElem?_append_left hlt] at hk; exact hk
      have hd' := (DagInv_of_append n gs [g'] h) k g hk'
      rw [gateVals_getD_append inputs gs [g'] k hlt, ih (DagInv_of_append n gs [g'] h) k g hk']
      rw [opVal_append inputs gs [g'] n g.a (wf_mono n k _ _ hd'.2.1 (le_of_lt hlt)),
        opVal_append inputs gs [g'] n g.b (wf_mono n k _ _ hd'.2.2.1 (le_of_lt hlt)),
        opVal_append inputs gs [g'] n g.c (wf_mono n k _ _ hd'.2.2.2 (le_of_lt hlt))]
    · have hklen : k < (gs ++ [g']).length := by
        rcases Nat.lt_or_ge k (gs ++ [g']).length with h1 | h1
        · exact h1
        · rw [List.getElem?_eq_none h1] at hk; cases hk
      have hkeq : k = gs.length := by simp at hklen; omega
      subst hkeq
      have hg : g = g' := by simp at hk; exact hk.symm
      subst hg
      rw [opVal_append inputs gs [g] n g.a hd.2.1, opVal_append inputs gs [g] n g.b hd.2.2.1,
        opVal_append inputs gs [g] n g.c hd.2.2.2]
      rw [gateVals_snoc, List.getD_eq_getElem?_getD,
        List.getElem?_append_right (by rw [gateVals_length])]
      simp [gateVals_length]

/-! ## The memoized evaluator -/

theorem evalInput_PI (gates : List MIGGate) (inputs : List Int) (fuel : Nat) (x : MIGInput)
    (memo : List Int) (hk : x.kind = Kind.PI) :
    MIG.evalInput gates inputs fuel x memo =
      (match inputs[x.index]? with
       | none => none
       | some v => some (MIG.applyInv x.inverted v, memo)) := by
  cases fuel <;> simp [MIG.evalInput, hk]

theorem evalInput_CONST0 (gates : List MIGGate) (inputs : List Int) (fuel : Nat) (x : MIGInput)
    (memo : List Int) (hk : x.kind = Kind.CONST0) :
    MIG.evalInput gates inputs fuel x memo = some (MIG.applyInv x.inverted 0, memo) := by
  cases fuel <;> simp [MIG.evalInput, hk]

theorem evalInput_CONST1 (gates : List MIGGate) (inputs : List Int) (fuel : Nat) (x : MIGInput)
    (memo : List Int) (hk : x.kind = Kind.CONST1) :
    MIG.evalInput gates inputs fuel x memo = some (MIG.applyInv x.inverted 1, memo) := by
  cases fuel <;> simp [MIG.evalInput, hk]

theorem evalInput_NODE (gates : List MIGGate) (inputs : List Int) (fuel : Nat) (x : MIGInput)
    (memo : List Int) (hk : x.kind = Kind.NODE) :
    MIG.evalInput gates inputs (fuel + 1) x memo =
      (match memo[x.index]? with
        | none => none
        | some mv =>
          if mv = -1 then
            match gates[x.index]? with
            | none => none
            | some g =>
              match MIG.evalInput gates inputs fuel g.a memo with
              | none => none
              | some (av, memo1) =>
                match MIG.evalInput gates inputs fuel g.b memo1 with
                | none => none
                | some (bv, memo2) =>
                  match MIG.evalInput gates inputs fuel g.c memo2 with
                  | none => none
                  | some (cv, memo3) =>
                    let memo4 := memo3.set x.index (MIGGate.maj av bv cv)
                    match memo4[x.index]? with
                    | none => none
                    | some val => some (MIG.applyInv x.inverted val, memo4)
          else some (MIG.applyInv x.inverted mv, memo)) := by
  rw [MIG.evalInput]
  simp only [hk]

theorem evalInput_leaf (n : Nat) (gates : List MIGGate) (inputs vals : List Int)
    (hin : inputs.length = n) (fuel : Nat) (x : MIGInput) (memo : List Int)
    (hwf : x.wf n gates.length) (hk : x.kind ≠ Kind.NODE) :
    MIG.evalInput gates inputs fuel x memo = some (opVal inputs vals x, memo) := by
  cases hkind : x.kind with
  | PI =>
    have hlt : x.index < inputs.length := by rw [hin]; exact hwf.1 hkind
    rw [evalInput_PI _ _ _ _ _ hkind, List.getElem?_eq_getElem hlt]
    simp [opVal, baseVal, hkind, List.getD_eq_getElem?_getD, List.getElem?_eq_getElem hlt]
  | CONST0 => rw [evalInput_CONST0 _ _ _ _ _ hkind]; simp [opVal, baseVal, hkind]
  | CONST1 => rw [evalInput_CONST1 _ _ _ _ _ hkind]; simp [opVal, baseVal, hkind]
  | NODE => exact absurd hkind hk

theorem MemoOK_set (gates : List MIGGate) (inputs memo : List Int) (k : Nat)
    (h : MemoOK gates inputs memo) :
    MemoOK gates inputs (memo.set k ((gateVals inputs gates).getD k 0)) := by
  refine ⟨by rw [List.length_set]; exact h.1, ?_⟩
  intro j v hj
  rw [List.getElem?_set] at hj
  by_cases hjk : k = j
  · subst hjk
    rw [if_pos rfl] at hj
    split at hj
    · right; exact (Option.some.inj hj).symm
    · cases hj
  · rw [if_neg hjk] at hj
    exact h.2 j v hj

/-- Under the DAG invariant the memoized evaluator returns, with a budget above the index
of the gate it is asked for, the value of the operand, and keeps the memo consistent. -/
theorem evalInput_spec (n : Nat) (gates : List MIGGate) (inputs : List Int)
    (hdag : DagInv n gates) (hin : inputs.length = n) :
    ∀ (fuel : Nat) (x : MIGInput) (memo : List Int),
      x.wf n gates.length → (x.kind = Kind.NODE → x.index < fuel) →
      MemoOK gates inputs memo →
      ∃ memo', MIG.evalInput gates inputs fuel x memo =
          some (opVal inputs (gateVals inputs gates) x, memo') ∧
        MemoOK gates inputs memo' := by
  intro fuel
  induction fuel with
  | zero =>
    intro x memo hwf hfuel hmemo
    have hk : x.kind ≠ Kind.NODE := fun hk => absurd (hfuel hk) (Nat.not_lt_zero _)
    exact ⟨memo, evalInput_leaf n gates inputs _ hin 0 x memo hwf hk, hmemo⟩
  | succ f ih =>
    intro x memo hwf hfuel hmemo
    by_cases hk : x.kind = Kind.NODE
    · have hidx : x.index < gates.length := hwf.2 hk
      have hf : x.index ≤ f := Nat.lt_succ_iff.mp (hfuel hk)
      have hmlt : x.index < memo.length := by rw [hmemo.1]; exact hidx
      rw [evalInput_NODE _ _ _ _ _ hk, List.getElem?_eq_getElem hmlt]
      simp only []
      by_cases hmv : memo[x.index] = -1
      · rw [if_pos hmv, List.getElem?_eq_getElem hidx]
        simp only []
        have hg : gates[x.index]? = some gates[x.index] := List.getElem?_eq_getElem hidx
        obtain ⟨_, ha, hb, hc⟩ := hdag x.index _ hg
        have hval := gateVals_getD inputs n gates hdag x.index _ hg
        obtain ⟨m1, e1, ok1⟩ := ih gates[x.index].a memo
          (wf_mono n _ _ _ ha (le_of_lt hidx)) (fun hk' => lt_of_lt_of_le (ha.2 hk') hf) hmemo
        obtain ⟨m2, e2, ok2⟩ := ih gates[x.index].b m1
          (wf_mono n _ _ _ hb (le_of_lt hidx)) (fun hk' => lt_of_lt_of_le (hb.2 hk') hf) ok1
        obtain ⟨m3, e3, ok3⟩ := ih gates[x.index].c m2
          (wf_mono n _ _ _ hc (le_of_lt hidx)) (fun hk' => lt_of_lt_of_le (hc.2 hk') hf) ok2
        rw [e1]; simp only []
        rw [e2]; simp only []
        rw [e3]; simp only []
        rw [← hval]
        have hm3 : x.index < m3.length := by rw [ok3.1]; exact hidx
        refine ⟨m3.set x.index ((gateVals inputs gates).getD x.index 0), ?_,
          MemoOK_set gates inputs m3 x.index ok3⟩
        rw [List.getElem?_set_self hm3]
        simp [opVal, baseVal, hk]
      · rw [if_neg hmv]
        refine ⟨memo, ?_, hmemo⟩
        rcases hmemo.2 x.index _ (List.getElem?_eq_getElem hmlt) with h1 | h1
        · exact absurd h1 hmv
        · simp [opVal, baseVal, hk, h1]
    · exact ⟨memo, evalInput_leaf n gates inputs _ hin (f + 1) x memo hwf hk, hmemo⟩

theorem MemoOK_fresh (gates : List MIGGate) (inputs : List Int) :
    MemoOK gates inputs (List.replicate gates.length (-1 : Int)) := by
  refine ⟨List.length_replicate _ _, ?_⟩
  intro k v hk
  left
  have := List.getElem?_mem hk
  exact (List.mem_replicate.mp this).2

/-- Under the DAG invariant `evaluate` returns the value of the output gate with the
output polarity applied. -/
theorem evaluate_spec (m : MIG) (inputs : List Int) (hdag : DagInv m.n_vars m.gates)
    (hin : inputs.length = m.n_vars) (hout : m.output_gate < m.gates.length) :
    m.evaluate inputs =
      some (if m.output_inverted
        then Int.xor ((gateVals inputs m.gates).getD m.output_gate 0) 1
        else (gateVals inputs m.gates).getD m.output_gate 0) := by
  obtain ⟨memo', he, _⟩ := evalInput_spec m.n_vars m.gates inputs hdag hin (m.gates.length + 1)
    (MIG.NODE m.output_gate false) _
    ⟨fun hk => by simp [MIG.NODE] at hk, fun _ => hout⟩
    (fun _ => Nat.lt_succ_of_lt hout) (MemoOK_fresh m.gates inputs)
  unfold MIG.evaluate
  simp only [he]
  simp [opVal, baseVal, MIG.NODE, MIG.applyInv]

/-! ## The cache key determines the operands -/

theorem digitChar_toNat (k : Nat) (h : k < 10) : (Nat.digitChar k).toNat = 48 + k := by
  interval_cases k <;> rfl

theorem decimalValue_snoc (s : List Char) (ch : Char) :
    decimalValue (s ++ [ch]) = 10 * decimalValue s + (ch.toNat - 48) := by
  simp [decimalValue, List.foldl_append]

theorem toDigitsCore_spec :
    ∀ (fuel n : Nat) (ds : List Char), n < fuel →
      ∃ pre, Nat.toDigitsCore 10 fuel n ds = pre ++ ds ∧ decimalValue pre = n ∧
        ∀ ch ∈ pre, 48 ≤ ch.toNat ∧ ch.toNat ≤ 57 := by
  intro fuel
  induction fuel with
  | zero => intro n ds h; exact absurd h (Nat.not_lt_zero _)
  | succ f ih =>
    intro n ds h
    have hd : (Nat.digitChar (n % 10)).toNat = 48 + n % 10 :=
      digitChar_toNat _ (Nat.mod_lt _ (by norm_num))
    rw [Nat.toDigitsCore]
    by_cases h0 : n / 10 = 0
    · rw [if_pos h0]
      refine ⟨[Nat.digitChar (n % 10)], rfl, ?_, ?_⟩
      · simp only [decimalValue, List.foldl_cons, List.foldl_nil, hd]
        omega
      · intro ch hch
        rw [List.mem_singleton] at hch
        subst hch
        rw [hd]
        omega
    · rw [if_neg h0]
      obtain ⟨pre, hpre, hval, hdig⟩ := ih (n / 10) (Nat.digitChar (n % 10) :: ds) (by omega)
      refine ⟨pre ++ [Nat.digitChar (n % 10)], ?_, ?_, ?_⟩
      · rw [hpre]; simp
      · rw [decimalValue_snoc, hval, hd]
        omega
      · intro ch hch
        rw [List.mem_append, List.mem_singleton] at hch
        rcases hch with hch | hch
        · exact hdig ch hch
        · subst hch
          rw [hd]
          omega

theorem to_string_spec (n : Nat) :
    decimalValue (to_string n) = n ∧ ∀ ch ∈ to_string n, 48 ≤ ch.toNat ∧ ch.toNat ≤ 57 := by
  obtain ⟨pre, hpre, hval, hdig⟩ := toDigitsCore_spec (n + 1) n [] (Nat.lt_succ_self n)
  have : to_string n = pre := by
    unfold to_string Nat.toDigits
    rw [hpre, List.append_nil]
  rw [this]
  exact ⟨hval, hdig⟩

theorem to_string_injective (a b : Nat) (h : to_string a = to_string b) : a = b := by
  rw [← (to_string_spec a).1, ← (to_string_spec b).1, h]

theorem to_string_no_comma (n : Nat) : ',' ∉ to_string n := by
  intro h
  have := (to_string_spec n).2 ',' h
  revert this
  decide

theorem encode_input_eq (x : MIGInput) :
    encode_input x =
      (match x.kind with
        | Kind.PI => 'P'
        | Kind.CONST0 => '0'
        | Kind.CONST1 => '1'
        | Kind.NODE => 'N') ::
      (if x.inverted then '\'' :: '#' :: to_string x.index else '#' :: to_string x.index) := by
  unfold encode_input
  cases x.inverted <;> simp

theorem encode_input_injective (x y : MIGInput) (h : encode_input x = encode_input y) :
    x = y := by
  rw [encode_input_eq, encode_input_eq] at h
  obtain ⟨xk, xi, xv⟩ := x
  obtain ⟨yk, yi, yv⟩ := y
  simp only [List.cons.injEq] at h
  obtain ⟨hk, ht⟩ := h
  have hkind : xk = yk := by
    cases xk <;> cases yk <;> first | rfl | (exfalso; revert hk; decide)
  subst hkind
  cases xv <;> cases yv
  · simp only [Bool.false_eq_true, ite_false, List.cons.injEq, true_and] at ht
    rw [to_string_injective _ _ ht]
  · simp only [Bool.false_eq_true, ite_false, ite_true, List.cons.injEq] at ht
    exact absurd ht.1 (by decide)
  · simp only [Bool.false_eq_true, ite_false, ite_true, List.cons.injEq] at ht
    exact absurd ht.1 (by decide)
  · simp only [ite_true, List.cons.injEq, true_and] at ht
    rw [to_string_injective _ _ ht]

theorem encode_input_no_comma (x : MIGInput) : ',' ∉ encode_input x := by
  obtain ⟨xk, xi, xv⟩ := x
  unfold encode_input
  intro h
  have hn := to_string_no_comma xi
  cases xk <;> cases xv <;> simp at h <;> exact hn h

theorem split_at_comma (l1 l2 r1 r2 : List Char) (h1 : ',' ∉ l1) (h2 : ',' ∉ l2)
    (h : l1 ++ ',' :: r1 = l2 ++ ',' :: r2) : l1 = l2 ∧ r1 = r2 := by
  induction l1 generalizing l2 with
  | nil =>
    cases l2 with
    | nil => simpa using h
    | cons c l2 =>
      simp only [List.nil_append, List.cons_append, List.cons.injEq] at h
      exact absurd (h.1 ▸ List.mem_cons_self _ _) h2
  | cons c l1 ih =>
    cases l2 with
    | nil =>
      simp only [List.nil_append, List.cons_append, List.cons.injEq] at h
      exact absurd (h.1 ▸ List.mem_cons_self _ _) h1
    | cons d l2 =>
      simp only [List.cons_append, List.cons.injEq] at h
      obtain ⟨hl, hr⟩ := ih l2 (fun hc => h1 (List.mem_cons_of_mem _ hc))
        (fun hc => h2 (List.mem_cons_of_mem _ hc)) h.2
      exact ⟨by rw [h.1, hl], hr⟩

theorem key_insert_perm (x : InKey) (l : List InKey) : (key_insert x l).Perm (x :: l) := by
  induction l with
  | nil => exact List.Perm.refl _
  | cons y ys ih =>
    unfold key_insert
    split
    · exact List.Perm.refl _
    · exact ((List.Perm.cons y ih).trans (List.Perm.swap x y ys))

theorem key_sort_perm (l : List InKey) : (key_sort l).Perm l := by
  induction l with
  | nil => exact List.Perm.refl _
  | cons x xs ih =>
    unfold key_sort
    exact (key_insert_perm x _).trans (List.Perm.cons x ih)

theorem maj_key_eq (x y z : MIGInput) :
    ∃ k0 k1 k2, key_sort [key_of x, key_of y, key_of z] = [k0, k1, k2] ∧
      maj_key x y z = "MAJ(".toList ++ k0.full ++ [','] ++ k1.full ++ [','] ++ k2.full ++ [')']
      := by
  have hlen := (key_sort_perm [key_of x, key_of y, key_of z]).length_eq
  obtain ⟨k0, k1, k2, hk⟩ := List.length_eq_three.mp hlen
  refine ⟨k0, k1, k2, hk, ?_⟩
  unfold maj_key
  rw [hk]

theorem sorted_full_no_comma (x y z : MIGInput) (k : InKey)
    (hk : k ∈ key_sort [key_of x, key_of y, key_of z]) : ',' ∉ k.full := by
  have hmem := (key_sort_perm _).mem_iff.mp hk
  simp only [List.mem_cons, List.mem_singleton, List.not_mem_nil, or_false] at hmem
  rcases hmem with h | h | h <;> subst h <;> exact encode_input_no_comma _

/-- Two operand triples with the same cache key are rearrangements of each other. -/
theorem maj_key_perm (x y z x' y' z' : MIGInput) (h : maj_key x y z = maj_key x' y' z') :
    [x, y, z].Perm [x', y', z'] := by
  obtain ⟨k0, k1, k2, hk, hkey⟩ := maj_key_eq x y z
  obtain ⟨j0, j1, j2, hj, hkey'⟩ := maj_key_eq x' y' z'
  rw [hkey, hkey'] at h
  simp only [List.append_assoc, List.singleton_append] at h
  have h0 := List.append_cancel_left h
  have nk : ∀ k ∈ [k0, k1, k2], ',' ∉ k.full :=
    fun k hm => sorted_full_no_comma x y z k (hk ▸ hm)
  have nj : ∀ k ∈ [j0, j1, j2], ',' ∉ k.full :=
    fun k hm => sorted_full_no_comma x' y' z' k (hj ▸ hm)
  obtain ⟨e0, h1⟩ := split_at_comma _ _ _ _ (nk k0 (by simp)) (nj j0 (by simp)) h0
  obtain ⟨e1, h2⟩ := split_at_comma _ _ _ _ (nk k1 (by simp)) (nj j1 (by simp)) h1
  have e2 : k2.full = j2.full := List.append_cancel_right h2
  have hfull : (key_sort [key_of x, key_of y, key_of z]).map InKey.full =
      (key_sort [key_of x', key_of y', key_of z']).map InKey.full := by
    rw [hk, hj]; simp [e0, e1, e2]
  have p1 : ([x, y, z].map encode_input).Perm ([x', y', z'].map encode_input) := by
    have q1 := ((key_sort_perm [key_of x, key_of y, key_of z]).map InKey.full).symm
    have q2 := (key_sort_perm [key_of x', key_of y', key_of z']).map InKey.full
    rw [hfull] at q1
    simpa [key_of] using q1.trans q2
  haveI : Nonempty MIGInput := ⟨MIG.C0⟩
  obtain ⟨g, hg⟩ :=
    (Function.Injective.hasLeftInverse
      (f := encode_input) (fun a b hab => encode_input_injective a b hab) :
      Function.HasLeftInverse encode_input)
  have p2 := p1.map g
  simpa [hg _] using p2

/-! ## Builder operations -/

theorem maj_bit_same (v w : Int) (hv : isBit v) (hw : isBit w) :
    MIGGate.maj v v w = v ∧ MIGGate.maj v w v = v ∧ MIGGate.maj w v v = v := by
  unfold MIGGate.maj
  rcases hv with h | h <;> rcases hw with h' | h' <;> subst h <;> subst h' <;> decide

theorem maj_bit_compl (v w : Int) (hv : isBit v) (hw : isBit w) :
    MIGGate.maj v (1 - v) w = w ∧ MIGGate.maj v w (1 - v) = w ∧ MIGGate.maj w v (1 - v) = w := by
  unfold MIGGate.maj
  rcases hv with h | h <;> rcases hw with h' | h' <;> subst h <;> subst h' <;> decide

theorem maj_perm (f : MIGInput → Int) (x y z x' y' z' : MIGInput)
    (h : [x, y, z].Perm [x', y', z']) :
    MIGGate.maj (f x) (f y) (f z) = MIGGate.maj (f x') (f y') (f z') := by
  have hs := (h.map f).sum_eq
  simp only [List.map_cons, List.map_nil, List.sum_cons, List.sum_nil] at hs
  unfold MIGGate.maj
  have e : f x + f y + f z = f x' + f y' + f z' := by omega
  rw [e]

theorem equal_inputs_eq (x y : MIGInput) (h : equal_inputs x y = true) : x = y := by
  obtain ⟨xk, xi, xv⟩ := x
  obtain ⟨yk, yi, yv⟩ := y
  simp only [equal_inputs, Bool.and_eq_true, decide_eq_true_eq] at h
  obtain ⟨⟨h1, h2⟩, h3⟩ := h
  rw [h1, h2, h3]

theorem applyInv_true_bit (v : Int) (h : isBit v) : MIG.applyInv true v = 1 - v := by
  unfold MIG.applyInv
  rcases h with h | h <;> subst h <;> decide

theorem applyInv_false (v : Int) : MIG.applyInv false v = v := by
  simp [MIG.applyInv]

theorem complementary_opVal (inputs vals : List Int) (x y : MIGInput)
    (hi : ∀ v ∈ inputs, isBit v) (hv : ∀ v ∈ vals, isBit v)
    (h : complementary x y = true) :
    opVal inputs vals y = 1 - opVal inputs vals x := by
  have hb := baseVal_isBit inputs vals x hi hv
  have hbase : baseVal inputs vals y = baseVal inputs vals x := by
    simp only [complementary, same_base, Bool.and_eq_true, decide_eq_true_eq] at h
    unfold baseVal
    rw [h.1.1.1, h.1.1.2]
  have hne : x.inverted ≠ y.inverted := by
    simp only [complementary, Bool.and_eq_true, bne_iff_ne] at h
    exact h.1.2
  unfold opVal
  rw [hbase]
  cases hx : x.inverted <;> cases hy : y.inverted
  · rw [hx, hy] at hne; exact absurd rfl hne
  · rw [applyInv_true_bit _ hb, applyInv_false]
  · rw [applyInv_true_bit _ hb, applyInv_false]; omega
  · rw [hx, hy] at hne; exact absurd rfl hne

theorem BuilderExt_refl (b : MIGBuilder) : BuilderExt b b := ⟨rfl, [], by simp⟩

theorem BuilderExt_trans (b1 b2 b3 : MIGBuilder) (h12 : BuilderExt b1 b2)
    (h23 : BuilderExt b2 b3) : BuilderExt b1 b3 := by
  obtain ⟨n12, e12, g12⟩ := h12
  obtain ⟨n23, e23, g23⟩ := h23
  exact ⟨by rw [n23, n12], e12 ++ e23, by rw [g23, g12, List.append_assoc]⟩

theorem BuilderExt_length (b1 b2 : MIGBuilder) (h : BuilderExt b1 b2) :
    b1.mig.gates.length ≤ b2.mig.gates.length := by
  obtain ⟨_, ex, hex⟩ := h
  rw [hex, List.length_append]
  exact Nat.le_add_right _ _

theorem valid_ext (b1 b2 : MIGBuilder) (x : MIGInput) (h : BuilderExt b1 b2)
    (hx : b1.valid x) : b2.valid x :=
  ⟨by rw [h.1]; exact wf_mono _ _ _ _ hx.1 (BuilderExt_length b1 b2 h), hx.2⟩

/-- Operands keep their value when the builder appends gates. -/
theorem val_ext (b1 b2 : MIGBuilder) (inputs : List Int) (x : MIGInput)
    (h : BuilderExt b1 b2) (hx : b1.valid x) : b2.val inputs x = b1.val inputs x := by
  obtain ⟨_, ex, hex⟩ := h
  unfold MIGBuilder.val
  rw [hex]
  exact opVal_append inputs _ ex b1.n_vars x hx.1

theorem val_isBit (b : MIGBuilder) (inputs : List Int) (x : MIGInput)
    (hi : ∀ v ∈ inputs, isBit v) : isBit (b.val inputs x) :=
  opVal_isBit inputs _ x hi (gateVals_isBit inputs _)

theorem valid_c0 (b : MIGBuilder) : b.valid MIGBuilder.c0 :=
  ⟨⟨fun h => by simp [MIGBuilder.c0, MIG.C0] at h, fun h => by simp [MIGBuilder.c0, MIG.C0] at h⟩,
    fun _ => rfl⟩

theorem valid_c1 (b : MIGBuilder) : b.valid MIGBuilder.c1 :=
  ⟨⟨fun h => by simp [MIGBuilder.c1, MIG.C1] at h, fun h => by simp [MIGBuilder.c1, MIG.C1] at h⟩,
    fun _ => rfl⟩

theorem val_c0 (b : MIGBuilder) (inputs : List Int) : b.val inputs MIGBuilder.c0 = 0 := by
  simp [MIGBuilder.val, opVal, baseVal, MIGBuilder.c0, MIG.C0, MIG.applyInv]

theorem val_c1 (b : MIGBuilder) (inputs : List Int) : b.val inputs MIGBuilder.c1 = 1 := by
  simp [MIGBuilder.val, opVal, baseVal, MIGBuilder.c1, MIG.C1, MIG.applyInv]

theorem StepOK_same (b : MIGBuilder) (x : MIGInput) (hb : BuilderInv b) (hx : b.valid x) :
    StepOK b (x, b) :=
  ⟨hb, BuilderExt_refl b, hx⟩

theorem DagInv_snoc (n : Nat) (gs : List MIGGate) (x y z : MIGInput) (h : DagInv n gs)
    (hx : x.wf n gs.length) (hy : y.wf n gs.length) (hz : z.wf n gs.length) :
    DagInv n (gs ++ [{ id := gs.length, a := x, b := y, c := z }]) := by
  intro k g hk
  rcases Nat.lt_or_ge k gs.length with hlt | hge
  · rw [List.getElem?_append_left hlt] at hk
    exact h k g hk
  · rw [List.getElem?_append_right hge] at hk
    have hk0 : k - gs.length = 0 := by
      rcases Nat.eq_zero_or_pos (k - gs.length) with h0 | h0
      · exact h0
      · rw [List.getElem?_eq_none (by simp only [List.length_singleton]; omega)] at hk; cases hk
    rw [hk0] at hk
    have hkeq : k = gs.length := by omega
    simp only [List.getElem?_cons_zero, Option.some.injEq] at hk
    subst hk
    subst hkeq
    exact ⟨rfl, hx, hy, hz⟩

/-- Appending a gate through `addGate` keeps the builder invariant when the cache is left
unchanged. -/
theorem BuilderInv_addGate (b : MIGBuilder) (x y z : MIGInput) (hb : BuilderInv b)
    (hx : x.wf b.n_vars b.mig.gates.length) (hy : y.wf b.n_vars b.mig.gates.length)
    (hz : z.wf b.n_vars b.mig.gates.length) :
    BuilderInv { b with mig := (b.mig.addGate x y z).2 } := by
  obtain ⟨hn, hdag, hcache⟩ := hb
  refine ⟨hn, DagInv_snoc _ _ x y z hdag hx hy hz, ?_⟩
  intro key id hlook
  obtain ⟨g, hg, hkey⟩ := hcache key id hlook
  refine ⟨g, ?_, hkey⟩
  have hlt : id < b.mig.gates.length := by
    rcases Nat.lt_or_ge id b.mig.gates.length with h1 | h1
    · exact h1
    · rw [List.getElem?_eq_none h1] at hg; cases hg
  simp only [MIG.addGate]
  rw [List.getElem?_append_left hlt]
  exact hg

theorem val_NODE (b : MIGBuilder) (inputs : List Int) (id : Nat) :
    b.val inputs (MIG.NODE id false) = (gateVals inputs b.mig.gates).getD id 0 := by
  simp [MIGBuilder.val, opVal, baseVal, MIG.NODE, MIG.applyInv]

theorem valid_NODE (b : MIGBuilder) (id : Nat) (h : id < b.mig.gates.length) :
    b.valid (MIG.NODE id false) :=
  ⟨⟨fun hk => by simp [MIG.NODE] at hk, fun _ => h⟩, fun hk => by simp [MIG.NODE] at hk⟩

theorem make_maj_hit (b : MIGBuilder) (x y z : MIGInput) (id : Nat) (hb : BuilderInv b)
    (hlook : b.maj_cache.lookup (maj_key x y z) = some id) :
    StepOK b (MIG.NODE id false, b) ∧
      ∀ inputs : List Int, b.val inputs (MIG.NODE id false) =
        MIGGate.maj (b.val inputs x) (b.val inputs y) (b.val inputs z) := by
  obtain ⟨g, hg, hkey⟩ := hb.2.2 _ id hlook
  have hlt : id < b.mig.gates.length := by
    rcases Nat.lt_or_ge id b.mig.gates.length with h1 | h1
    · exact h1
    · rw [List.getElem?_eq_none h1] at hg; cases hg
  refine ⟨StepOK_same b _ hb (valid_NODE b id hlt), ?_⟩
  intro inputs
  rw [val_NODE, gateVals_getD inputs b.n_vars b.mig.gates hb.2.1 id g hg]
  exact (maj_perm (opVal inputs (gateVals inputs b.mig.gates)) x y z g.a g.b g.c
    (maj_key_perm x y z g.a g.b g.c hkey)).symm

theorem make_maj_miss (b b' : MIGBuilder) (x y z : MIGInput) (hb : BuilderInv b)
    (hx : b.valid x) (hy : b.valid y) (hz : b.valid z)
    (hlook : b.maj_cache.lookup (maj_key x y z) = none)
    (hb' : b' = { b with mig := (b.mig.addGate x y z).2,
                         maj_cache := MIGBuilder.emplace b.maj_cache (maj_key x y z)
                           (b.mig.addGate x y z).1 }) :
    StepOK b (MIG.NODE (b.mig.addGate x y z).1 false, b') ∧
      ∀ inputs : List Int,
        b'.val inputs (MIG.NODE (b.mig.addGate x y z).1 false) =
          MIGGate.maj (b.val inputs x) (b.val inputs y) (b.val inputs z) := by
  have hinv0 := BuilderInv_addGate b x y z hb hx.1 hy.1 hz.1
  have hnew : ∀ g : MIGGate, (b.mig.gates ++ [g])[b.mig.gates.length]? = some g := by
    intro g
    rw [List.getElem?_append_right (le_refl _)]
    simp
  have hinv : BuilderInv b' := by
    subst hb'
    refine ⟨hinv0.1, hinv0.2.1, ?_⟩
    intro key id hl
    simp only [MIGBuilder.emplace, hlook, List.lookup_cons] at hl
    by_cases hkk : key = maj_key x y z
    · subst hkk
      simp only [beq_self_eq_true, Option.some.injEq] at hl
      subst hl
      exact ⟨_, hnew _, rfl⟩
    · have : (key == maj_key x y z) = false := by simpa using hkk
      simp only [this] at hl
      exact hinv0.2.2 key id hl
  have hext : BuilderExt b b' := by
    subst hb'
    exact ⟨rfl, [_], rfl⟩
  have hgates : b'.mig.gates =
      b.mig.gates ++ [{ id := b.mig.gates.length, a := x, b := y, c := z }] := by
    subst hb'
    rfl
  have hn : b'.n_vars = b.n_vars := hext.1
  refine ⟨⟨hinv, hext, valid_NODE _ _ (by rw [hgates]; simp [MIG.addGate])⟩, ?_⟩
  intro inputs
  rw [val_NODE]
  have hdag := hinv.2.1
  rw [hgates, hn] at hdag
  have hv := gateVals_getD inputs b.n_vars _ hdag b.mig.gates.length _ (hnew _)
  simp only [MIG.addGate]
  rw [hgates, hv]
  simp only [MIGBuilder.val]
  rw [opVal_append inputs _ _ b.n_vars x hx.1, opVal_append inputs _ _ b.n_vars y hy.1,
    opVal_append inputs _ _ b.n_vars z hz.1]

/-- The operand returned by `make_maj` is usable in the new state and its value is the
majority of the three operand values. -/
theorem make_maj_spec (b : MIGBuilder) (x y z : MIGInput) (hb : BuilderInv b)
    (hx : b.valid x) (hy : b.valid y) (hz : b.valid z) :
    StepOK b (b.make_maj x y z) ∧
      ∀ inputs : List Int, (∀ v ∈ inputs, isBit v) →
        (b.make_maj x y z).2.val inputs (b.make_maj x y z).1 =
          MIGGate.maj (b.val inputs x) (b.val inputs y) (b.val inputs z) := by
  unfold MIGBuilder.make_maj
  split
  · rename_i h
    refine ⟨StepOK_same b x hb hx, fun inputs hi => ?_⟩
    have bx := val_isBit b inputs x hi
    have by' := val_isBit b inputs y hi
    have bz := val_isBit b inputs z hi
    rcases Bool.or_eq_true _ _ ▸ h with h1 | h1
    · rw [← equal_inputs_eq x y h1]; exact (maj_bit_same _ _ bx bz).1.symm
    · rw [← equal_inputs_eq x z h1]; exact (maj_bit_same _ _ bx by').2.1.symm
  · split
    · rename_i h
      refine ⟨StepOK_same b y hb hy, fun inputs hi => ?_⟩
      rw [← equal_inputs_eq y z h]
      exact (maj_bit_same _ _ (val_isBit b inputs y hi) (val_isBit b inputs x hi)).2.2.symm
    · split
      · rename_i h
        refine ⟨StepOK_same b z hb hz, fun inputs hi => ?_⟩
        have e := complementary_opVal inputs _ x y hi (gateVals_isBit inputs b.mig.gates) h
        simp only [MIGBuilder.val]
        rw [e]
        exact (maj_bit_compl _ _ (val_isBit b inputs x hi) (val_isBit b inputs z hi)).1.symm
      · split
        · rename_i h
          refine ⟨StepOK_same b y hb hy, fun inputs hi => ?_⟩
          have e := complementary_opVal inputs _ x z hi (gateVals_isBit inputs b.mig.gates) h
          simp only [MIGBuilder.val]
          rw [e]
          exact (maj_bit_compl _ _ (val_isBit b inputs x hi) (val_isBit b inputs y hi)).2.1.symm
        · split
          · rename_i h
            refine ⟨StepOK_same b x hb hx, fun inputs hi => ?_⟩
            have e := complementary_opVal inputs _ y z hi (gateVals_isBit inputs b.mig.gates) h
            simp only [MIGBuilder.val]
            rw [e]
            exact (maj_bit_compl _ _ (val_isBit b inputs y hi)
              (val_isBit b inputs x hi)).2.2.symm
          · simp only []
            cases hlook : List.lookup (maj_key x y z) b.maj_cache with
            | some id =>
              simp only []
              obtain ⟨h1, h2⟩ := make_maj_hit b x y z id hb hlook
              exact ⟨h1, fun inputs _ => h2 inputs⟩
            | none =>
              simp only []
              obtain ⟨h1, h2⟩ := make_maj_miss b _ x y z hb hx hy hz hlook rfl
              exact ⟨h1, fun inputs _ => h2 inputs⟩

theorem val_const0 (b : MIGBuilder) (inputs : List Int) (x : MIGInput) (hx : b.valid x)
    (hk : x.kind = Kind.CONST0) : b.val inputs x = 0 := by
  have hinv := hx.2 (Or.inl hk)
  simp [MIGBuilder.val, opVal, baseVal, hk, hinv, MIG.applyInv]

theorem val_const1 (b : MIGBuilder) (inputs : List Int) (x : MIGInput) (hx : b.valid x)
    (hk : x.kind = Kind.CONST1) : b.val inputs x = 1 := by
  have hinv := hx.2 (Or.inr hk)
  simp [MIGBuilder.val, opVal, baseVal, hk, hinv, MIG.applyInv]

theorem maj_zero_and (x y : Int) (hx : isBit x) (hy : isBit y) :
    MIGGate.maj x y 0 = andBit x y := by
  unfold MIGGate.maj andBit
  rcases hx with h | h <;> rcases hy with h' | h' <;> subst h <;> subst h' <;> decide

theorem maj_one_or (x y : Int) (hx : isBit x) (hy : isBit y) :
    MIGGate.maj x y 1 = orBit x y := by
  unfold MIGGate.maj orBit
  rcases hx with h | h <;> rcases hy with h' | h' <;> subst h <;> subst h' <;> decide

theorem StepOK_trans (b : MIGBuilder) (r0 r : MIGInput × MIGBuilder) (h0 : StepOK b r0)
    (h : StepOK r0.2 r) : StepOK b r :=
  ⟨h.1, BuilderExt_trans _ _ _ h0.2.1 h.2.1, h.2.2⟩

/-- The operand returned by `and2` has the conjunction of the two operand values. -/
theorem and2_spec (b : MIGBuilder) (x y : MIGInput) (hb : BuilderInv b)
    (hx : b.valid x) (hy : b.valid y) :
    StepOK b (b.and2 x y) ∧
      ∀ inputs : List Int, (∀ v ∈ inputs, isBit v) →
        (b.and2 x y).2.val inputs (b.and2 x y).1 = andBit (b.val inputs x) (b.val inputs y)
    := by
  unfold MIGBuilder.and2
  split
  · rename_i h
    refine ⟨StepOK_same b _ hb (valid_c0 b), fun inputs hi => ?_⟩
    have by' := val_isBit b inputs y hi
    have bx := val_isBit b inputs x hi
    rw [val_c0]
    rcases h with h | h
    · rw [val_const0 b inputs x hx h]; simp [andBit]
    · rw [val_const0 b inputs y hy h]; simp [andBit]
  · split
    · rename_i h
      refine ⟨StepOK_same b _ hb hy, fun inputs hi => ?_⟩
      rw [val_const1 b inputs x hx h]
      rcases val_isBit b inputs y hi with h' | h' <;> simp [andBit, h']
    · split
      · rename_i h
        refine ⟨StepOK_same b _ hb hx, fun inputs hi => ?_⟩
        rw [val_const1 b inputs y hy h]
        rcases val_isBit b inputs x hi with h' | h' <;> simp [andBit, h']
      · split
        · rename_i h
          refine ⟨StepOK_same b _ hb hx, fun inputs hi => ?_⟩
          rw [← equal_inputs_eq x y h]
          rcases val_isBit b inputs x hi with h' | h' <;> simp [andBit, h']
        · split
          · rename_i h
            refine ⟨StepOK_same b _ hb (valid_c0 b), fun inputs hi => ?_⟩
            have e := complementary_opVal inputs _ x y hi (gateVals_isBit inputs b.mig.gates) h
            rw [val_c0]
            simp only [MIGBuilder.val]
            rw [e]
            rcases val_isBit b inputs x hi with h' | h' <;>
              simp only [MIGBuilder.val] at h' <;> simp [andBit, h']
          · obtain ⟨h1, h2⟩ := make_maj_spec b x y MIGBuilder.c0 hb hx hy (valid_c0 b)
            refine ⟨h1, fun inputs hi => ?_⟩
            rw [h2 inputs hi, val_c0]
            exact maj_zero_and _ _ (val_isBit b inputs x hi) (val_isBit b inputs y hi)

/-- The operand returned by `or2` has the disjunction of the two operand values. -/
theorem or2_spec (b : MIGBuilder) (x y : MIGInput) (hb : BuilderInv b)
    (hx : b.valid x) (hy : b.valid y) :
    StepOK b (b.or2 x y) ∧
      ∀ inputs : List Int, (∀ v ∈ inputs, isBit v) →
        (b.or2 x y).2.val inputs (b.or2 x y).1 = orBit (b.val inputs x) (b.val inputs y)
    := by
  unfold MIGBuilder.or2
  split
  · rename_i h
    refine ⟨StepOK_same b _ hb (valid_c1 b), fun inputs hi => ?_⟩
    rw [val_c1]
    rcases h with h | h
    · rw [val_const1 b inputs x hx h]; simp [orBit]
    · rw [val_const1 b inputs y hy h]; simp [orBit]
  · split
    · rename_i h
      refine ⟨StepOK_same b _ hb hy, fun inputs hi => ?_⟩
      rw [val_const0 b inputs x hx h]
      rcases val_isBit b inputs y hi with h' | h' <;> simp [orBit, h']
    · split
      · rename_i h
        refine ⟨StepOK_same b _ hb hx, fun inputs hi => ?_⟩
        rw [val_const0 b inputs y hy h]
        rcases val_isBit b inputs x hi with h' | h' <;> simp [orBit, h']
      · split
        · rename_i h
          refine ⟨StepOK_same b _ hb hx, fun inputs hi => ?_⟩
          rw [← equal_inputs_eq x y h]
          rcases val_isBit b inputs x hi with h' | h' <;> simp [orBit, h']
        · split
          · rename_i h
            refine ⟨StepOK_same b _ hb (valid_c1 b), fun inputs hi => ?_⟩
            have e := complementary_opVal inputs _ x y hi (gateVals_isBit inputs b.mig.gates) h
            rw [val_c1]
            simp only [MIGBuilder.val]
            rw [e]
            rcases val_isBit b inputs x hi with h' | h' <;>
              simp only [MIGBuilder.val] at h' <;> simp [orBit, h']
          · obtain ⟨h1, h2⟩ := make_maj_spec b x y MIGBuilder.c1 hb hx hy (valid_c1 b)
            refine ⟨h1, fun inputs hi => ?_⟩
            rw [h2 inputs hi, val_c1]
            exact maj_one_or _ _ (val_isBit b inputs x hi) (val_isBit b inputs y hi)

theorem and_chain_loop_spec :
    ∀ (lits : List MIGInput) (b : MIGBuilder) (acc : MIGInput), BuilderInv b → b.valid acc →
      (∀ l ∈ lits, b.valid l) →
      StepOK b (MIGBuilder.and_chain_loop b acc lits) ∧
        ∀ inputs : List Int, (∀ v ∈ inputs, isBit v) →
          (MIGBuilder.and_chain_loop b acc lits).2.val inputs
              (MIGBuilder.and_chain_loop b acc lits).1 =
            if b.val inputs acc = 1 ∧ ∀ l ∈ lits, b.val inputs l = 1 then 1 else 0 := by
  intro lits
  induction lits with
  | nil =>
    intro b acc hb hacc _
    refine ⟨StepOK_same b acc hb hacc, fun inputs hi => ?_⟩
    simp only [MIGBuilder.and_chain_loop]
    rcases val_isBit b inputs acc hi with h | h <;> simp [h]
  | cons l rest ih =>
    intro b acc hb hacc hl
    obtain ⟨s0, v0⟩ := and2_spec b acc l hb hacc (hl l (List.mem_cons_self _ _))
    have hrest : ∀ l' ∈ rest, b.valid l' := fun l' h' => hl l' (List.mem_cons_of_mem _ h')
    rw [MIGBuilder.and_chain_loop]
    by_cases hk : (b.and2 acc l).1.kind = Kind.CONST0
    · rw [if_pos hk]
      refine ⟨⟨s0.1, s0.2.1, valid_c0 _⟩, fun inputs hi => ?_⟩
      have e0 := v0 inputs hi
      rw [val_const0 _ inputs _ s0.2.2 hk] at e0
      rw [val_c0]
      have hnot : ¬ (b.val inputs acc = 1 ∧ ∀ l' ∈ l :: rest, b.val inputs l' = 1) := by
        rintro ⟨h1, h2⟩
        rw [h1, h2 l (List.mem_cons_self _ _)] at e0
        simp [andBit] at e0
      rw [if_neg hnot]
    · rw [if_neg hk]
      obtain ⟨s1, v1⟩ := ih (b.and2 acc l).2 (b.and2 acc l).1 s0.1 s0.2.2
        (fun l' h' => valid_ext _ _ l' s0.2.1 (hrest l' h'))
      refine ⟨StepOK_trans b _ _ s0 s1, fun inputs hi => ?_⟩
      rw [v1 inputs hi, v0 inputs hi]
      have hc : (andBit (b.val inputs acc) (b.val inputs l) = 1 ∧
            ∀ l' ∈ rest, (b.and2 acc l).2.val inputs l' = 1) ↔
          (b.val inputs acc = 1 ∧ ∀ l' ∈ l :: rest, b.val inputs l' = 1) := by
        constructor
        · rintro ⟨h1, h2⟩
          have h1' : b.val inputs acc = 1 ∧ b.val inputs l = 1 := by
            by_contra hc
            simp [andBit, hc] at h1
          refine ⟨h1'.1, fun l' h' => ?_⟩
          rcases List.mem_cons.mp h' with h'' | h''
          · rw [h'']; exact h1'.2
          · rw [← val_ext _ _ inputs l' s0.2.1 (hrest l' h'')]; exact h2 l' h''
        · rintro ⟨h1, h2⟩
          refine ⟨by simp [andBit, h1, h2 l (List.mem_cons_self _ _)], fun l' h' => ?_⟩
          rw [val_ext _ _ inputs l' s0.2.1 (hrest l' h')]
          exact h2 l' (List.mem_cons_of_mem _ h')
      simp only [hc]

/-- The operand returned by `and_chain` is 1 exactly when every literal is 1. -/
theorem and_chain_spec (b : MIGBuilder) (lits : List MIGInput) (hb : BuilderInv b)
    (hl : ∀ l ∈ lits, b.valid l) :
    StepOK b (b.and_chain lits) ∧
      ∀ inputs : List Int, (∀ v ∈ inputs, isBit v) →
        (b.and_chain lits).2.val inputs (b.and_chain lits).1 =
          if ∀ l ∈ lits, b.val inputs l = 1 then 1 else 0 := by
  cases lits with
  | nil =>
    refine ⟨StepOK_same b _ hb (valid_c1 b), fun inputs _ => ?_⟩
    simp [MIGBuilder.and_chain, val_c1]
  | cons l0 rest =>
    obtain ⟨s, v⟩ := and_chain_loop_spec rest b l0 hb (hl l0 (List.mem_cons_self _ _))
      (fun l' h' => hl l' (List.mem_cons_of_mem _ h'))
    refine ⟨s, fun inputs hi => ?_⟩
    simp only [MIGBuilder.and_chain]
    rw [v inputs hi]
    simp only [List.forall_mem_cons]

theorem or_chain_loop_spec :
    ∀ (terms : List MIGInput) (b : MIGBuilder) (acc : MIGInput), BuilderInv b → b.valid acc →
      (∀ t ∈ terms, b.valid t) →
      StepOK b (MIGBuilder.or_chain_loop b acc terms) ∧
        ∀ inputs : List Int, (∀ v ∈ inputs, isBit v) →
          (MIGBuilder.or_chain_loop b acc terms).2.val inputs
              (MIGBuilder.or_chain_loop b acc terms).1 =
            if b.val inputs acc = 1 ∨ ∃ t ∈ terms, b.val inputs t = 1 then 1 else 0 := by
  intro terms
  induction terms with
  | nil =>
    intro b acc hb hacc _
    refine ⟨StepOK_same b acc hb hacc, fun inputs hi => ?_⟩
    simp only [MIGBuilder.or_chain_loop]
    rcases val_isBit b inputs acc hi with h | h <;> simp [h]
  | cons t rest ih =>
    intro b acc hb hacc hl
    obtain ⟨s0, v0⟩ := or2_spec b acc t hb hacc (hl t (List.mem_cons_self _ _))
    have hrest : ∀ t' ∈ rest, b.valid t' := fun t' h' => hl t' (List.mem_cons_of_mem _ h')
    rw [MIGBuilder.or_chain_loop]
    by_cases hk : (b.or2 acc t).1.kind = Kind.CONST1
    · rw [if_pos hk]
      refine ⟨⟨s0.1, s0.2.1, valid_c1 _⟩, fun inputs hi => ?_⟩
      have e0 := v0 inputs hi
      rw [val_const1 _ inputs _ s0.2.2 hk] at e0
      rw [val_c1]
      have hyes : b.val inputs acc = 1 ∨ ∃ t' ∈ t :: rest, b.val inputs t' = 1 := by
        by_cases h1 : b.val inputs acc = 1
        · exact Or.inl h1
        · right
          refine ⟨t, List.mem_cons_self _ _, ?_⟩
          by_contra h2
          simp [orBit, h1, h2] at e0
      rw [if_pos hyes]
    · rw [if_neg hk]
      obtain ⟨s1, v1⟩ := ih (b.or2 acc t).2 (b.or2 acc t).1 s0.1 s0.2.2
        (fun t' h' => valid_ext _ _ t' s0.2.1 (hrest t' h'))
      refine ⟨StepOK_trans b _ _ s0 s1, fun inputs hi => ?_⟩
      rw [v1 inputs hi, v0 inputs hi]
      have hc : (orBit (b.val inputs acc) (b.val inputs t) = 1 ∨
            ∃ t' ∈ rest, (b.or2 acc t).2.val inputs t' = 1) ↔
          (b.val inputs acc = 1 ∨ ∃ t' ∈ t :: rest, b.val inputs t' = 1) := by
        constructor
        · rintro (h1 | ⟨t', h', h2⟩)
          · have h1' : b.val inputs acc = 1 ∨ b.val inputs t = 1 := by
              by_contra hc
              simp [orBit, hc] at h1
            rcases h1' with h | h
            · exact Or.inl h
            · exact Or.inr ⟨t, List.mem_cons_self _ _, h⟩
          · right
            refine ⟨t', List.mem_cons_of_mem _ h', ?_⟩
            rw [← val_ext _ _ inputs t' s0.2.1 (hrest t' h')]; exact h2
        · rintro (h1 | ⟨t', h', h2⟩)
          · left; simp [orBit, h1]
          · rcases List.mem_cons.mp h' with h'' | h''
            · left; rw [h''] at h2; simp [orBit, h2]
            · right
              refine ⟨t', h'', ?_⟩
              rw [val_ext _ _ inputs t' s0.2.1 (hrest t' h'')]; exact h2
      simp only [hc]

/-- The operand returned by `or_chain` is 1 exactly when some term is 1. -/
theorem or_chain_spec (b : MIGBuilder) (terms : List MIGInput) (hb : BuilderInv b)
    (hl : ∀ t ∈ terms, b.valid t) :
    StepOK b (b.or_chain terms) ∧
      ∀ inputs : List Int, (∀ v ∈ inputs, isBit v) →
        (b.or_chain terms).2.val inputs (b.or_chain terms).1 =
          if ∃ t ∈ terms, b.val inputs t = 1 then 1 else 0 := by
  cases terms with
  | nil =>
    refine ⟨StepOK_same b _ hb (valid_c0 b), fun inputs _ => ?_⟩
    simp [MIGBuilder.or_chain, val_c0]
  | cons t0 rest =>
    obtain ⟨s, v⟩ := or_chain_loop_spec rest b t0 hb (hl t0 (List.mem_cons_self _ _))
      (fun t' h' => hl t' (List.mem_cons_of_mem _ h'))
    refine ⟨s, fun inputs hi => ?_⟩
    simp only [MIGBuilder.or_chain]
    rw [v inputs hi]
    simp only [List.exists_mem_cons_iff]

/-! ## Rows and literals -/

theorem shift_and_one (x j : Nat) : (x >>> j) &&& 1 = if x.testBit j then 1 else 0 := by
  rw [Nat.and_one_is_mod, Nat.shiftRight_eq_div_pow, Nat.testBit_to_div_mod]
  by_cases h : x / 2 ^ j % 2 = 1
  · simp [h]
  · have : x / 2 ^ j % 2 = 0 := by omega
    simp [this]

theorem testBit_eq_false_of_lt_pow (x n j : Nat) (hx : x < 2 ^ n) (hj : n ≤ j) :
    x.testBit j = false :=
  Nat.testBit_lt_two_pow (lt_of_lt_of_le hx (Nat.pow_le_pow_right (by norm_num) hj))

/-- Two rows below `2^n` that agree on the bits of all `n` variables are the same row. -/
theorem row_eq_of_bits (n i r : Nat) (hi : i < 2 ^ n) (hr : r < 2 ^ n)
    (h : ∀ k, k < n → (i >>> (n - 1 - k)) &&& 1 = (r >>> (n - 1 - k)) &&& 1) : i = r := by
  apply Nat.eq_of_testBit_eq
  intro j
  rcases Nat.lt_or_ge j n with hj | hj
  · have e := h (n - 1 - j) (by omega)
    rw [show n - 1 - (n - 1 - j) = j by omega, shift_and_one, shift_and_one] at e
    cases hi' : i.testBit j <;> cases hr' : r.testBit j <;> simp [hi', hr'] at e ⊢
  · rw [testBit_eq_false_of_lt_pow i n j hi hj, testBit_eq_false_of_lt_pow r n j hr hj]

theorem msbAssignment_length (n i : Nat) : (msbAssignment n i).length = n := by
  simp [msbAssignment]

theorem msbAssignment_isBit (n i : Nat) : ∀ v ∈ msbAssignment n i, isBit v := by
  intro v hv
  simp only [msbAssignment, List.mem_map, List.mem_range] at hv
  obtain ⟨k, _, rfl⟩ := hv
  rw [shift_and_one]
  split
  · right; rfl
  · left; rfl

theorem msbAssignment_getD (n i k : Nat) (hk : k < n) :
    (msbAssignment n i).getD k 0 = if i.testBit (n - 1 - k) then 1 else 0 := by
  simp only [msbAssignment, List.getD_eq_getElem?_getD, List.getElem?_map,
    List.getElem?_range hk, Option.map_some', Option.getD_some, shift_and_one]
  split <;> rfl

theorem opVal_PI (inputs vals : List Int) (k : Nat) (inv : Bool) :
    opVal inputs vals (MIG.PI k inv) = MIG.applyInv inv (inputs.getD k 0) := rfl

theorem row_lits_eq (n i : Nat) :
    MIGBuilder.row_lits n i =
      (List.range n).map (fun k => MIG.PI k (!(i.testBit (n - 1 - k)))) := by
  unfold MIGBuilder.row_lits
  apply List.map_congr_left
  intro k _
  simp only [shift_and_one]
  cases i.testBit (n - 1 - k) <;> simp

/-- Under the MSB-first assignment of row `r`, the literals of row `i` are all 1 exactly
when `i = r`. -/
theorem rowSelected_msb (n i r : Nat) (hi : i < 2 ^ n) (hr : r < 2 ^ n) :
    rowSelected n i (msbAssignment n r) ↔ i = r := by
  unfold rowSelected
  rw [row_lits_eq]
  constructor
  · intro h
    apply row_eq_of_bits n i r hi hr
    intro k hk
    have hl := h _ (List.mem_map.mpr ⟨k, List.mem_range.mpr hk, rfl⟩)
    rw [opVal_PI, msbAssignment_getD n r k hk] at hl
    rw [shift_and_one i, shift_and_one r]
    cases hbi : i.testBit (n - 1 - k) <;> cases hbr : r.testBit (n - 1 - k) <;>
      rw [hbi, hbr] at hl <;> first | rfl | (exfalso; revert hl; decide)
  · intro h
    subst h
    intro l hl
    obtain ⟨k, hk, rfl⟩ := List.mem_map.mp hl
    have hk' := List.mem_range.mp hk
    rw [opVal_PI, msbAssignment_getD n i k hk']
    cases hbi : i.testBit (n - 1 - k) <;> decide

theorem row_lits_valid (b : MIGBuilder) (i : Nat) :
    ∀ l ∈ MIGBuilder.row_lits b.n_vars i, b.valid l := by
  intro l hl
  rw [row_lits_eq] at hl
  obtain ⟨k, hk, rfl⟩ := List.mem_map.mp hl
  have hk' := List.mem_range.mp hk
  exact ⟨⟨fun _ => hk', fun h => by simp [MIG.PI] at h⟩, fun h => by simp [MIG.PI] at h⟩

theorem row_lits_val (b : MIGBuilder) (n i : Nat) (inputs : List Int) :
    ∀ l ∈ MIGBuilder.row_lits n i, b.val inputs l = opVal inputs [] l := by
  intro l hl
  rw [row_lits_eq] at hl
  obtain ⟨k, _, rfl⟩ := List.mem_map.mp hl
  rfl

/-! ## The sum-of-products construction -/

theorem and_chain_row_val (b : MIGBuilder) (i : Nat) (inputs : List Int) (hb : BuilderInv b)
    (hi : ∀ v ∈ inputs, isBit v) :
    (b.and_chain (MIGBuilder.row_lits b.n_vars i)).2.val inputs
        (b.and_chain (MIGBuilder.row_lits b.n_vars i)).1 = 1 ↔
      rowSelected b.n_vars i inputs := by
  rw [(and_chain_spec b _ hb (row_lits_valid b i)).2 inputs hi]
  have hc : (∀ l ∈ MIGBuilder.row_lits b.n_vars i, b.val inputs l = 1) ↔
      rowSelected b.n_vars i inputs := by
    unfold rowSelected
    constructor
    · intro h l hl; rw [← row_lits_val b _ _ inputs l hl]; exact h l hl
    · intro h l hl; rw [row_lits_val b _ _ inputs l hl]; exact h l hl
  rw [← hc]
  split
  · rename_i h; exact ⟨fun _ => h, fun _ => rfl⟩
  · rename_i h; exact ⟨fun h1 => absurd h1 (by decide), fun h1 => absurd h1 h⟩

theorem sum_terms_loop_spec :
    ∀ (rest : List Char) (b : MIGBuilder) (terms : List MIGInput) (i : Nat),
      BuilderInv b → (∀ t ∈ terms, b.valid t) →
      BuilderInv (MIGBuilder.sum_terms_loop b terms i rest).2 ∧
      BuilderExt b (MIGBuilder.sum_terms_loop b terms i rest).2 ∧
      (∀ t ∈ (MIGBuilder.sum_terms_loop b terms i rest).1,
        (MIGBuilder.sum_terms_loop b terms i rest).2.valid t) ∧
      ∀ inputs : List Int, (∀ v ∈ inputs, isBit v) →
        ((∃ t ∈ (MIGBuilder.sum_terms_loop b terms i rest).1,
            (MIGBuilder.sum_terms_loop b terms i rest).2.val inputs t = 1) ↔
          ((∃ t ∈ terms, b.val inputs t = 1) ∨
            ∃ j, rest[j]? = some '1' ∧ rowSelected b.n_vars (i + j) inputs)) := by
  intro rest
  induction rest with
  | nil =>
    intro b terms i hb ht
    refine ⟨hb, BuilderExt_refl b, ht, fun inputs _ => ?_⟩
    simp only [MIGBuilder.sum_terms_loop, List.getElem?_nil, false_and, exists_false,
      or_false, reduceCtorEq]
  | cons ch rest ih =>
    intro b terms i hb ht
    rw [MIGBuilder.sum_terms_loop]
    by_cases hch : ch = '1'
    · rw [if_pos hch]
      obtain ⟨s0, _⟩ := and_chain_spec b _ hb (row_lits_valid b i)
      have hn : (b.and_chain (MIGBuilder.row_lits b.n_vars i)).2.n_vars = b.n_vars := s0.2.1.1
      have ht' : ∀ t ∈ terms ++ [(b.and_chain (MIGBuilder.row_lits b.n_vars i)).1],
          (b.and_chain (MIGBuilder.row_lits b.n_vars i)).2.valid t := by
        intro t hmem
        rcases List.mem_append.mp hmem with h | h
        · exact valid_ext _ _ t s0.2.1 (ht t h)
        · rw [List.mem_singleton.mp h]; exact s0.2.2
      obtain ⟨i1, i2, i3, i4⟩ := ih _ _ (i + 1) s0.1 ht'
      refine ⟨i1, BuilderExt_trans _ _ _ s0.2.1 i2, i3, fun inputs hi => ?_⟩
      rw [i4 inputs hi, hn]
      have hv := and_chain_row_val b i inputs hb hi
      constructor
      · rintro (⟨t, hmem, hval⟩ | ⟨j, hj, hsel⟩)
        · rcases List.mem_append.mp hmem with h | h
          · left
            exact ⟨t, h, by rw [← val_ext _ _ inputs t s0.2.1 (ht t h)]; exact hval⟩
          · right
            rw [List.mem_singleton.mp h] at hval
            exact ⟨0, by simp [hch], hv.mp hval⟩
        · right
          exact ⟨j + 1, by simpa using hj, by rw [show i + (j + 1) = i + 1 + j by omega]; exact hsel⟩
      · rintro (⟨t, hmem, hval⟩ | ⟨j, hj, hsel⟩)
        · left
          exact ⟨t, List.mem_append_left _ hmem,
            by rw [val_ext _ _ inputs t s0.2.1 (ht t hmem)]; exact hval⟩
        · cases j with
          | zero =>
            left
            exact ⟨_, List.mem_append_right _ (List.mem_singleton_self _), hv.mpr hsel⟩
          | succ j =>
            right
            exact ⟨j, by simpa using hj,
              by rw [show i + 1 + j = i + (j + 1) by omega]; exact hsel⟩
    · rw [if_neg hch]
      obtain ⟨i1, i2, i3, i4⟩ := ih b terms (i + 1) hb ht
      refine ⟨i1, i2, i3, fun inputs hi => ?_⟩
      rw [i4 inputs hi]
      constructor
      · rintro (h | ⟨j, hj, hsel⟩)
        · exact Or.inl h
        · right
          exact ⟨j + 1, by simpa using hj, by rw [show i + (j + 1) = i + 1 + j by omega]; exact hsel⟩
      · rintro (h | ⟨j, hj, hsel⟩)
        · exact Or.inl h
        · cases j with
          | zero =>
            simp only [List.getElem?_cons_zero, Option.some.injEq] at hj
            exact absurd hj hch
          | succ j =>
            right
            exact ⟨j, by simpa using hj,
              by rw [show i + 1 + j = i + (j + 1) by omega]; exact hsel⟩

theorem BuilderInv_new (n : Nat) : BuilderInv (MIGBuilder.new n) := by
  refine ⟨rfl, ?_, ?_⟩
  · intro k g hk
    simp [MIGBuilder.new, MIG.new] at hk
  · intro key id hl
    simp [MIGBuilder.new] at hl

/-- The root operand chosen by `build_from_truth` is usable in the builder state it comes
with, whatever the table. -/
theorem build_root_ok (b : MIGBuilder) (tt : List Char) (hb : BuilderInv b) :
    StepOK b (b.build_root tt) := by
  unfold MIGBuilder.build_root
  split
  · split
    · exact StepOK_same b _ hb (valid_c1 b)
    · exact StepOK_same b _ hb (valid_c0 b)
  · obtain ⟨i1, i2, i3, _⟩ := sum_terms_loop_spec tt b [] 0 hb (fun t h => by simp at h)
    simp only []
    split
    · exact ⟨i1, i2, valid_c0 _⟩
    · rename_i t heq
      exact ⟨i1, i2, i3 t (by rw [heq]; exact List.mem_singleton_self t)⟩
    · exact StepOK_trans b (MIGBuilder.c0, (MIGBuilder.sum_terms_loop b [] 0 tt).2) _
        ⟨i1, i2, valid_c0 _⟩ (or_chain_spec _ _ i1 i3).1

/-- The root operand chosen by `build_from_truth` is 1 exactly on the assignments that
select a row holding `'1'`. -/
theorem build_root_val (b : MIGBuilder) (tt : List Char) (hb : BuilderInv b)
    (hn : b.n_vars ≠ 0) (inputs : List Int) (hi : ∀ v ∈ inputs, isBit v) :
    (b.build_root tt).2.val inputs (b.build_root tt).1 = 1 ↔
      ∃ j, tt[j]? = some '1' ∧ rowSelected b.n_vars j inputs := by
  obtain ⟨i1, i2, i3, i4⟩ := sum_terms_loop_spec tt b [] 0 hb (fun t h => by simp at h)
  have h4 := i4 inputs hi
  simp only [List.not_mem_nil, false_and, exists_false, false_or, Nat.zero_add] at h4
  unfold MIGBuilder.build_root
  rw [if_neg hn]
  simp only []
  rw [← h4]
  split
  · rename_i heq
    rw [heq, val_c0]
    simp
  · rename_i t heq
    rw [heq]
    simp only [List.mem_singleton, exists_eq_left]
  · rw [(or_chain_spec _ _ i1 i3).2 inputs hi]
    split
    · rename_i h; exact ⟨fun _ => h, fun _ => rfl⟩
    · rename_i h; exact ⟨fun h1 => absurd h1 (by decide), fun h1 => absurd h1 h⟩

/-! ## Output materialization and the synthesized network -/

theorem addGate_val (b : MIGBuilder) (x y z : MIGInput) (inputs : List Int)
    (hb : BuilderInv b) (hx : b.valid x) (hy : b.valid y) (hz : b.valid z) :
    (gateVals inputs (b.mig.addGate x y z).2.gates).getD (b.mig.addGate x y z).1 0 =
      MIGGate.maj (b.val inputs x) (b.val inputs y) (b.val inputs z) := by
  have hinv := BuilderInv_addGate b x y z hb hx.1 hy.1 hz.1
  have hnew : ∀ g : MIGGate, (b.mig.gates ++ [g])[b.mig.gates.length]? = some g := by
    intro g
    rw [List.getElem?_append_right (le_refl _)]
    simp
  have hv := gateVals_getD inputs b.n_vars _ hinv.2.1 b.mig.gates.length _ (hnew _)
  simp only [MIG.addGate] at hv ⊢
  rw [hv]
  simp only [MIGBuilder.val]
  rw [opVal_append inputs _ _ b.n_vars x hx.1, opVal_append inputs _ _ b.n_vars y hy.1,
    opVal_append inputs _ _ b.n_vars z hz.1]

theorem maj_zero_one (v : Int) (hv : isBit v) : MIGGate.maj v 0 1 = v := by
  unfold MIGGate.maj
  rcases hv with h | h <;> subst h <;> decide

/-- The gate id returned by `materialize_as_gate` names an existing gate whose value is
the value of the operand. -/
theorem materialize_as_gate_spec (b : MIGBuilder) (x : MIGInput) (hb : BuilderInv b)
    (hx : b.valid x) :
    BuilderInv (b.materialize_as_gate x).2 ∧
      (b.materialize_as_gate x).2.n_vars = b.n_vars ∧
      (b.materialize_as_gate x).1 < (b.materialize_as_gate x).2.mig.gates.length ∧
      ∀ inputs : List Int, (∀ v ∈ inputs, isBit v) →
        (gateVals inputs (b.materialize_as_gate x).2.mig.gates).getD
            (b.materialize_as_gate x).1 0 = b.val inputs x := by
  unfold MIGBuilder.materialize_as_gate
  split
  · rename_i h
    refine ⟨hb, rfl, hx.1.2 h.1, fun inputs _ => ?_⟩
    simp [MIGBuilder.val, opVal, baseVal, h.1, h.2, MIG.applyInv]
  · split
    · rename_i h
      refine ⟨BuilderInv_addGate b _ _ _ hb (valid_c0 b).1 (valid_c0 b).1 (valid_c0 b).1, rfl,
        by simp [MIG.addGate], fun inputs _ => ?_⟩
      simp only []
      rw [addGate_val b _ _ _ inputs hb (valid_c0 b) (valid_c0 b) (valid_c0 b), val_c0,
        val_const0 b inputs x hx h]
      rfl
    · split
      · rename_i h
        refine ⟨BuilderInv_addGate b _ _ _ hb (valid_c1 b).1 (valid_c1 b).1 (valid_c1 b).1, rfl,
          by simp [MIG.addGate], fun inputs _ => ?_⟩
        simp only []
        rw [addGate_val b _ _ _ inputs hb (valid_c1 b) (valid_c1 b) (valid_c1 b), val_c1,
          val_const1 b inputs x hx h]
        rfl
      · refine ⟨BuilderInv_addGate b _ _ _ hb hx.1 (valid_c0 b).1 (valid_c1 b).1, rfl,
          by simp [MIG.addGate], fun inputs hi => ?_⟩
        simp only []
        rw [addGate_val b _ _ _ inputs hb hx (valid_c0 b) (valid_c1 b), val_c0, val_c1]
        exact maj_zero_one _ (val_isBit b inputs x hi)

/-- Whenever `build_from_truth` returns a network, the network satisfies the DAG invariant
and its output names one of its gates. -/
theorem build_from_truth_ok (b : MIGBuilder) (tt : List Char) (m : MIG) (hb : BuilderInv b)
    (h : b.build_from_truth tt = Except.ok m) :
    m.n_vars = b.n_vars ∧ DagInv m.n_vars m.gates ∧ m.output_gate < m.gates.length ∧
      m.output_inverted = false := by
  unfold MIGBuilder.build_from_truth at h
  by_cases hc : tt.length ≠ to_size_t (if b.n_vars = 0 then 1 else shl_one_int b.n_vars)
  · rw [if_pos hc] at h
    cases h
  · rw [if_neg hc] at h
    simp only [Except.ok.injEq] at h
    subst h
    have s := build_root_ok b tt hb
    obtain ⟨m1, m2, m3, _⟩ := materialize_as_gate_spec _ _ s.1 s.2.2
    have hn : (MIGBuilder.materialize_as_gate (b.build_root tt).2 (b.build_root tt).1).2.mig.n_vars
        = b.n_vars := by rw [m1.1, m2, s.2.1.1]
    refine ⟨hn, ?_, m3, rfl⟩
    simp only [MIG.setOutput]
    rw [hn, ← s.2.1.1, ← m2]
    exact m1.2.1

theorem fallback_dag :
    DagInv 1 [{ id := 0, a := MIG.C0, b := MIG.C0, c := MIG.C0 }] := by
  intro k g hk
  cases k with
  | zero =>
    simp only [List.getElem?_cons_zero, Option.some.injEq] at hk
    subst hk
    simp [MIGInput.wf, MIG.C0]
  | succ k => simp at hk

/-- Whenever `synthesize` returns a network, the network satisfies the DAG invariant and
its output names one of its gates. -/
theorem synthesize_ok (tt : List Char) (m : MIG) (h : synthesize tt = Except.ok m) :
    DagInv m.n_vars m.gates ∧ m.output_gate < m.gates.length ∧ m.output_inverted = false := by
  unfold synthesize at h
  simp only [] at h
  split at h
  · simp only [Except.ok.injEq] at h
    subst h
    exact ⟨fallback_dag, by simp [MIG.setOutput, MIG.addGate, MIG.new], rfl⟩
  · exact (build_from_truth_ok _ tt m (BuilderInv_new _) h).2

/-- On a table of length `2^n < 2^31`, the network returned by `synthesize` has `n`
variables, and the value of its output gate under the MSB-first assignment of row `i` is
1 exactly when the table holds `'1'` at `i`. -/
theorem synthesize_val (tt : List Char) (n i : Nat) (hlen : tt.length = 2 ^ n)
    (hsmall : tt.length < 2 ^ 31) (hi : i < 2 ^ n) :
    ∃ m, synthesize tt = Except.ok m ∧ m.n_vars = n ∧
      ((gateVals (msbAssignment n i) m.gates).getD m.output_gate 0 = 1 ↔
        tt[i]? = some '1') := by
  refine ⟨_, synthesize_pow tt n hlen hsmall, ?_, ?_⟩
  · have s := build_root_ok (MIGBuilder.new n) tt (BuilderInv_new n)
    obtain ⟨m1, m2, _, _⟩ := materialize_as_gate_spec _ _ s.1 s.2.2
    simp only [MIG.setOutput]
    rw [m1.1, m2, s.2.1.1]
    rfl
  · have s := build_root_ok (MIGBuilder.new n) tt (BuilderInv_new n)
    obtain ⟨_, _, _, m4⟩ := materialize_as_gate_spec _ _ s.1 s.2.2
    simp only [MIG.setOutput]
    rw [m4 _ (msbAssignment_isBit n i)]
    by_cases hn : n = 0
    · subst hn
      have hi0 : i = 0 := by simpa using hi
      subst hi0
      unfold MIGBuilder.build_root
      rw [if_pos (show (MIGBuilder.new 0).n_vars = 0 from rfl)]
      by_cases h1 : tt[0]? = some '1'
      · simp [h1, val_c1]
      · simp [h1, val_c0]
    · rw [build_root_val (MIGBuilder.new n) tt (BuilderInv_new n) hn _
        (msbAssignment_isBit n i)]
      constructor
      · rintro ⟨j, hj, hsel⟩
        have hjlt : j < 2 ^ n := by
          rw [← hlen]
          rcases Nat.lt_or_ge j tt.length with h1 | h1
          · exact h1
          · rw [List.getElem?_eq_none h1] at hj; cases hj
        have := (rowSelected_msb n j i hjlt hi).mp hsel
        rw [← this]; exact hj
      · intro h
        exact ⟨i, h, (rowSelected_msb n i i hi hi).mpr rfl⟩

/-! ## Truth-table utilities -/

theorem find?_unique {α : Type} (p : α → Bool) (l : List α) (a : α) (ha : a ∈ l)
    (hp : p a = true) (hu : ∀ b ∈ l, p b = true → b = a) : l.find? p = some a := by
  induction l with
  | nil => simp at ha
  | cons x xs ih =>
    rw [List.find?_cons]
    by_cases hx : p x = true
    · rw [hx, hu x (List.mem_cons_self _ _) hx]
    · have hx' : p x = false := by simpa using hx
      rw [hx']
      have hax : a ≠ x := fun h => hx (h ▸ hp)
      exact ih (by simpa [hax] using ha) (fun b hb => hu b (List.mem_cons_of_mem _ hb))

theorem getNumVars_pow (tt : List Char) (n : Nat) (h : tt.length = 2 ^ n) :
    TruthTable.getNumVars tt = Except.ok n := by
  unfold TruthTable.getNumVars
  have hf : (List.range (tt.length + 1)).find? (fun m => decide (2 ^ m = tt.length)) =
      some n := by
    apply find?_unique
    · rw [List.mem_range, h]
      exact Nat.lt_succ_of_lt (Nat.lt_two_pow n)
    · simp [h]
    · intro m _ hm
      simp only [decide_eq_true_eq] at hm
      rw [h] at hm
      exact Nat.pow_right_injective (le_refl 2) hm
  rw [hf]

theorem truthTableToBinary_snoc (l : List Char) (ch : Char) :
    TruthTable.truthTableToBinary (l ++ [ch]) =
      2 * TruthTable.truthTableToBinary l + (if ch = '1' then 1 else 0) := by
  simp [TruthTable.truthTableToBinary, List.foldl_append]

/-- On strings over `'0'`/`'1'` of one length the ordering key is injective. -/
theorem truthTableToBinary_injective :
    ∀ (l1 l2 : List Char), l1.length = l2.length → isBinary l1 → isBinary l2 →
      TruthTable.truthTableToBinary l1 = TruthTable.truthTableToBinary l2 → l1 = l2 := by
  intro l1
  induction l1 using List.reverseRecOn with
  | nil =>
    intro l2 hlen _ _ _
    exact (List.length_eq_zero.mp (by simpa using hlen.symm)).symm
  | append_singleton l1 c1 ih =>
    intro l2 hlen hb1 hb2 hv
    rcases List.eq_nil_or_concat l2 with h2 | ⟨l2', c2, h2⟩
    · subst h2; simp at hlen
    · subst h2
      rw [List.concat_eq_append] at hlen hb2 hv ⊢
      rw [truthTableToBinary_snoc, truthTableToBinary_snoc] at hv
      have hc1 := hb1 c1 (by simp)
      have hc2 := hb2 c2 (by simp)
      have hlen' : l1.length = l2'.length := by simpa using hlen
      have hb1' : isBinary l1 := fun ch h => hb1 ch (List.mem_append_left _ h)
      have hb2' : isBinary l2' := fun ch h => hb2 ch (List.mem_append_left _ h)
      have hsplit : TruthTable.truthTableToBinary l1 = TruthTable.truthTableToBinary l2' ∧
          c1 = c2 := by
        rcases hc1 with h1 | h1 <;> rcases hc2 with h2 | h2 <;> subst h1 <;> subst h2 <;>
          simp at hv ⊢ <;> omega
      rw [ih l2' hlen' hb1' hb2' hsplit.1, hsplit.2]

/-! ## Row indices -/

theorem mkIndex_lt (n : Nat) (f : Nat → Bool) : mkIndex n f < 2 ^ n := by
  induction n with
  | zero => simp [mkIndex]
  | succ n ih =>
    rw [mkIndex, pow_succ]
    split <;> omega

theorem mkIndex_testBit (n : Nat) (f : Nat → Bool) :
    ∀ j, j < n → (mkIndex n f).testBit (n - 1 - j) = f j := by
  induction n with
  | zero => intro j hj; exact absurd hj (Nat.not_lt_zero _)
  | succ n ih =>
    intro j hj
    rw [mkIndex]
    rcases Nat.lt_or_ge j n with hlt | hge
    · rw [show n + 1 - 1 - j = (n - 1 - j) + 1 by omega, Nat.testBit_succ]
      have : (2 * mkIndex n f + if f n = true then 1 else 0) / 2 = mkIndex n f := by
        split <;> omega
      rw [this]
      exact ih j hlt
    · have hjn : j = n := by omega
      subst hjn
      rw [show j + 1 - 1 - j = 0 by omega, Nat.testBit_zero]
      cases f j
      · simp
      · simp; omega

theorem mkIndex_congr (n : Nat) (f g : Nat → Bool) (h : ∀ j, j < n → f j = g j) :
    mkIndex n f = mkIndex n g := by
  induction n with
  | zero => rfl
  | succ n ih =>
    rw [mkIndex, mkIndex, ih (fun j hj => h j (Nat.lt_succ_of_lt hj)), h n (Nat.lt_succ_self n)]

/-- A row below `2^n` is rebuilt from its own bits. -/
theorem mkIndex_self (n i : Nat) (hi : i < 2 ^ n) :
    mkIndex n (fun j => i.testBit (n - 1 - j)) = i := by
  apply Nat.eq_of_testBit_eq
  intro k
  rcases Nat.lt_or_ge k n with hk | hk
  · have := mkIndex_testBit n (fun j => i.testBit (n - 1 - j)) (n - 1 - k) (by omega)
    simp only [] at this
    rw [show n - 1 - (n - 1 - k) = k by omega] at this
    exact this
  · rw [testBit_eq_false_of_lt_pow _ n k (mkIndex_lt n _) hk,
      testBit_eq_false_of_lt_pow i n k hi hk]

/-! ## The transforms of the code as row maps -/

theorem row_inputs_loop_eq :
    ∀ (k temp : Nat) (acc : List Nat),
      NPNClassifier.row_inputs_loop k temp acc =
        (List.range k).map (fun j => (temp >>> (k - 1 - j)) &&& 1) ++ acc := by
  intro k
  induction k with
  | zero => intro temp acc; simp [NPNClassifier.row_inputs_loop]
  | succ k ih =>
    intro temp acc
    rw [NPNClassifier.row_inputs_loop, ih, List.range_succ, List.map_append]
    simp only [List.map_cons, List.map_nil, List.append_assoc, List.singleton_append]
    congr 1
    · apply List.map_congr_left
      intro j hj
      have hj' := List.mem_range.mp hj
      rw [← Nat.shiftRight_add, show 1 + (k - 1 - j) = k + 1 - 1 - j by omega]
    · simp

theorem row_inputs_eq (n i : Nat) :
    NPNClassifier.row_inputs n i =
      (List.range n).map (fun j => if i.testBit (n - 1 - j) then 1 else 0) := by
  unfold NPNClassifier.row_inputs
  rw [row_inputs_loop_eq, List.append_nil]
  apply List.map_congr_left
  intro j _
  exact shift_and_one i _

theorem getD_map_range (n j : Nat) (g : Nat → Nat) (hj : j < n) :
    ((List.range n).map g).getD j 0 = g j := by
  simp [List.getD_eq_getElem?_getD, List.getElem?_map, List.getElem?_range hj]

theorem row_inputs_getD (n i k : Nat) :
    (NPNClassifier.row_inputs n i).getD k 0 =
      if k < n ∧ i.testBit (n - 1 - k) = true then 1 else 0 := by
  rw [row_inputs_eq]
  rcases Nat.lt_or_ge k n with hk | hk
  · rw [getD_map_range n k _ hk]
    simp [hk]
  · rw [List.getD_eq_getElem?_getD, List.getElem?_eq_none (by simpa using hk)]
    simp [Nat.not_lt.mpr hk]

theorem new_index_upto (n : Nat) (v : List Nat) (f : Nat → Bool)
    (hv : ∀ j, j < n → v.getD j 0 = if f j then 1 else 0) :
    ∀ k, k ≤ n →
      (List.range k).foldl (fun acc j => acc + v.getD j 0 * (1 <<< (n - 1 - j))) 0 =
        mkIndex k f * 2 ^ (n - k) := by
  intro k
  induction k with
  | zero => intro _; simp [mkIndex]
  | succ k ih =>
    intro hk
    rw [List.range_succ, List.foldl_append, ih (Nat.le_of_succ_le hk)]
    simp only [List.foldl_cons, List.foldl_nil]
    rw [hv k (by omega), mkIndex, Nat.shiftLeft_eq, Nat.one_mul,
      show n - k = (n - 1 - k) + 1 by omega, show n - (k + 1) = n - 1 - k by omega, pow_succ]
    ring

/-- The loop that rebuilds `new_index` from a vector of bits computes the row with those
variable values. -/
theorem new_index_eq (n : Nat) (v : List Nat) (f : Nat → Bool)
    (hv : ∀ j, j < n → v.getD j 0 = if f j then 1 else 0) :
    NPNClassifier.new_index n v = mkIndex n f := by
  unfold NPNClassifier.new_index
  rw [new_index_upto n v f hv n (le_refl n)]
  simp

theorem applyPermutationRows_eq (n : Nat) (tt : List Char) (perm : List Nat)
    (hp : ∀ j, j < n → perm.getD j 0 < n) :
    NPNClassifier.applyPermutationRows n tt perm =
      (List.range (2 ^ n)).map (fun i =>
        tt.getD (npnIndex n (fun j => perm.getD j 0) (fun _ => false) i) '0') := by
  unfold NPNClassifier.applyPermutationRows
  rw [Nat.shiftLeft_eq, Nat.one_mul]
  apply List.map_congr_left
  intro i _
  rw [new_index_eq n _ (fun j => i.testBit (n - 1 - perm.getD j 0))]
  · unfold npnIndex
    apply congrArg (fun k => tt.getD k '0')
    apply mkIndex_congr
    intro j _
    simp
  · intro j hj
    unfold NPNClassifier.permute_inputs
    rw [getD_map_range n j _ hj, row_inputs_getD]
    have := hp j hj
    simp only [this, true_and]

theorem neg_output_char_flag (o : Int) (ch : Char) :
    NPNClassifier.neg_output_char o ch =
      NPNClassifier.neg_output_char (if decide (o ≠ 0) = true then 1 else 0) ch := by
  unfold NPNClassifier.neg_output_char
  by_cases h : o = 0
  · subst h; simp
  · simp [h]

theorem applyNegationPatternRows_eq (n : Nat) (tt : List Char) (neg : List Int) (o : Int) :
    NPNClassifier.applyNegationPatternRows n tt neg o =
      (List.range (2 ^ n)).map (fun i =>
        NPNClassifier.neg_output_char (if decide (o ≠ 0) = true then 1 else 0)
          (tt.getD (npnIndex n (fun j => j) (fun j => decide (neg.getD j 0 ≠ 0)) i) '0')) := by
  unfold NPNClassifier.applyNegationPatternRows
  rw [Nat.shiftLeft_eq, Nat.one_mul]
  apply List.map_congr_left
  intro i _
  simp only []
  rw [← neg_output_char_flag]
  rw [new_index_eq n _ (fun j => xor (i.testBit (n - 1 - j)) (decide (neg.getD j 0 ≠ 0)))]
  · rfl
  · intro j hj
    unfold NPNClassifier.negate_inputs
    rw [getD_map_range n j _ hj, row_inputs_getD]
    by_cases hneg : neg.getD j 0 = 0 <;> cases hb : i.testBit (n - 1 - j) <;> simp [hneg, hj, hb]

theorem npnIndex_lt (n : Nat) (p : Nat → Nat) (v : Nat → Bool) (i : Nat) :
    npnIndex n p v i < 2 ^ n :=
  mkIndex_lt n _

theorem npnIndex_testBit (n : Nat) (p : Nat → Nat) (v : Nat → Bool) (i j : Nat) (hj : j < n) :
    (npnIndex n p v i).testBit (n - 1 - j) = xor (i.testBit (n - 1 - p j)) (v j) :=
  mkIndex_testBit n _ j hj

theorem npnIndex_congr (n : Nat) (p p' : Nat → Nat) (v v' : Nat → Bool) (i : Nat)
    (hp : ∀ j, j < n → p j = p' j) (hv : ∀ j, j < n → v j = v' j) :
    npnIndex n p v i = npnIndex n p' v' i := by
  unfold npnIndex
  apply mkIndex_congr
  intro j hj
  rw [hp j hj, hv j hj]

theorem npnTransform_congr (n : Nat) (p p' : Nat → Nat) (v v' : Nat → Bool) (o : Bool)
    (tt : List Char) (hp : ∀ j, j < n → p j = p' j) (hv : ∀ j, j < n → v j = v' j) :
    npnTransform n p v o tt = npnTransform n p' v' o tt := by
  unfold npnTransform
  apply List.map_congr_left
  intro i _
  rw [npnIndex_congr n p p' v v' i hp hv]

theorem getD_map_range_char (m k : Nat) (g : Nat → Char) (hk : k < m) :
    ((List.range m).map g).getD k '0' = g k := by
  simp [List.getD_eq_getElem?_getD, List.getElem?_map, List.getElem?_range hk]

/-- Composition of row maps: reading variable `p j` of a row whose variable `k` is
variable `p2 k` of `i` complemented by `v2 k`. -/
theorem npnIndex_comp (n : Nat) (p1 p2 : Nat → Nat) (v1 v2 : Nat → Bool) (i : Nat)
    (hp1 : ∀ j, j < n → p1 j < n) :
    npnIndex n p1 v1 (npnIndex n p2 v2 i) =
      npnIndex n (fun j => p2 (p1 j)) (fun j => xor (v2 (p1 j)) (v1 j)) i := by
  unfold npnIndex
  apply mkIndex_congr
  intro j hj
  have := npnIndex_testBit n p2 v2 i (p1 j) (hp1 j hj)
  unfold npnIndex at this
  rw [this]
  simp only [Bool.xor_assoc]

/-- The two calls `applyPermutation` and `applyNegationPattern` of the code compute the
transform with variable map `perm[j]`, input complementation `neg[perm[j]] != 0` and
output complementation `o != 0`. -/
theorem code_transform_eq (n : Nat) (tt : List Char) (perm : List Nat) (neg : List Int)
    (o : Int) (hlen : tt.length = 2 ^ n) (hp : ∀ j, j < n → perm.getD j 0 < n) :
    NPNClassifier.applyPermutation tt perm =
        Except.ok (NPNClassifier.applyPermutationRows n tt perm) ∧
      NPNClassifier.applyNegationPattern (NPNClassifier.applyPermutationRows n tt perm) neg o =
        Except.ok (npnTransform n (fun j => perm.getD j 0)
          (fun j => decide (neg.getD (perm.getD j 0) 0 ≠ 0)) (decide (o ≠ 0)) tt) := by
  have hlen1 : (NPNClassifier.applyPermutationRows n tt perm).length = 2 ^ n := by
    simp [NPNClassifier.applyPermutationRows, Nat.shiftLeft_eq]
  constructor
  · unfold NPNClassifier.applyPermutation
    rw [getNumVars_pow tt n hlen]
  · unfold NPNClassifier.applyNegationPattern
    rw [getNumVars_pow _ n hlen1]
    simp only []
    rw [applyNegationPatternRows_eq, applyPermutationRows_eq n tt perm hp]
    unfold npnTransform
    apply congrArg
    apply List.map_congr_left
    intro i _
    rw [getD_map_range_char (2 ^ n) _ _ (npnIndex_lt n _ _ i)]
    rw [npnIndex_comp n _ _ _ _ i hp]
    apply congrArg
    apply congrArg (fun k => tt.getD k '0')
    apply npnIndex_congr
    · intro j _; rfl
    · intro j _; simp

/-! ## The NPN transforms form a group on binary tables -/

theorem npnTransform_length (n : Nat) (p : Nat → Nat) (v : Nat → Bool) (o : Bool)
    (tt : List Char) : (npnTransform n p v o tt).length = 2 ^ n := by
  simp [npnTransform]

theorem npnTransform_getD (n : Nat) (p : Nat → Nat) (v : Nat → Bool) (o : Bool)
    (tt : List Char) (k : Nat) (hk : k < 2 ^ n) :
    (npnTransform n p v o tt).getD k '0' =
      NPNClassifier.neg_output_char (if o then 1 else 0) (tt.getD (npnIndex n p v k) '0') :=
  getD_map_range_char (2 ^ n) k _ hk

theorem neg_output_char_binary (o : Bool) (ch : Char) (h : ch = '0' ∨ ch = '1') :
    NPNClassifier.neg_output_char (if o then 1 else 0) ch =
      if o then (if ch = '0' then '1' else '0') else ch := by
  rcases h with h | h <;> subst h <;> cases o <;> decide

theorem getD_binary (tt : List Char) (h : isBinary tt) (k : Nat) :
    tt.getD k '0' = '0' ∨ tt.getD k '0' = '1' := by
  rw [List.getD_eq_getElem?_getD]
  cases hk : tt[k]? with
  | none => left; rfl
  | some ch => exact h ch (List.getElem?_mem hk)

theorem npnTransform_binary (n : Nat) (p : Nat → Nat) (v : Nat → Bool) (o : Bool)
    (tt : List Char) (h : isBinary tt) : isBinary (npnTransform n p v o tt) := by
  intro ch hch
  simp only [npnTransform, List.mem_map, List.mem_range] at hch
  obtain ⟨i, _, rfl⟩ := hch
  rw [neg_output_char_binary o _ (getD_binary tt h _)]
  rcases getD_binary tt h (npnIndex n p v i) with h' | h' <;> rw [h'] <;> cases o <;> simp

theorem map_getD_range (l : List Char) :
    (List.range l.length).map (fun i => l.getD i '0') = l := by
  apply List.ext_getElem
  · simp
  · intro i h1 h2
    simp [List.getD_eq_getElem?_getD, List.getElem?_eq_getElem h2]

/-- The identity transform returns a binary table of length `2^n` unchanged. -/
theorem npnTransform_id (n : Nat) (p : Nat → Nat) (v : Nat → Bool) (tt : List Char)
    (hlen : tt.length = 2 ^ n) (hb : isBinary tt) (hp : ∀ j, j < n → p j = j)
    (hv : ∀ j, j < n → v j = false) : npnTransform n p v false tt = tt := by
  have h1 : npnTransform n p v false tt = (List.range tt.length).map (fun i => tt.getD i '0') := by
    unfold npnTransform
    rw [hlen]
    apply List.map_congr_left
    intro i hi
    have hi' := List.mem_range.mp hi
    have hidx : npnIndex n p v i = i := by
      rw [npnIndex_congr n p (fun j => j) v (fun _ => false) i hp hv]
      unfold npnIndex
      rw [mkIndex_congr n _ (fun j => i.testBit (n - 1 - j)) (fun j _ => by simp)]
      exact mkIndex_self n i hi'
    rw [hidx, neg_output_char_binary false _ (getD_binary tt hb i)]
    simp
  rw [h1, map_getD_range]

/-- Applying the transform `(p2, v2, o2)` after `(p1, v1, o1)` is the transform with
variable map `p2 ∘ p1`. -/
theorem npnTransform_comp (n : Nat) (p1 p2 : Nat → Nat) (v1 v2 : Nat → Bool) (o1 o2 : Bool)
    (tt : List Char) (hb : isBinary tt) (hp1 : ∀ j, j < n → p1 j < n) :
    npnTransform n p2 v2 o2 (npnTransform n p1 v1 o1 tt) =
      npnTransform n (fun j => p2 (p1 j)) (fun j => xor (v2 (p1 j)) (v1 j)) (xor o1 o2) tt := by
  unfold npnTransform
  apply List.map_congr_left
  intro i _
  have hg := npnTransform_getD n p1 v1 o1 tt (npnIndex n p2 v2 i) (npnIndex_lt n p2 v2 i)
  unfold npnTransform at hg
  rw [hg, npnIndex_comp n p1 p2 v1 v2 i hp1]
  have hc := getD_binary tt hb
    (npnIndex n (fun j => p2 (p1 j)) (fun j => xor (v2 (p1 j)) (v1 j)) i)
  rcases hc with h' | h' <;> rw [h'] <;> cases o1 <;> cases o2 <;> decide

theorem IsPermPair_id (n : Nat) : IsPermPair n (fun j => j) (fun j => j) :=
  ⟨fun _ hj => ⟨hj, rfl⟩, fun _ hk => ⟨hk, rfl⟩⟩

theorem IsPermPair_symm (n : Nat) (p q : Nat → Nat) (h : IsPermPair n p q) :
    IsPermPair n q p :=
  ⟨h.2, h.1⟩

theorem IsPermPair_comp (n : Nat) (p1 q1 p2 q2 : Nat → Nat) (h1 : IsPermPair n p1 q1)
    (h2 : IsPermPair n p2 q2) :
    IsPermPair n (fun j => p2 (p1 j)) (fun k => q1 (q2 k)) := by
  constructor
  · intro j hj
    obtain ⟨a1, a2⟩ := h1.1 j hj
    obtain ⟨b1, b2⟩ := h2.1 (p1 j) a1
    exact ⟨b1, by simp only [b2, a2]⟩
  · intro k hk
    obtain ⟨a1, a2⟩ := h2.2 k hk
    obtain ⟨b1, b2⟩ := h1.2 (q2 k) a1
    exact ⟨b1, by simp only [b2, a2]⟩

theorem NPNRel_refl (n : Nat) (tt : List Char) (hlen : tt.length = 2 ^ n) (hb : isBinary tt) :
    NPNRel n tt tt :=
  ⟨fun j => j, fun j => j, fun _ => false, false, IsPermPair_id n,
    (npnTransform_id n _ _ tt hlen hb (fun _ _ => rfl) (fun _ _ => rfl)).symm⟩

theorem NPNRel_trans (n : Nat) (tt t u : List Char) (hb : isBinary tt)
    (h1 : NPNRel n tt t) (h2 : NPNRel n t u) : NPNRel n tt u := by
  obtain ⟨p1, q1, v1, o1, hp1, rfl⟩ := h1
  obtain ⟨p2, q2, v2, o2, hp2, rfl⟩ := h2
  exact ⟨_, _, _, _, IsPermPair_comp n p1 q1 p2 q2 hp1 hp2,
    npnTransform_comp n p1 p2 v1 v2 o1 o2 tt hb (fun j hj => (hp1.1 j hj).1)⟩

theorem NPNRel_symm (n : Nat) (tt t : List Char) (hlen : tt.length = 2 ^ n)
    (hb : isBinary tt) (h : NPNRel n tt t) : NPNRel n t tt := by
  obtain ⟨p, q, v, o, hp, rfl⟩ := h
  refine ⟨q, p, fun j => v (q j), o, IsPermPair_symm n p q hp, ?_⟩
  rw [npnTransform_comp n p q v _ o o tt hb (fun j hj => (hp.1 j hj).1)]
  have ho : xor o o = false := by cases o <;> rfl
  rw [ho]
  exact (npnTransform_id n _ _ tt hlen hb (fun j hj => (hp.1 j hj).2)
    (fun j hj => by simp only [(hp.1 j hj).2]; cases v j <;> rfl)).symm

theorem NPNRel_length (n : Nat) (tt t : List Char) (h : NPNRel n tt t) : t.length = 2 ^ n := by
  obtain ⟨p, q, v, o, _, rfl⟩ := h
  exact npnTransform_length n p v o tt

theorem NPNRel_binary (n : Nat) (tt t : List Char) (hb : isBinary tt) (h : NPNRel n tt t) :
    isBinary t := by
  obtain ⟨p, q, v, o, _, rfl⟩ := h
  exact npnTransform_binary n p v o tt hb

/-! ## Permutation vectors and permutation maps -/

theorem perm_range_facts (n : Nat) (perm : List Nat) (h : perm.Perm (List.range n)) :
    perm.length = n ∧ perm.Nodup ∧ ∀ x, x ∈ perm ↔ x < n :=
  ⟨by rw [h.length_eq, List.length_range], h.nodup_iff.mpr (List.nodup_range n),
    fun x => by rw [h.mem_iff, List.mem_range]⟩

theorem getD_eq_getElem_nat (l : List Nat) (j : Nat) (hj : j < l.length) :
    l.getD j 0 = l[j] := by
  simp [List.getD_eq_getElem?_getD, List.getElem?_eq_getElem hj]

/-- A permutation vector of `{0, .., n-1}` and its index function are mutually inverse
permutation maps. -/
theorem perm_IsPermPair (n : Nat) (perm : List Nat) (h : perm.Perm (List.range n)) :
    IsPermPair n (fun j => perm.getD j 0) (fun k => perm.indexOf k) := by
  obtain ⟨hlen, hnd, hmem⟩ := perm_range_facts n perm h
  constructor
  · intro j hj
    have hj' : j < perm.length := by rw [hlen]; exact hj
    simp only [getD_eq_getElem_nat perm j hj']
    exact ⟨(hmem _).mp (List.getElem_mem _), List.indexOf_getElem hnd j hj'⟩
  · intro k hk
    have hk' : k ∈ perm := (hmem k).mpr hk
    have hidx : perm.indexOf k < perm.length := List.indexOf_lt_length.mpr hk'
    simp only [getD_eq_getElem_nat perm _ hidx]
    exact ⟨by rw [← hlen]; exact hidx, List.getElem_indexOf hidx⟩

/-- The values of a permutation map on `0, .., n-1` form a permutation vector. -/
theorem map_range_perm (n : Nat) (p q : Nat → Nat) (h : IsPermPair n p q) :
    ((List.range n).map p).Perm (List.range n) := by
  apply (List.perm_ext_iff_of_nodup _ (List.nodup_range n)).mpr
  · intro x
    rw [List.mem_map, List.mem_range]
    constructor
    · rintro ⟨j, hj, rfl⟩
      exact (h.1 j (List.mem_range.mp hj)).1
    · intro hx
      exact ⟨q x, List.mem_range.mpr (h.2 x hx).1, (h.2 x hx).2⟩
  · apply List.Nodup.map_on _ (List.nodup_range n)
    intro x hx y hy hxy
    rw [← (h.1 x (List.mem_range.mp hx)).2, ← (h.1 y (List.mem_range.mp hy)).2, hxy]

theorem getD_map_range_int (n j : Nat) (g : Nat → Int) (hj : j < n) :
    ((List.range n).map g).getD j 0 = g j := by
  simp [List.getD_eq_getElem?_getD, List.getElem?_map, List.getElem?_range hj]

/-- The orbit of the code and the orbit of transform maps coincide (one direction). -/
theorem InOrbit_to_NPNRel (n : Nat) (tt t : List Char) (hlen : tt.length = 2 ^ n)
    (h : InOrbit n tt t) : NPNRel n tt t := by
  obtain ⟨perm, neg, o, t1, hperm, _, h1, h2⟩ := h
  have hpp := perm_IsPermPair n perm hperm
  obtain ⟨c1, c2⟩ := code_transform_eq n tt perm neg o hlen (fun j hj => (hpp.1 j hj).1)
  rw [c1] at h1
  cases h1
  rw [c2] at h2
  cases h2
  exact ⟨_, _, _, _, hpp, rfl⟩

/-- The orbit of the code and the orbit of transform maps coincide (other direction). -/
theorem NPNRel_to_InOrbit (n : Nat) (tt t : List Char) (hlen : tt.length = 2 ^ n)
    (h : NPNRel n tt t) : InOrbit n tt t := by
  obtain ⟨p, q, v, o, hpq, rfl⟩ := h
  have hperm := map_range_perm n p q hpq
  have hget : ∀ j, j < n → ((List.range n).map p).getD j 0 = p j :=
    fun j hj => getD_map_range n j p hj
  obtain ⟨c1, c2⟩ := code_transform_eq n tt ((List.range n).map p)
    ((List.range n).map (fun k => if v (q k) then (1 : Int) else 0)) (if o then 1 else 0) hlen
    (fun j hj => by rw [hget j hj]; exact (hpq.1 j hj).1)
  refine ⟨(List.range n).map p, (List.range n).map (fun k => if v (q k) then (1 : Int) else 0),
    (if o then 1 else 0), _, hperm, by rw [List.length_map, List.length_range], c1, ?_⟩
  rw [c2]
  apply congrArg
  have ho : decide ((if o then (1 : Int) else 0) ≠ 0) = o := by cases o <;> decide
  rw [ho]
  apply npnTransform_congr
  · exact hget
  · intro j hj
    rw [hget j hj, getD_map_range_int n (p j) _ (hpq.1 j hj).1, (hpq.1 j hj).2]
    cases v j <;> simp

/-! ## The enumeration of permutations -/

theorem mem_perms_lex :
    ∀ (k : Nat) (l p : List Nat), l.length = k → p.Perm l →
      p ∈ NPNClassifier.perms_lex k l := by
  intro k
  induction k with
  | zero =>
    intro l p hl hp
    have : l = [] := List.length_eq_zero.mp hl
    subst this
    rw [List.perm_nil.mp hp]
    simp [NPNClassifier.perms_lex]
  | succ k ih =>
    intro l p hl hp
    cases p with
    | nil =>
      have := hp.length_eq
      rw [hl] at this
      simp at this
    | cons x p' =>
      have hx : x ∈ l := hp.subset (List.mem_cons_self _ _)
      have hp' : p'.Perm (l.erase x) := by
        have := hp.erase x
        rwa [List.erase_cons_head] at this
      have hlen' : (l.erase x).length = k := by
        rw [List.length_erase_of_mem hx, hl]
        rfl
      rw [NPNClassifier.perms_lex, List.mem_flatMap]
      exact ⟨x, hx, List.mem_map.mpr ⟨p', ih _ _ hlen' hp', rfl⟩⟩

theorem perms_lex_perm :
    ∀ (k : Nat) (l p : List Nat), l.length = k → p ∈ NPNClassifier.perms_lex k l →
      p.Perm l := by
  intro k
  induction k with
  | zero =>
    intro l p hl hp
    have : l = [] := List.length_eq_zero.mp hl
    subst this
    simp [NPNClassifier.perms_lex] at hp
    rw [hp]
  | succ k ih =>
    intro l p hl hp
    rw [NPNClassifier.perms_lex, List.mem_flatMap] at hp
    obtain ⟨x, hx, hp⟩ := hp
    obtain ⟨p', hp', rfl⟩ := List.mem_map.mp hp
    have hlen' : (l.erase x).length = k := by
      rw [List.length_erase_of_mem hx, hl]
      rfl
    exact ((ih _ _ hlen' hp').cons x).trans (List.perm_cons_erase hx).symm

/-- The enumeration of the arrangements of an ascending array is strictly ascending in
the lexicographic order: it is the order in which `std::next_permutation` steps through
them. -/
theorem perms_lex_ascending :
    ∀ (k : Nat) (l : List Nat), l.Pairwise (fun a b => a < b) →
      (NPNClassifier.perms_lex k l).Pairwise (fun p p' => p < p') := by
  intro k
  induction k with
  | zero =>
    intro l _
    simp [NPNClassifier.perms_lex]
  | succ k ih =>
    intro l hl
    rw [NPNClassifier.perms_lex, List.pairwise_flatMap]
    constructor
    · intro x _
      apply List.Pairwise.map _ _ (ih (l.erase x) (hl.sublist (List.erase_sublist x l)))
      intro p p' hpp
      exact List.Lex.cons hpp
    · apply hl.imp
      intro x y hxy p hp p' hp'
      obtain ⟨q, _, rfl⟩ := List.mem_map.mp hp
      obtain ⟨q', _, rfl⟩ := List.mem_map.mp hp'
      exact List.Lex.rel hxy

theorem range_ascending (n : Nat) : (List.range n).Pairwise (fun a b => a < b) := by
  rw [List.pairwise_iff_getElem]
  intro i j hi hj hij
  simpa using hij

/-! ## The search for the representative -/

theorem npn_iterations_mem (n : Nat) (it : List Nat × Nat × Int) :
    it ∈ NPNClassifier.npn_iterations n ↔
      it.1 ∈ NPNClassifier.perms_lex n (List.range n) ∧ it.2.1 < 2 ^ n ∧
        (it.2.2 = 0 ∨ it.2.2 = 1) := by
  obtain ⟨perm, mask, o⟩ := it
  unfold NPNClassifier.npn_iterations
  simp only [List.mem_flatMap, List.mem_range, List.mem_cons, Prod.mk.injEq,
    List.mem_singleton, List.not_mem_nil, or_false, Nat.shiftLeft_eq, Nat.one_mul]
  constructor
  · rintro ⟨p, hp, m, hm, (⟨rfl, rfl, rfl⟩ | ⟨rfl, rfl, rfl⟩)⟩
    · exact ⟨hp, hm, Or.inl rfl⟩
    · exact ⟨hp, hm, Or.inr rfl⟩
  · rintro ⟨hp, hm, (ho | ho)⟩
    · exact ⟨perm, hp, mask, hm, Or.inl ⟨rfl, rfl, ho⟩⟩
    · exact ⟨perm, hp, mask, hm, Or.inr ⟨rfl, rfl, ho⟩⟩

theorem npn_step_eq (key : List Char → Nat) (n : Nat) (tt : List Char) (st : List Char × Nat)
    (it : List Nat × Nat × Int) (hlen : tt.length = 2 ^ n)
    (hit : it ∈ NPNClassifier.npn_iterations n) :
    NPNClassifier.npn_step key n tt st it = Except.ok (minStep key st (npnCandidate n tt it)) := by
  have hperm := perms_lex_perm n (List.range n) it.1 (List.length_range n)
    ((npn_iterations_mem n it).mp hit).1
  have hpp := perm_IsPermPair n it.1 hperm
  obtain ⟨c1, c2⟩ := code_transform_eq n tt it.1 (NPNClassifier.mask_neg_inputs n it.2.1)
    it.2.2 hlen (fun j hj => (hpp.1 j hj).1)
  unfold NPNClassifier.npn_step
  rw [c1]
  simp only []
  rw [c2]
  simp only [minStep, npnCandidate]
  split <;> rfl

theorem npn_loop_eq (key : List Char → Nat) (n : Nat) (tt : List Char) (hlen : tt.length = 2 ^ n) :
    ∀ (its : List (List Nat × Nat × Int)) (st : List Char × Nat),
      (∀ it ∈ its, it ∈ NPNClassifier.npn_iterations n) →
      NPNClassifier.npn_loop key n tt st its =
        Except.ok (its.foldl (fun s it => minStep key s (npnCandidate n tt it)) st) := by
  intro its
  induction its with
  | nil => intro st _; rfl
  | cons it rest ih =>
    intro st h
    rw [NPNClassifier.npn_loop, npn_step_eq key n tt st it hlen (h it (List.mem_cons_self _ _))]
    simp only [List.foldl_cons]
    exact ih _ (fun it' h' => h it' (List.mem_cons_of_mem _ h'))

theorem minFold_spec (key : List Char → Nat) (cand : List Nat × Nat × Int → List Char) :
    ∀ (its : List (List Nat × Nat × Int)) (st : List Char × Nat),
      st.2 = key st.1 →
      (its.foldl (fun s it => minStep key s (cand it)) st).2 =
          key (its.foldl (fun s it => minStep key s (cand it)) st).1 ∧
        ((its.foldl (fun s it => minStep key s (cand it)) st).1 = st.1 ∨
          ∃ it ∈ its, (its.foldl (fun s it => minStep key s (cand it)) st).1 = cand it) ∧
        (its.foldl (fun s it => minStep key s (cand it)) st).2 ≤ st.2 ∧
        (∀ it ∈ its, (its.foldl (fun s it => minStep key s (cand it)) st).2 ≤
          key (cand it)) ∧
        ((∀ it ∈ its, st.2 ≤ key (cand it)) →
          its.foldl (fun s it => minStep key s (cand it)) st = st) := by
  intro its
  induction its with
  | nil =>
    intro st h
    exact ⟨h, Or.inl rfl, le_refl _, fun it h => by simp at h, fun _ => rfl⟩
  | cons it rest ih =>
    intro st h
    simp only [List.foldl_cons]
    have hst' : (minStep key st (cand it)).2 =
        key (minStep key st (cand it)).1 := by
      unfold minStep
      split
      · rfl
      · exact h
    have hle : (minStep key st (cand it)).2 ≤ st.2 ∧
        (minStep key st (cand it)).2 ≤ key (cand it) := by
      unfold minStep
      split
      · rename_i hlt; exact ⟨le_of_lt hlt, le_refl _⟩
      · rename_i hlt; exact ⟨le_refl _, Nat.not_lt.mp hlt⟩
    have hmem : (minStep key st (cand it)).1 = st.1 ∨ (minStep key st (cand it)).1 = cand it := by
      unfold minStep
      split
      · exact Or.inr rfl
      · exact Or.inl rfl
    obtain ⟨a1, a2, a3, a4, a5⟩ := ih (minStep key st (cand it)) hst'
    refine ⟨a1, ?_, le_trans a3 hle.1, ?_, ?_⟩
    · rcases a2 with h2 | ⟨it', hit', h2⟩
      · rcases hmem with h3 | h3
        · exact Or.inl (h2.trans h3)
        · exact Or.inr ⟨it, List.mem_cons_self _ _, h2.trans h3⟩
      · exact Or.inr ⟨it', List.mem_cons_of_mem _ hit', h2⟩
    · intro it' hit'
      rcases List.mem_cons.mp hit' with h' | h'
      · rw [h']; exact le_trans a3 hle.2
      · exact a4 it' h'
    · intro hall
      have hsame : minStep key st (cand it) = st := by
        unfold minStep
        rw [if_neg (Nat.not_lt.mpr (hall it (List.mem_cons_self _ _)))]
      rw [hsame]
      rw [hsame] at a5
      exact a5 (fun it' h' => hall it' (List.mem_cons_of_mem _ h'))

/-- Every iteration of the loops computes an NPN transform of the table. -/
theorem npnCandidate_rel (n : Nat) (tt : List Char) (it : List Nat × Nat × Int)
    (hit : it ∈ NPNClassifier.npn_iterations n) : NPNRel n tt (npnCandidate n tt it) := by
  have hperm := perms_lex_perm n (List.range n) it.1 (List.length_range n)
    ((npn_iterations_mem n it).mp hit).1
  exact ⟨_, _, _, _, perm_IsPermPair n it.1 hperm, rfl⟩

theorem mask_neg_inputs_getD (n mask k : Nat) (hk : k < n) :
    (NPNClassifier.mask_neg_inputs n mask).getD k 0 = if mask.testBit k then 1 else 0 := by
  unfold NPNClassifier.mask_neg_inputs
  rw [getD_map_range_int n k _ hk, shift_and_one]
  split <;> rfl

/-- Every NPN transform of the table is computed in some iteration of the loops. -/
theorem NPNRel_candidate (n : Nat) (tt t : List Char) (h : NPNRel n tt t) :
    ∃ it ∈ NPNClassifier.npn_iterations n, npnCandidate n tt it = t := by
  obtain ⟨p, q, v, o, hpq, rfl⟩ := h
  have hperm := map_range_perm n p q hpq
  have hmask : ∀ k, k < n → (mkIndex n (fun j => v (q (n - 1 - j)))).testBit k = v (q k) := by
    intro k hk
    have := mkIndex_testBit n (fun j => v (q (n - 1 - j))) (n - 1 - k) (by omega)
    simp only [] at this
    rw [show n - 1 - (n - 1 - k) = k by omega] at this
    exact this
  refine ⟨((List.range n).map p, mkIndex n (fun j => v (q (n - 1 - j))),
    if o then 1 else 0), ?_, ?_⟩
  · rw [npn_iterations_mem]
    refine ⟨mem_perms_lex n _ _ (List.length_range n) hperm, mkIndex_lt n _, ?_⟩
    cases o
    · left; rfl
    · right; rfl
  · unfold npnCandidate
    have ho : decide ((if o then (1 : Int) else 0) ≠ 0) = o := by cases o <;> decide
    simp only [ho]
    apply npnTransform_congr
    · intro j hj
      exact getD_map_range n j p hj
    · intro j hj
      rw [getD_map_range n j p hj, mask_neg_inputs_getD n _ (p j) (hpq.1 j hj).1,
        hmask (p j) (hpq.1 j hj).1, (hpq.1 j hj).2]
      cases v j <;> simp

/-- The result of `getNPNRepresentative` on a table of length `2^n`: it is the table
itself or a transform of it, and its key is at most the key of the table and of every
transform. -/
theorem getNPNRepresentative_spec (key : List Char → Nat) (n : Nat) (tt : List Char) (hlen : tt.length = 2 ^ n) :
    ∃ rep, NPNClassifier.getNPNRepresentative key tt = Except.ok rep ∧
      (rep = tt ∨ NPNRel n tt rep) ∧
      key rep ≤ key tt ∧
      (∀ t, NPNRel n tt t →
        key rep ≤ key t) ∧
      ((∀ t, NPNRel n tt t →
        key tt ≤ key t) → rep = tt) := by
  obtain ⟨a1, a2, a3, a4, a5⟩ := minFold_spec key (npnCandidate n tt)
    (NPNClassifier.npn_iterations n) (tt, key tt) rfl
  refine ⟨((NPNClassifier.npn_iterations n).foldl
    (fun s it => minStep key s (npnCandidate n tt it)) (tt, key tt)).1,
    ?_, ?_, ?_, ?_, ?_⟩
  · unfold NPNClassifier.getNPNRepresentative
    rw [getNumVars_pow tt n hlen]
    simp only []
    rw [npn_loop_eq key n tt hlen _ _ (fun it h => h)]
  · rcases a2 with h | ⟨it, hit, h⟩
    · exact Or.inl h
    · exact Or.inr (h ▸ npnCandidate_rel n tt it hit)
  · rw [← a1]; exact a3
  · intro t ht
    obtain ⟨it, hit, rfl⟩ := NPNRel_candidate n tt t ht
    rw [← a1]
    exact a4 it hit
  · intro hall
    rw [a5 (fun it hit => hall _ (npnCandidate_rel n tt it hit))]

/-! ## Claims on the synthesizer -/

/-- C1 (round-trip correctness) fails on the code: for the table `0100` the synthesizer
returns the single gate `MAJ(x0', x1, 0)`, `getTruthTable` reads it back as `0010`, and
`validate` on the table it was built from returns false. -/
theorem C1_validate_rejects_0100 :
    synthesize "0100".toList =
        Except.ok { n_vars := 2,
                    gates := [{ id := 0, a := MIG.PI 0 true, b := MIG.PI 1 false, c := MIG.C0 }],
                    output_gate := 0, output_inverted := false } ∧
      (synthesize "0100".toList).map MIG.getTruthTable = Except.ok (some "0010".toList) ∧
      (synthesize "0100".toList).map (fun m => m.validate "0100".toList) =
        Except.ok (some false) := by
  decide

/-- C2: for a table of length `2^n` (below `2^31`, the range of the `int` length check)
and a row `i < 2^n`, `synthesize` returns a network of `n` variables whose `evaluate`, on
the assignment giving variable `x_k` the bit `n-1-k` of `i`, returns a value that is 1
exactly when the table holds `'1'` at `i` (and is 0 otherwise). -/
theorem C2_synthesize_reproduces_rows (tt : List Char) (n i : Nat)
    (hlen : tt.length = 2 ^ n) (hsmall : tt.length < 2 ^ 31) (hi : i < 2 ^ n) :
    ∃ m v, synthesize tt = Except.ok m ∧ m.n_vars = n ∧
      m.evaluate (msbAssignment n i) = some v ∧ isBit v ∧ (v = 1 ↔ tt[i]? = some '1') := by
  obtain ⟨m, hm, hn, hv⟩ := synthesize_val tt n i hlen hsmall hi
  obtain ⟨hdag, hout, hinv⟩ := synthesize_ok tt m hm
  have he := evaluate_spec m (msbAssignment n i) hdag
    (by rw [msbAssignment_length, hn]) hout
  rw [hinv] at he
  simp only [Bool.false_eq_true, ite_false] at he
  exact ⟨m, _, hm, hn, he, getD_isBit _ (gateVals_isBit _ _) _, hv⟩

theorem C2_witness :
    ("0110".toList).length = 2 ^ 2 ∧ ("0110".toList).length < 2 ^ 31 ∧ 1 < 2 ^ 2 ∧
      ∃ m v, synthesize "0110".toList = Except.ok m ∧ m.n_vars = 2 ∧
        m.evaluate (msbAssignment 2 1) = some v ∧ isBit v ∧
        (v = 1 ↔ ("0110".toList)[1]? = some '1') :=
  ⟨by decide, by decide, by decide,
    C2_synthesize_reproduces_rows "0110".toList 2 1 (by decide) (by decide) (by decide)⟩

/-- C7 fails on the code: `getTruthTable` gives variable `x_j` the bit `j` of the row
number (`inputs[j] = (i >> j) & 1`), not the bit `n-1-j`.  For the network
`G0 = MAJ(x0, 0, 1)` over two variables, which satisfies the DAG invariant, character 1
of `getTruthTable()` is `'1'` while `evaluate` on the MSB-first assignment of row 1
(`x0 = 0`, `x1 = 1`) returns 0. -/
theorem C7_getTruthTable_is_lsb_first :
    DagInv literalNetwork.n_vars literalNetwork.gates ∧
      literalNetwork.output_gate < literalNetwork.size ∧
      literalNetwork.getTruthTable = some "0101".toList ∧
      msbAssignment 2 1 = [0, 1] ∧
      literalNetwork.evaluate (msbAssignment 2 1) = some 0 := by
  refine ⟨?_, by decide, by decide, by decide, by decide⟩
  intro k g hk
  cases k with
  | zero =>
    simp only [literalNetwork, List.getElem?_cons_zero, Option.some.injEq] at hk
    subst hk
    simp [MIGInput.wf, MIG.C0, MIG.C1, MIG.PI, literalNetwork]
  | succ k => simp [literalNetwork] at hk

/-- C8: whenever `synthesize` returns a network, whatever the input string, its
`output_gate` satisfies `0 <= output_gate < size()`; and for every string shorter than
`2^31` characters (all-zero, all-one and non-power-of-two lengths included) a network is
returned. -/
theorem C8_output_gate_indexes_a_gate (tt : List Char) :
    (∀ m, synthesize tt = Except.ok m → 0 ≤ m.output_gate ∧ m.output_gate < m.size) ∧
      (tt.length < 2 ^ 31 → ∃ m, synthesize tt = Except.ok m) := by
  constructor
  · intro m hm
    exact ⟨Nat.zero_le _, (synthesize_ok tt m hm).2.1⟩
  · intro hsmall
    by_cases hp : ∃ n, tt.length = 2 ^ n
    · obtain ⟨n, hn⟩ := hp
      exact ⟨_, synthesize_pow tt n hn hsmall⟩
    · exact ⟨_, synthesize_not_pow tt (fun n hn => hp ⟨n, hn⟩)⟩

theorem C8_witness :
    ("111".toList).length < 2 ^ 31 ∧
      ∃ m, synthesize "111".toList = Except.ok m ∧ 0 ≤ m.output_gate ∧
        m.output_gate < m.size := by
  refine ⟨by decide, ?_⟩
  obtain ⟨m, hm⟩ := (C8_output_gate_indexes_a_gate "111".toList).2 (by decide)
  exact ⟨m, hm, (C8_output_gate_indexes_a_gate "111".toList).1 m hm⟩

theorem three_ne_two_pow (n : Nat) : 3 ≠ 2 ^ n := by
  intro h
  rcases n with _ | _ | n
  · simp at h
  · simp at h
  · have : 2 ^ (n + 2) = 4 * 2 ^ n := by ring
    omega

/-- C9 fails on the code: the string `000`, whose length 3 is not a power of two, makes
`synthesize` return a network (the constant-0 fallback) and no error. -/
theorem C9_no_error_on_length_three :
    (∀ n, ("000".toList).length ≠ 2 ^ n) ∧
      synthesize "000".toList =
        Except.ok { n_vars := 1,
                    gates := [{ id := 0, a := MIG.C0, b := MIG.C0, c := MIG.C0 }],
                    output_gate := 0, output_inverted := false } :=
  ⟨fun n => three_ne_two_pow n, by decide⟩

/-- C9 as amended: for every input string whose length is not a power of two (the empty
string included) `synthesize` raises no error and returns the fallback network of one
variable with the single gate `G0 = MAJ(0,0,0)` and `OUTPUT = G0`, not inverted. -/
theorem C9_fallback_network (tt : List Char) (h : ∀ n, tt.length ≠ 2 ^ n) :
    synthesize tt =
      Except.ok { n_vars := 1,
                  gates := [{ id := 0, a := MIG.C0, b := MIG.C0, c := MIG.C0 }],
                  output_gate := 0, output_inverted := false } :=
  synthesize_not_pow tt h

theorem C9_witness :
    (∀ n, ([] : List Char).length ≠ 2 ^ n) ∧
      synthesize [] =
        Except.ok { n_vars := 1,
                    gates := [{ id := 0, a := MIG.C0, b := MIG.C0, c := MIG.C0 }],
                    output_gate := 0, output_inverted := false } :=
  ⟨fun n h => absurd h.symm (by positivity),
    C9_fallback_network [] (fun n h => absurd h.symm (by positivity))⟩

/-- C10: for an input string of length `2^n` below `2^31`, `deduce_n` returns exactly `n`,
the length compared in `build_from_truth` equals the length of the string (so the
`invalid_argument` branch is not taken), and `synthesize` returns a network. -/
theorem C10_synthesize_never_raises (tt : List Char) (n : Nat) (hlen : tt.length = 2 ^ n)
    (hsmall : tt.length < 2 ^ 31) :
    deduce_n tt.length = (n : Int) ∧
      tt.length = to_size_t (if n = 0 then 1 else shl_one_int n) ∧
      (∃ m, MIGBuilder.build_from_truth (MIGBuilder.new n) tt = Except.ok m) ∧
      ∃ m, synthesize tt = Except.ok m := by
  have hn : n < 31 := pow_lt_imp_exp_lt n (hlen ▸ hsmall)
  have hs := synthesize_pow tt n hlen hsmall
  refine ⟨by rw [hlen]; exact deduce_n_pow n, by rw [expected_length_small n hn]; exact hlen,
    ?_, ⟨_, hs⟩⟩
  have hd : deduce_n tt.length = (n : Int) := by rw [hlen]; exact deduce_n_pow n
  unfold synthesize at hs
  simp only [hd] at hs
  rw [if_neg (by omega)] at hs
  simp only [Int.toNat_ofNat] at hs
  exact ⟨_, hs⟩

theorem C10_witness :
    ("0110".toList).length = 2 ^ 2 ∧ ("0110".toList).length < 2 ^ 31 ∧
      (deduce_n ("0110".toList).length = ((2 : Nat) : Int) ∧
        ("0110".toList).length = to_size_t (if 2 = 0 then 1 else shl_one_int 2) ∧
        (∃ m, MIGBuilder.build_from_truth (MIGBuilder.new 2) "0110".toList = Except.ok m) ∧
        ∃ m, synthesize "0110".toList = Except.ok m) :=
  ⟨by decide, by decide, C10_synthesize_never_raises "0110".toList 2 (by decide) (by decide)⟩

/-! ## Claims on the NPN classifier -/

/-- On a binary table of length `2^n` the representative is a transform of the table with
the least key among all transforms. -/
theorem representative_rel (key : List Char → Nat) (n : Nat) (tt : List Char)
    (hlen : tt.length = 2 ^ n) (hb : isBinary tt) :
    ∃ rep, NPNClassifier.getNPNRepresentative key tt = Except.ok rep ∧ NPNRel n tt rep ∧
      ∀ t, NPNRel n tt t → key rep ≤ key t := by
  obtain ⟨rep, h1, h2, _, h4, _⟩ := getNPNRepresentative_spec key n tt hlen
  refine ⟨rep, h1, ?_, h4⟩
  rcases h2 with h | h
  · rw [h]; exact NPNRel_refl n tt hlen hb
  · exact h

/-- With a key that is injective on binary strings of one length, two binary tables of
length `2^n` have the same representative exactly when one is a transform of the other. -/
theorem areNPNEquivalent_iff (key : List Char → Nat) (n : Nat) (tt1 tt2 : List Char)
    (hkey : ∀ a b : List Char, a.length = b.length → isBinary a → isBinary b →
      key a = key b → a = b)
    (h1 : tt1.length = 2 ^ n) (h2 : tt2.length = 2 ^ n) (hb1 : isBinary tt1)
    (hb2 : isBinary tt2) :
    NPNClassifier.areNPNEquivalent key tt1 tt2 = Except.ok true ↔ NPNRel n tt1 tt2 := by
  obtain ⟨r1, e1, rel1, min1⟩ := representative_rel key n tt1 h1 hb1
  obtain ⟨r2, e2, rel2, min2⟩ := representative_rel key n tt2 h2 hb2
  unfold NPNClassifier.areNPNEquivalent
  rw [e1, e2]
  simp only [Except.ok.injEq, decide_eq_true_eq]
  constructor
  · intro h
    subst h
    exact NPNRel_trans n tt1 r1 tt2 hb1 rel1 (NPNRel_symm n tt2 r1 h2 hb2 rel2)
  · intro h
    have h' := NPNRel_symm n tt1 tt2 h1 hb1 h
    have le1 := min1 r2 (NPNRel_trans n tt1 tt2 r2 hb1 h rel2)
    have le2 := min2 r1 (NPNRel_trans n tt2 tt1 r1 hb2 h' rel1)
    exact hkey r1 r2
      ((NPNRel_length n tt1 r1 rel1).trans (NPNRel_length n tt2 r2 rel2).symm)
      (NPNRel_binary n tt1 r1 hb1 rel1) (NPNRel_binary n tt2 r2 hb2 rel2)
      (le_antisymm le1 le2)

/-- C4: for a truth table (a string over `'0'`/`'1'`) of length `2^n`,
`getNPNRepresentative` returns a member of the orbit: there are a permutation `perm` of
`{0..n-1}`, a negation vector `neg` of length `n` and an output flag `o` with
`rep == applyNegationPattern(applyPermutation(tt, perm), neg, o)`; in particular the
representative has the length of `tt`. -/
theorem C4_representative_in_orbit (key : List Char → Nat) (tt : List Char) (n : Nat)
    (hlen : tt.length = 2 ^ n) (hb : isBinary tt) :
    ∃ rep, NPNClassifier.getNPNRepresentative key tt = Except.ok rep ∧
      (∃ (perm : List Nat) (neg : List Int) (o : Int) (t1 : List Char),
        perm.Perm (List.range n) ∧ neg.length = n ∧
          NPNClassifier.applyPermutation tt perm = Except.ok t1 ∧
          NPNClassifier.applyNegationPattern t1 neg o = Except.ok rep) ∧
      rep.length = tt.length := by
  obtain ⟨rep, h1, h2, _⟩ := representative_rel key n tt hlen hb
  exact ⟨rep, h1, NPNRel_to_InOrbit n tt rep hlen h2,
    (NPNRel_length n tt rep h2).trans hlen.symm⟩

theorem C4_witness :
    ("1000".toList).length = 2 ^ 2 ∧ isBinary "1000".toList ∧
      ∃ rep,
        NPNClassifier.getNPNRepresentative TruthTable.truthTableToBinary "1000".toList =
          Except.ok rep ∧
        (∃ (perm : List Nat) (neg : List Int) (o : Int) (t1 : List Char),
          perm.Perm (List.range 2) ∧ neg.length = 2 ∧
            NPNClassifier.applyPermutation "1000".toList perm = Except.ok t1 ∧
            NPNClassifier.applyNegationPattern t1 neg o = Except.ok rep) ∧
        rep.length = ("1000".toList).length :=
  ⟨by decide, by unfold isBinary; decide,
    C4_representative_in_orbit TruthTable.truthTableToBinary "1000".toList 2 (by decide)
      (by unfold isBinary; decide)⟩

/-- C5 (canonical idempotence): for a truth table of length `2^n`,
`getNPNRepresentative` returns a table `rep`, and `getNPNRepresentative(rep)` returns
`rep` again. -/
theorem C5_representative_idempotent (key : List Char → Nat) (tt : List Char) (n : Nat)
    (hlen : tt.length = 2 ^ n) (hb : isBinary tt) :
    ∃ rep, NPNClassifier.getNPNRepresentative key tt = Except.ok rep ∧
      NPNClassifier.getNPNRepresentative key rep = Except.ok rep := by
  obtain ⟨rep, h1, h2, h3⟩ := representative_rel key n tt hlen hb
  obtain ⟨rep', g1, _, _, _, g5⟩ :=
    getNPNRepresentative_spec key n rep (NPNRel_length n tt rep h2)
  refine ⟨rep, h1, ?_⟩
  rw [g1, g5 (fun t ht => h3 t (NPNRel_trans n tt rep t hb h2 ht))]

theorem C5_witness :
    ("1011".toList).length = 2 ^ 2 ∧ isBinary "1011".toList ∧
      ∃ rep,
        NPNClassifier.getNPNRepresentative TruthTable.truthTableToBinary "1011".toList =
          Except.ok rep ∧
        NPNClassifier.getNPNRepresentative TruthTable.truthTableToBinary rep =
          Except.ok rep :=
  ⟨by decide, by unfold isBinary; decide,
    C5_representative_idempotent TruthTable.truthTableToBinary "1011".toList 2 (by decide)
      (by unfold isBinary; decide)⟩

/-! ## Claims settled by evaluation -/

/-- C13: `findNPNClasses` applied to the 16 truth tables of length 4 (with the unsigned
value of the bit string as ordering key) returns exactly 4 classes, the representatives
`0000`, `0001`, `0011` and `0110`. -/
theorem C13_two_variable_classes :
    TruthTable.generateAllTruthTables 2 =
        ["0000".toList, "0001".toList, "0010".toList, "0011".toList, "0100".toList,
         "0101".toList, "0110".toList, "0111".toList, "1000".toList, "1001".toList,
         "1010".toList, "1011".toList, "1100".toList, "1101".toList, "1110".toList,
         "1111".toList] ∧
      NPNClassifier.findNPNClasses TruthTable.truthTableToBinary
          (TruthTable.generateAllTruthTables 2) =
        Except.ok ["0000".toList, "0001".toList, "0011".toList, "0110".toList] ∧
      (NPNClassifier.findNPNClasses TruthTable.truthTableToBinary
          (TruthTable.generateAllTruthTables 2)).map List.length = Except.ok 4 := by
  decide

/-- C16: for the constant-1 tables `11` (one variable) and `1` (no variable) `synthesize`
returns the network with the single gate `G0 = MAJ(1,1,1)` and `OUTPUT = G0`, not
inverted, and `validate` on the table is true. -/
theorem C16_constant_one_networks :
    synthesize "11".toList =
        Except.ok { n_vars := 1, gates := [{ id := 0, a := MIG.C1, b := MIG.C1, c := MIG.C1 }],
                    output_gate := 0, output_inverted := false } ∧
      (synthesize "11".toList).map (fun m => m.validate "11".toList) =
        Except.ok (some true) ∧
      (synthesize "11".toList).map MIG.toText =
        Except.ok "G0 = MAJ(1,1,1)\nOUTPUT = G0\n".toList ∧
      synthesize "1".toList =
        Except.ok { n_vars := 0, gates := [{ id := 0, a := MIG.C1, b := MIG.C1, c := MIG.C1 }],
                    output_gate := 0, output_inverted := false } ∧
      (synthesize "1".toList).map (fun m => m.validate "1".toList) = Except.ok (some true) ∧
      (synthesize "1".toList).map MIG.toText =
        Except.ok "G0 = MAJ(1,1,1)\nOUTPUT = G0\n".toList := by
  decide

/-! ## Serialization -/

theorem operandToken_eq (x : MIGInput) : MIGGate.inputToStr x = operandToken x := by
  unfold MIGGate.inputToStr operandToken
  cases x.kind <;> rfl

theorem toText_gates_fold (n : Nat) :
    ∀ (gs : List MIGGate) (k : Nat) (acc : List Char),
      (∀ (j : Nat) (g : MIGGate), gs[j]? = some g → g.id = k + j) →
      gs.foldl (fun oss g => oss ++ g.toText n ++ ['\n']) acc =
        acc ++ ((gs.enumFrom k).map (fun kg =>
          "G".toList ++ to_string kg.1 ++ " = MAJ(".toList ++ operandToken kg.2.a ++
            ",".toList ++ operandToken kg.2.b ++ ",".toList ++ operandToken kg.2.c ++
            ")".toList ++ "\n".toList)).flatten := by
  intro gs
  induction gs with
  | nil => intro k acc _; simp
  | cons g rest ih =>
    intro k acc hid
    have h0 : g.id = k := by simpa using hid 0 g (by simp)
    rw [List.foldl_cons, ih (k + 1) _ (fun j g' hj => by
      have := hid (j + 1) g' (by simpa using hj)
      omega)]
    simp only [List.enumFrom_cons, List.map_cons, List.flatten_cons]
    unfold MIGGate.toText
    rw [operandToken_eq, operandToken_eq, operandToken_eq, h0]
    simp [List.append_assoc]

/-- C14 fails on the code: `toText` separates the operands of a gate by a comma without a
space.  For the network of the AND table `0001` the code gives
`G0 = MAJ(x0,x1,0)`, not `G0 = MAJ(x0, x1, 0)` as the format with comma and space
requires. -/
theorem C14_no_space_after_comma :
    (synthesize "0001".toList).map MIG.toText =
        Except.ok "G0 = MAJ(x0,x1,0)\nOUTPUT = G0\n".toList ∧
      (synthesize "0001".toList).map (toTextFormat ", ".toList) =
        Except.ok "G0 = MAJ(x0, x1, 0)\nOUTPUT = G0\n".toList ∧
      (synthesize "0001".toList).map MIG.toText ≠
        (synthesize "0001".toList).map (toTextFormat ", ".toList) := by
  decide

/-- C14 as amended: for every network whose gates carry their position as id (as
`addGate` assigns it), `toText()` is exactly, for each gate `k` in creation order, the
line `G<k> = MAJ(<in1>,<in2>,<in3>)` with the operands separated by a comma only, each
operand token being `x<index>`, `G<index>`, `0` or `1` with a trailing `'` when inverted,
followed by the line `OUTPUT = G<output_gate>` with a trailing `'` when the output is
inverted; every line ends with a newline. -/
theorem C14_toText_format (m : MIG)
    (hid : ∀ (k : Nat) (g : MIGGate), m.gates[k]? = some g → g.id = k) :
    m.toText = toTextFormat ",".toList m := by
  unfold MIG.toText toTextFormat
  simp only []
  rw [toText_gates_fold m.n_vars m.gates 0 [] (fun j g hj => by rw [hid j g hj]; omega)]
  unfold List.enum
  cases m.output_inverted <;> simp [List.append_assoc]

theorem C14_witness :
    (∀ (k : Nat) (g : MIGGate), literalNetwork.gates[k]? = some g → g.id = k) ∧
      literalNetwork.toText = toTextFormat ",".toList literalNetwork ∧
      literalNetwork.toText = "G0 = MAJ(x0,0,1)\nOUTPUT = G0\n".toList := by
  have hid : ∀ (k : Nat) (g : MIGGate), literalNetwork.gates[k]? = some g → g.id = k := by
    intro k g hk
    cases k with
    | zero =>
      simp only [literalNetwork, List.getElem?_cons_zero, Option.some.injEq] at hk
      rw [← hk]
    | succ k => simp [literalNetwork] at hk
  exact ⟨hid, C14_toText_format literalNetwork hid, by decide⟩

/-! ## The two transforms of the classifier as row maps -/

/-- Complementing the selected variables of a row is the XOR with the mask. -/
theorem npnIndex_xor (n : Nat) (neg : List Int) (i : Nat) (hi : i < 2 ^ n) :
    npnIndex n (fun j => j) (fun j => decide (neg.getD j 0 ≠ 0)) i = i ^^^ negMask n neg := by
  apply Nat.eq_of_testBit_eq
  intro k
  rw [Nat.testBit_xor]
  rcases Nat.lt_or_ge k n with hk | hk
  · have h1 := npnIndex_testBit n (fun j => j) (fun j => decide (neg.getD j 0 ≠ 0)) i
      (n - 1 - k) (by omega)
    have h2 := mkIndex_testBit n (fun j => decide (neg.getD j 0 ≠ 0)) (n - 1 - k) (by omega)
    rw [show n - 1 - (n - 1 - k) = k by omega] at h1 h2
    unfold negMask
    rw [h1, h2]
  · unfold negMask
    rw [testBit_eq_false_of_lt_pow _ n k (npnIndex_lt n _ _ i) hk,
      testBit_eq_false_of_lt_pow i n k hi hk,
      testBit_eq_false_of_lt_pow _ n k (mkIndex_lt n _) hk]
    rfl

theorem xor_lt_two_pow (n i m : Nat) (hi : i < 2 ^ n) (hm : m < 2 ^ n) : i ^^^ m < 2 ^ n :=
  Nat.xor_lt_two_pow hi hm

/-- The row map of a variable permutation is inverted by the row map of the inverse
permutation. -/
theorem npnIndex_perm_inverse (n : Nat) (p q : Nat → Nat) (h : IsPermPair n p q) (i : Nat)
    (hi : i < 2 ^ n) :
    npnIndex n q (fun _ => false) (npnIndex n p (fun _ => false) i) = i := by
  rw [npnIndex_comp n q p _ _ i (fun j hj => (h.2 j hj).1)]
  unfold npnIndex
  rw [mkIndex_congr n _ (fun j => i.testBit (n - 1 - j)) (fun j hj => by
    simp only [(h.2 j hj).2]
    simp)]
  exact mkIndex_self n i hi

theorem npnIndex_IsPermPair (n : Nat) (p q : Nat → Nat) (h : IsPermPair n p q) :
    IsPermPair (2 ^ n) (npnIndex n p (fun _ => false)) (npnIndex n q (fun _ => false)) :=
  ⟨fun i hi => ⟨npnIndex_lt n _ _ i, npnIndex_perm_inverse n p q h i hi⟩,
    fun i hi => ⟨npnIndex_lt n _ _ i, npnIndex_perm_inverse n q p (IsPermPair_symm n p q h) i hi⟩⟩

theorem getElem?_map_range_char (m k : Nat) (g : Nat → Char) (hk : k < m) :
    ((List.range m).map g)[k]? = some (g k) := by
  simp [List.getElem?_map, List.getElem?_range hk]

theorem getD_eq_getElem?_of_lt (l : List Char) (k : Nat) (hk : k < l.length) :
    l[k]? = some (l.getD k '0') := by
  simp [List.getD_eq_getElem?_getD, List.getElem?_eq_getElem hk]

/-- C19: for a table over `'0'`/`'1'` of length `2^n`, a negation vector `neg` of length
`n` and a flag `o`, `applyNegationPattern(tt, neg, o)` returns a table of the length of
`tt` whose character at row `i` is `tt[i XOR M]`, complemented exactly when `o != 0`,
where the mask `M` is below `2^n` and has bit `n - 1 - j` set exactly when `neg[j] != 0`.
The argument is a value of the embedding and is not changed by the call. -/
theorem C19_negation_pattern_rows (tt : List Char) (n : Nat) (neg : List Int) (o : Int)
    (hlen : tt.length = 2 ^ n) (hb : isBinary tt) (hneg : neg.length = n) :
    ∃ res : List Char,
      NPNClassifier.applyNegationPattern tt neg o = Except.ok res ∧
      res.length = tt.length ∧
      negMask n neg < 2 ^ n ∧
      (∀ (j : Nat) (hj : j < neg.length),
        (negMask n neg).testBit (n - 1 - j) = decide (neg.get ⟨j, hj⟩ ≠ 0)) ∧
      ∀ i, i < 2 ^ n →
        i ^^^ negMask n neg < tt.length ∧
        res[i]? = some (if o ≠ 0 then flipChar (tt.getD (i ^^^ negMask n neg) '0')
                        else tt.getD (i ^^^ negMask n neg) '0') := by
  refine ⟨NPNClassifier.applyNegationPatternRows n tt neg o, ?_, ?_, mkIndex_lt n _, ?_, ?_⟩
  · unfold NPNClassifier.applyNegationPattern
    rw [getNumVars_pow tt n hlen]
  · rw [applyNegationPatternRows_eq, List.length_map, List.length_range, hlen]
  · intro j hj
    unfold negMask
    rw [mkIndex_testBit n _ j (by omega)]
    simp [List.getD_eq_getElem?_getD, List.getElem?_eq_getElem hj]
  · intro i hi
    refine ⟨by rw [hlen]; exact xor_lt_two_pow n i _ hi (mkIndex_lt n _), ?_⟩
    rw [applyNegationPatternRows_eq, getElem?_map_range_char _ _ _ hi, npnIndex_xor n neg i hi,
      neg_output_char_binary _ _ (getD_binary tt hb _)]
    unfold flipChar
    by_cases ho : o = 0 <;> simp [ho]

theorem C19_witness :
    ("0111".toList.length = 2 ^ 2) ∧ isBinary "0111".toList ∧ ([0, 1] : List Int).length = 2 ∧
    ∃ res : List Char,
      NPNClassifier.applyNegationPattern "0111".toList [0, 1] 1 = Except.ok res ∧
      res.length = "0111".toList.length ∧
      negMask 2 [0, 1] < 2 ^ 2 ∧
      (∀ (j : Nat) (hj : j < ([0, 1] : List Int).length),
        (negMask 2 [0, 1]).testBit (2 - 1 - j) = decide (([0, 1] : List Int).get ⟨j, hj⟩ ≠ 0)) ∧
      ∀ i, i < 2 ^ 2 →
        i ^^^ negMask 2 [0, 1] < "0111".toList.length ∧
        res[i]? = some (if (1 : Int) ≠ 0 then flipChar ("0111".toList.getD (i ^^^ negMask 2 [0, 1]) '0')
                        else "0111".toList.getD (i ^^^ negMask 2 [0, 1]) '0') :=
  ⟨by decide, by unfold isBinary; decide, by decide,
    C19_negation_pattern_rows "0111".toList 2 [0, 1] 1 (by decide)
      (by unfold isBinary; decide) (by decide)⟩

/-- C20: for a table of length `2^n` and a permutation `perm` of `0 .. n-1`,
`applyPermutation(tt, perm)` is a rearrangement of the rows: there is a bijection `s` of
`[0, 2^n)` (with inverse `sinv`) such that `result[i] = tt[s i]`, the bit of variable `j`
of `s i` being the bit of variable `perm[j]` of `i`; the result has the length of `tt`,
the same characters with the same multiplicities (in particular the same number of `'1'`),
and the identity permutation returns `tt`. -/
theorem C20_permutation_rearranges_rows (tt : List Char) (n : Nat) (perm : List Nat)
    (hlen : tt.length = 2 ^ n) (hperm : perm.Perm (List.range n)) :
    ∃ (res : List Char) (s sinv : Nat → Nat),
      NPNClassifier.applyPermutation tt perm = Except.ok res ∧
      IsPermPair (2 ^ n) s sinv ∧
      (∀ i, i < 2 ^ n → res[i]? = tt[s i]?) ∧
      (∀ (i j : Nat) (hj : j < perm.length), i < 2 ^ n →
        (s i).testBit (n - 1 - j) = i.testBit (n - 1 - perm.get ⟨j, hj⟩)) ∧
      res.length = tt.length ∧
      res.count '1' = tt.count '1' ∧
      res.Perm tt ∧
      NPNClassifier.applyPermutation tt (List.range n) = Except.ok tt := by
  obtain ⟨hplen, _, hpmem⟩ := perm_range_facts n perm hperm
  have hpp := perm_IsPermPair n perm hperm
  have hp : ∀ j, j < n → perm.getD j 0 < n := fun j hj => (hpp.1 j hj).1
  have hpair := npnIndex_IsPermPair n _ _ hpp
  have hres : NPNClassifier.applyPermutationRows n tt perm =
      ((List.range (2 ^ n)).map (npnIndex n (fun j => perm.getD j 0) (fun _ => false))).map
        (fun k => tt.getD k '0') := by
    rw [applyPermutationRows_eq n tt perm hp, List.map_map]
    rfl
  have hrp : (NPNClassifier.applyPermutationRows n tt perm).Perm tt := by
    rw [hres]
    have h1 := (map_range_perm (2 ^ n) _ _ hpair).map (fun k => tt.getD k '0')
    have h2 : (List.range (2 ^ n)).map (fun k => tt.getD k '0') = tt := by
      rw [← hlen]; exact map_getD_range tt
    rw [h2] at h1
    exact h1
  refine ⟨NPNClassifier.applyPermutationRows n tt perm,
    npnIndex n (fun j => perm.getD j 0) (fun _ => false),
    npnIndex n (fun k => perm.indexOf k) (fun _ => false), ?_, hpair, ?_, ?_, hrp.length_eq,
    hrp.count_eq '1', hrp, ?_⟩
  · unfold NPNClassifier.applyPermutation
    rw [getNumVars_pow tt n hlen]
  · intro i hi
    rw [applyPermutationRows_eq n tt perm hp, getElem?_map_range_char _ _ _ hi,
      getD_eq_getElem?_of_lt tt _ (by rw [hlen]; exact npnIndex_lt n _ _ i)]
  · intro i j hj _
    rw [npnIndex_testBit n _ _ i j (by omega)]
    simp [List.getD_eq_getElem?_getD, List.getElem?_eq_getElem hj]
  · unfold NPNClassifier.applyPermutation
    rw [getNumVars_pow tt n hlen]
    simp only []
    apply congrArg
    have hr : ∀ j, j < n → (List.range n).getD j 0 < n := by
      intro j hj
      simp [List.getD_eq_getElem?_getD, List.getElem?_range hj, hj]
    rw [applyPermutationRows_eq n tt (List.range n) hr]
    have h2 : (List.range (2 ^ n)).map (fun k => tt.getD k '0') = tt := by
      rw [← hlen]; exact map_getD_range tt
    nth_rewrite 2 [← h2]
    apply List.map_congr_left
    intro i hi
    apply congrArg (fun k => tt.getD k '0')
    unfold npnIndex
    rw [mkIndex_congr n _ (fun j => i.testBit (n - 1 - j)) (fun j hj => by
      simp [List.getD_eq_getElem?_getD, List.getElem?_range hj])]
    exact mkIndex_self n i (List.mem_range.mp hi)

theorem C20_witness :
    ("00010111".toList.length = 2 ^ 3) ∧ ([2, 0, 1] : List Nat).Perm (List.range 3) ∧
    ∃ (res : List Char) (s sinv : Nat → Nat),
      NPNClassifier.applyPermutation "00010111".toList [2, 0, 1] = Except.ok res ∧
      IsPermPair (2 ^ 3) s sinv ∧
      (∀ i, i < 2 ^ 3 → res[i]? = "00010111".toList[s i]?) ∧
      (∀ (i j : Nat) (hj : j < ([2, 0, 1] : List Nat).length), i < 2 ^ 3 →
        (s i).testBit (3 - 1 - j) = i.testBit (3 - 1 - ([2, 0, 1] : List Nat).get ⟨j, hj⟩)) ∧
      res.length = "00010111".toList.length ∧
      res.count '1' = "00010111".toList.count '1' ∧
      res.Perm "00010111".toList ∧
      NPNClassifier.applyPermutation "00010111".toList (List.range 3) =
        Except.ok "00010111".toList :=
  ⟨by decide, by decide,
    C20_permutation_rearranges_rows "00010111".toList 3 [2, 0, 1] (by decide) (by decide)⟩

/-! ## Constant tables -/

/-- The row loop finds no term in a part of the table without `'1'`. -/
theorem sum_terms_loop_no_one (b : MIGBuilder) (terms : List MIGInput) :
    ∀ (rest : List Char) (i : Nat), (∀ ch ∈ rest, ch ≠ '1') →
      MIGBuilder.sum_terms_loop b terms i rest = (terms, b) := by
  intro rest
  induction rest with
  | nil => intro i _; rfl
  | cons ch rest ih =>
    intro i h
    rw [MIGBuilder.sum_terms_loop, if_neg (h ch (List.mem_cons_self _ _))]
    exact ih (i + 1) (fun c hc => h c (List.mem_cons_of_mem _ hc))

/-- The one-gate network of a constant evaluates to the constant on every input. -/
theorem const_zero_network_evaluate (n : Nat) (inputs : List Int) :
    MIG.evaluate { n_vars := n, gates := [{ id := 0, a := MIG.C0, b := MIG.C0, c := MIG.C0 }],
                   output_gate := 0, output_inverted := false } inputs = some 0 := by
  rfl

theorem const_zero_network_rows (n : Nat) (rows : List Nat) :
    MIG.getTruthTableRows
        { n_vars := n, gates := [{ id := 0, a := MIG.C0, b := MIG.C0, c := MIG.C0 }],
          output_gate := 0, output_inverted := false } rows =
      some (List.replicate rows.length '0') := by
  induction rows with
  | nil => rfl
  | cons i rest ih =>
    rw [MIG.getTruthTableRows, const_zero_network_evaluate]
    simp only [ih]
    rfl

theorem const_zero_network_text (n : Nat) :
    MIG.toText { n_vars := n, gates := [{ id := 0, a := MIG.C0, b := MIG.C0, c := MIG.C0 }],
                 output_gate := 0, output_inverted := false } =
      "G0 = MAJ(0,0,0)\nOUTPUT = G0\n".toList := by
  simp only [MIG.toText, MIGGate.toText, List.foldl_cons, List.foldl_nil]
  decide

/-- C15: for every `n` (below 31, the range of the `int` length check), synthesizing the
all-zero table of length `2^n` yields the network with exactly one gate
`G0 = MAJ(0,0,0)` and `OUTPUT = G0` not inverted, and `validate` on that table is true. -/
theorem C15_all_zero_table (n : Nat) (hn : n < 31) :
    synthesize (List.replicate (2 ^ n) '0') =
        Except.ok { n_vars := n,
                    gates := [{ id := 0, a := MIG.C0, b := MIG.C0, c := MIG.C0 }],
                    output_gate := 0, output_inverted := false } ∧
      (synthesize (List.replicate (2 ^ n) '0')).map
          (fun m => (m.size, m.toText, m.validate (List.replicate (2 ^ n) '0'))) =
        Except.ok (1, "G0 = MAJ(0,0,0)\nOUTPUT = G0\n".toList, some true) := by
  have hlt : 2 ^ n < 2 ^ 31 := Nat.pow_lt_pow_right (by norm_num) hn
  have hs : synthesize (List.replicate (2 ^ n) '0') =
      Except.ok { n_vars := n,
                  gates := [{ id := 0, a := MIG.C0, b := MIG.C0, c := MIG.C0 }],
                  output_gate := 0, output_inverted := false } := by
    rw [synthesize_pow _ n (List.length_replicate _ _) (by rw [List.length_replicate]; exact hlt)]
    have hroot : MIGBuilder.build_root (MIGBuilder.new n) (List.replicate (2 ^ n) '0') =
        (MIGBuilder.c0, MIGBuilder.new n) := by
      unfold MIGBuilder.build_root
      by_cases h0 : n = 0
      · subst h0
        rfl
      · rw [if_neg (show ¬ (MIGBuilder.new n).n_vars = 0 from h0)]
        simp only []
        rw [sum_terms_loop_no_one _ _ _ _ (fun ch hch => by
          rw [List.eq_of_mem_replicate hch]; decide)]
    rw [hroot]
    rfl
  refine ⟨hs, ?_⟩
  rw [hs]
  simp only [Except.map]
  apply congrArg
  refine Prod.ext rfl (Prod.ext (const_zero_network_text n) ?_)
  simp only [MIG.validate, MIG.getTruthTable]
  rw [const_zero_network_rows, shl_one_int_small n hn, Int.toNat_natCast]
  simp

theorem C15_witness :
    (1 < 31) ∧
    synthesize (List.replicate (2 ^ 1) '0') =
        Except.ok { n_vars := 1,
                    gates := [{ id := 0, a := MIG.C0, b := MIG.C0, c := MIG.C0 }],
                    output_gate := 0, output_inverted := false } ∧
      (synthesize (List.replicate (2 ^ 1) '0')).map
          (fun m => (m.size, m.toText, m.validate (List.replicate (2 ^ 1) '0'))) =
        Except.ok (1, "G0 = MAJ(0,0,0)\nOUTPUT = G0\n".toList, some true) :=
  ⟨by decide, C15_all_zero_table 1 (by decide)⟩

/-! ## The set of representatives -/

theorem set_insert_mem (s : List Char) :
    ∀ (l : List (List Char)) (x : List Char),
      x ∈ NPNClassifier.set_insert s l ↔ x = s ∨ x ∈ l := by
  intro l
  induction l with
  | nil => intro x; simp [NPNClassifier.set_insert]
  | cons y ys ih =>
    intro x
    rw [NPNClassifier.set_insert]
    by_cases h1 : s < y
    · rw [if_pos h1]; simp
    · rw [if_neg h1]
      by_cases h2 : y < s
      · rw [if_pos h2, List.mem_cons, ih x, List.mem_cons]
        tauto
      · rw [if_neg h2]
        have hsy : s = y := by
          rcases lt_trichotomy s y with h | h | h
          · exact absurd h h1
          · exact h
          · exact absurd h h2
        rw [List.mem_cons, hsy]
        tauto

theorem set_insert_sorted (s : List Char) :
    ∀ (l : List (List Char)), l.Pairwise (fun a b => a < b) →
      (NPNClassifier.set_insert s l).Pairwise (fun a b => a < b) := by
  intro l
  induction l with
  | nil => intro _; simp [NPNClassifier.set_insert]
  | cons y ys ih =>
    intro h
    rw [NPNClassifier.set_insert]
    rw [List.pairwise_cons] at h
    by_cases h1 : s < y
    · rw [if_pos h1]
      refine List.pairwise_cons.mpr ⟨?_, List.pairwise_cons.mpr h⟩
      intro a ha
      rcases List.mem_cons.mp ha with ha | ha
      · rw [ha]; exact h1
      · exact lt_trans h1 (h.1 a ha)
    · rw [if_neg h1]
      by_cases h2 : y < s
      · rw [if_pos h2]
        refine List.pairwise_cons.mpr ⟨?_, ih h.2⟩
        intro a ha
        rcases (set_insert_mem s ys a).mp ha with ha | ha
        · rw [ha]; exact h2
        · exact h.1 a ha
      · rw [if_neg h2]
        exact List.pairwise_cons.mpr h

/-- The loop of `findNPNClasses` keeps the set ascending and adds exactly the
representatives of the tables it visits. -/
theorem findNPNClasses_loop_spec (key : List Char → Nat) (n : Nat) :
    ∀ (tables : List (List Char)) (reps : List (List Char)),
      (∀ t ∈ tables, t.length = 2 ^ n) → reps.Pairwise (fun a b => a < b) →
      ∃ res, NPNClassifier.findNPNClasses_loop key reps tables = Except.ok res ∧
        res.Pairwise (fun a b => a < b) ∧
        ∀ r, r ∈ res ↔
          r ∈ reps ∨ ∃ t ∈ tables, NPNClassifier.getNPNRepresentative key t = Except.ok r := by
  intro tables
  induction tables with
  | nil =>
    intro reps _ hs
    exact ⟨reps, rfl, hs, fun r => by simp⟩
  | cons t rest ih =>
    intro reps hlen hs
    obtain ⟨rep, hrep, _⟩ := getNPNRepresentative_spec key n t (hlen t (List.mem_cons_self _ _))
    obtain ⟨res, h1, h2, h3⟩ := ih (NPNClassifier.set_insert rep reps)
      (fun u hu => hlen u (List.mem_cons_of_mem _ hu)) (set_insert_sorted rep reps hs)
    refine ⟨res, ?_, h2, ?_⟩
    · rw [NPNClassifier.findNPNClasses_loop, hrep]
      exact h1
    · intro r
      rw [h3 r, set_insert_mem]
      constructor
      · rintro ((h | h) | ⟨u, hu, hur⟩)
        · right; exact ⟨t, List.mem_cons_self _ _, by rw [h]; exact hrep⟩
        · left; exact h
        · right; exact ⟨u, List.mem_cons_of_mem _ hu, hur⟩
      · rintro (h | ⟨u, hu, hur⟩)
        · left; right; exact h
        · rcases List.mem_cons.mp hu with hu | hu
          · left; left
            rw [hu, hrep] at hur
            exact (Except.ok.inj hur).symm
          · right; exact ⟨u, hu, hur⟩

theorem truthTableToBinary_fold (l : List Char) :
    ∀ acc : Nat, l.foldl (fun acc ch => 2 * acc + (if ch = '1' then 1 else 0)) acc =
      acc * 2 ^ l.length + TruthTable.truthTableToBinary l := by
  induction l using List.reverseRecOn with
  | nil => intro acc; simp [TruthTable.truthTableToBinary]
  | append_singleton l ch ih =>
    intro acc
    rw [truthTableToBinary_snoc, List.foldl_append, List.foldl_cons, List.foldl_nil, ih acc,
      List.length_append, List.length_singleton, pow_succ]
    ring

theorem truthTableToBinary_cons (ch : Char) (l : List Char) :
    TruthTable.truthTableToBinary (ch :: l) =
      (if ch = '1' then 1 else 0) * 2 ^ l.length + TruthTable.truthTableToBinary l := by
  have h := truthTableToBinary_fold l (2 * 0 + (if ch = '1' then 1 else 0))
  simpa [TruthTable.truthTableToBinary] using h

theorem truthTableToBinary_lt (l : List Char) :
    TruthTable.truthTableToBinary l < 2 ^ l.length := by
  induction l using List.reverseRecOn with
  | nil => simp [TruthTable.truthTableToBinary]
  | append_singleton l ch ih =>
    rw [truthTableToBinary_snoc, List.length_append, List.length_singleton, pow_succ]
    split <;> omega

/-- On strings over `'0'`/`'1'` of one length the order of `std::string` is the order of
the unsigned values. -/
theorem lex_lt_value_lt :
    ∀ (l1 l2 : List Char), l1.length = l2.length → isBinary l1 → isBinary l2 → l1 < l2 →
      TruthTable.truthTableToBinary l1 < TruthTable.truthTableToBinary l2 := by
  intro l1
  induction l1 with
  | nil =>
    intro l2 hlen _ _ hlt
    have : l2 = [] := List.length_eq_zero.mp hlen.symm
    subst this
    exact absurd hlt (lt_irrefl _)
  | cons a as ih =>
    intro l2 hlen hb1 hb2 hlt
    cases l2 with
    | nil => simp at hlen
    | cons b bs =>
      have hlen' : as.length = bs.length := by simpa using hlen
      have hb1' : isBinary as := fun ch h => hb1 ch (List.mem_cons_of_mem _ h)
      have hb2' : isBinary bs := fun ch h => hb2 ch (List.mem_cons_of_mem _ h)
      rw [truthTableToBinary_cons, truthTableToBinary_cons, hlen']
      have hcases : (a = b ∧ as < bs) ∨ a < b := by
        cases hlt with
        | cons h => exact Or.inl ⟨rfl, h⟩
        | rel h => exact Or.inr h
      rcases hcases with ⟨hab, h⟩ | h
      · rw [hab]
        have := ih bs hlen' hb1' hb2' h
        omega
      · have ha := hb1 a (List.mem_cons_self _ _)
        have hb := hb2 b (List.mem_cons_self _ _)
        have h1 := truthTableToBinary_lt as
        rw [hlen'] at h1
        rcases ha with ha | ha <;> rcases hb with hb | hb <;> subst ha <;> subst hb
        · exact absurd h (by decide)
        · simp; omega
        · exact absurd h (by decide)
        · exact absurd h (by decide)

/-- Two ascending lists of strings with the same elements are equal. -/
theorem sorted_ext (l1 l2 : List (List Char)) (h1 : l1.Pairwise (fun a b => a < b))
    (h2 : l2.Pairwise (fun a b => a < b)) (hmem : ∀ x, x ∈ l1 ↔ x ∈ l2) : l1 = l2 := by
  have hn1 : l1.Nodup := h1.imp (fun h => ne_of_lt h)
  have hn2 : l2.Nodup := h2.imp (fun h => ne_of_lt h)
  have hp : l1.Perm l2 := (List.perm_ext_iff_of_nodup hn1 hn2).mpr hmem
  exact List.eq_of_perm_of_sorted hp h1 h2

/-- C12: for every list of truth tables (strings over `'0'`/`'1'`) of one length `2^n`,
`findNPNClasses` returns a list that is strictly ascending by the unsigned value of the
representatives (and in the order of `std::string`), hence free of duplicates; a table
`r` occurs in it exactly when `r == getNPNRepresentative(t)` for some input table `t`;
and every input list with the same set of tables (in any order, with any multiplicities)
gives the same result. -/
theorem C12_classes_ascending_set (key : List Char → Nat) (n : Nat)
    (tables : List (List Char)) (htab : ∀ t ∈ tables, t.length = 2 ^ n ∧ isBinary t) :
    ∃ res, NPNClassifier.findNPNClasses key tables = Except.ok res ∧
      res.Pairwise (fun a b =>
        TruthTable.truthTableToBinary a < TruthTable.truthTableToBinary b) ∧
      res.Pairwise (fun a b => a < b) ∧
      res.Nodup ∧
      (∀ r, r ∈ res ↔ ∃ t ∈ tables, NPNClassifier.getNPNRepresentative key t = Except.ok r) ∧
      ∀ tables2 : List (List Char), (∀ t, t ∈ tables2 ↔ t ∈ tables) →
        NPNClassifier.findNPNClasses key tables2 = Except.ok res := by
  obtain ⟨res, h1, h2, h3⟩ := findNPNClasses_loop_spec key n tables []
    (fun t ht => (htab t ht).1) List.Pairwise.nil
  have hmem : ∀ r, r ∈ res ↔
      ∃ t ∈ tables, NPNClassifier.getNPNRepresentative key t = Except.ok r := by
    intro r
    rw [h3 r]
    simp
  have hprop : ∀ r ∈ res, r.length = 2 ^ n ∧ isBinary r := by
    intro r hr
    obtain ⟨t, ht, htr⟩ := (hmem r).mp hr
    obtain ⟨rep, hrep, hrel, _⟩ := representative_rel key n t (htab t ht).1 (htab t ht).2
    rw [htr] at hrep
    rw [Except.ok.inj hrep]
    exact ⟨NPNRel_length n t rep hrel, NPNRel_binary n t rep (htab t ht).2 hrel⟩
  refine ⟨res, h1, ?_, h2, h2.imp (fun h => ne_of_lt h), hmem, ?_⟩
  · apply List.Pairwise.imp_of_mem _ h2
    intro a b ha hb hab
    exact lex_lt_value_lt a b ((hprop a ha).1.trans (hprop b hb).1.symm) (hprop a ha).2
      (hprop b hb).2 hab
  · intro tables2 h
    obtain ⟨res2, g1, g2, g3⟩ := findNPNClasses_loop_spec key n tables2 []
      (fun t ht => (htab t ((h t).mp ht)).1) List.Pairwise.nil
    have : res2 = res := by
      apply sorted_ext res2 res g2 h2
      intro x
      rw [g3 x, hmem x]
      simp only [List.not_mem_nil, false_or]
      constructor
      · rintro ⟨t, ht, e⟩; exact ⟨t, (h t).mp ht, e⟩
      · rintro ⟨t, ht, e⟩; exact ⟨t, (h t).mpr ht, e⟩
    unfold NPNClassifier.findNPNClasses
    rw [g1, this]

theorem C12_witness :
    (∀ t ∈ ["0111".toList, "1000".toList, "0110".toList, "0111".toList],
        t.length = 2 ^ 2 ∧ isBinary t) ∧
    ∃ res, NPNClassifier.findNPNClasses TruthTable.truthTableToBinary
          ["0111".toList, "1000".toList, "0110".toList, "0111".toList] = Except.ok res ∧
      res.Pairwise (fun a b =>
        TruthTable.truthTableToBinary a < TruthTable.truthTableToBinary b) ∧
      res.Pairwise (fun a b => a < b) ∧
      res.Nodup ∧
      (∀ r, r ∈ res ↔ ∃ t ∈ ["0111".toList, "1000".toList, "0110".toList, "0111".toList],
        NPNClassifier.getNPNRepresentative TruthTable.truthTableToBinary t = Except.ok r) ∧
      ∀ tables2 : List (List Char),
        (∀ t, t ∈ tables2 ↔ t ∈ ["0111".toList, "1000".toList, "0110".toList, "0111".toList]) →
        NPNClassifier.findNPNClasses TruthTable.truthTableToBinary tables2 = Except.ok res := by
  have hyp : ∀ t ∈ ["0111".toList, "1000".toList, "0110".toList, "0111".toList],
      t.length = 2 ^ 2 ∧ isBinary t := by
    unfold isBinary
    decide
  exact ⟨hyp, C12_classes_ascending_set TruthTable.truthTableToBinary 2 _ hyp⟩

/-! ## The comparator of the cache key is a strict total order -/

theorem key_less_iff (x y : InKey) : key_less x y = true ↔ keyTuple x < keyTuple y := by
  unfold key_less keyTuple
  rw [Prod.Lex.lt_iff]
  simp only []
  rw [Prod.Lex.lt_iff]
  simp only []
  rw [Prod.Lex.lt_iff]
  simp only []
  by_cases h1 : x.kind_rank = y.kind_rank
  · by_cases h2 : x.base_index = y.base_index
    · by_cases h3 : x.inverted = y.inverted
      · simp [h1, h2, h3]
      · simp [h1, h2, h3]
    · simp [h1, h2]
  · simp [h1]

theorem keyTuple_injective (x y : InKey) (h : keyTuple x = keyTuple y) : x = y := by
  obtain ⟨a, b, c, d⟩ := x
  obtain ⟨a', b', c', d'⟩ := y
  unfold keyTuple at h
  simp only [EmbeddingLike.apply_eq_iff_eq, Prod.mk.injEq] at h
  obtain ⟨h1, h2, h3, h4⟩ := h
  subst h1 h2 h3 h4
  rfl

theorem key_insert_sorted (x : InKey) :
    ∀ l : List InKey, l.Pairwise (fun a b => keyTuple a ≤ keyTuple b) →
      (key_insert x l).Pairwise (fun a b => keyTuple a ≤ keyTuple b) := by
  intro l
  induction l with
  | nil => intro _; simp [key_insert]
  | cons y ys ih =>
    intro h
    rw [key_insert]
    rw [List.pairwise_cons] at h
    by_cases hl : key_less x y = true
    · rw [if_pos hl]
      have hxy := le_of_lt ((key_less_iff x y).mp hl)
      refine List.pairwise_cons.mpr ⟨?_, List.pairwise_cons.mpr h⟩
      intro a ha
      rcases List.mem_cons.mp ha with ha | ha
      · rw [ha]; exact hxy
      · exact le_trans hxy (h.1 a ha)
    · rw [if_neg hl]
      have hyx : keyTuple y ≤ keyTuple x :=
        not_lt.mp (fun hlt => hl ((key_less_iff x y).mpr hlt))
      refine List.pairwise_cons.mpr ⟨?_, ih h.2⟩
      intro a ha
      rcases List.mem_cons.mp ((key_insert_perm x ys).mem_iff.mp ha) with ha | ha
      · rw [ha]; exact hyx
      · exact h.1 a ha

theorem key_sort_sorted (l : List InKey) :
    (key_sort l).Pairwise (fun a b => keyTuple a ≤ keyTuple b) := by
  induction l with
  | nil => simp [key_sort]
  | cons x xs ih =>
    rw [key_sort]
    exact key_insert_sorted x _ ih

/-- The sorted arrangement depends only on the keys, not on their order. -/
theorem key_sort_congr (l1 l2 : List InKey) (h : l1.Perm l2) : key_sort l1 = key_sort l2 := by
  have hp : (key_sort l1).Perm (key_sort l2) :=
    ((key_sort_perm l1).trans h).trans (key_sort_perm l2).symm
  have hm : (key_sort l1).map keyTuple = (key_sort l2).map keyTuple := by
    have s1 : ((key_sort l1).map keyTuple).Sorted (fun a b => a ≤ b) :=
      List.pairwise_map.mpr (key_sort_sorted l1)
    have s2 : ((key_sort l2).map keyTuple).Sorted (fun a b => a ≤ b) :=
      List.pairwise_map.mpr (key_sort_sorted l2)
    exact List.eq_of_perm_of_sorted (hp.map keyTuple) s1 s2
  exact List.map_injective_iff.mpr (fun a b hab => keyTuple_injective a b hab) hm

/-- The cache key of a triple does not depend on the order of the operands. -/
theorem maj_key_congr (x y z x' y' z' : MIGInput) (h : [x', y', z'].Perm [x, y, z]) :
    maj_key x' y' z' = maj_key x y z := by
  unfold maj_key
  rw [key_sort_congr [key_of x', key_of y', key_of z'] [key_of x, key_of y, key_of z]
    (h.map key_of)]

/-! ## The structural cache only grows -/

theorem CacheExt_refl (b : MIGBuilder) : CacheExt b b := fun _ _ h => h

theorem CacheExt_trans (b1 b2 b3 : MIGBuilder) (h1 : CacheExt b1 b2) (h2 : CacheExt b2 b3) :
    CacheExt b1 b3 := fun k g h => h2 k g (h1 k g h)

theorem lookup_emplace_new (cache : List (List Char × Nat)) (key : List Char) (gid : Nat)
    (h : cache.lookup key = none) :
    (MIGBuilder.emplace cache key gid).lookup key = some gid := by
  unfold MIGBuilder.emplace
  rw [h]
  simp [List.lookup_cons]

theorem lookup_emplace_old (cache : List (List Char × Nat)) (key k : List Char) (gid id : Nat)
    (h : cache.lookup k = some id) :
    (MIGBuilder.emplace cache key gid).lookup k = some id := by
  unfold MIGBuilder.emplace
  cases hk : cache.lookup key with
  | some v => exact h
  | none =>
    have hne : k ≠ key := by
      intro e
      rw [e, hk] at h
      cases h
    simp only [List.lookup_cons]
    rw [show (k == key) = false from by simpa using hne]
    exact h

theorem make_maj_cacheExt (b : MIGBuilder) (x y z : MIGInput) :
    CacheExt b (b.make_maj x y z).2 := by
  unfold MIGBuilder.make_maj
  split
  · exact CacheExt_refl b
  split
  · exact CacheExt_refl b
  split
  · exact CacheExt_refl b
  split
  · exact CacheExt_refl b
  split
  · exact CacheExt_refl b
  simp only []
  cases hlook : List.lookup (maj_key x y z) b.maj_cache with
  | some id => exact CacheExt_refl b
  | none =>
    intro k id hk
    exact lookup_emplace_old b.maj_cache (maj_key x y z) k _ id hk

theorem and2_cacheExt (b : MIGBuilder) (x y : MIGInput) : CacheExt b (b.and2 x y).2 := by
  unfold MIGBuilder.and2
  split
  · exact CacheExt_refl b
  split
  · exact CacheExt_refl b
  split
  · exact CacheExt_refl b
  split
  · exact CacheExt_refl b
  split
  · exact CacheExt_refl b
  exact make_maj_cacheExt b x y MIGBuilder.c0

theorem or2_cacheExt (b : MIGBuilder) (x y : MIGInput) : CacheExt b (b.or2 x y).2 := by
  unfold MIGBuilder.or2
  split
  · exact CacheExt_refl b
  split
  · exact CacheExt_refl b
  split
  · exact CacheExt_refl b
  split
  · exact CacheExt_refl b
  split
  · exact CacheExt_refl b
  exact make_maj_cacheExt b x y MIGBuilder.c1

theorem and_chain_loop_cacheExt :
    ∀ (rest : List MIGInput) (b : MIGBuilder) (acc : MIGInput),
      CacheExt b (MIGBuilder.and_chain_loop b acc rest).2 := by
  intro rest
  induction rest with
  | nil => intro b acc; exact CacheExt_refl b
  | cons l rest ih =>
    intro b acc
    rw [MIGBuilder.and_chain_loop]
    split
    · exact and2_cacheExt b acc l
    · exact CacheExt_trans _ _ _ (and2_cacheExt b acc l) (ih _ _)

theorem or_chain_loop_cacheExt :
    ∀ (rest : List MIGInput) (b : MIGBuilder) (acc : MIGInput),
      CacheExt b (MIGBuilder.or_chain_loop b acc rest).2 := by
  intro rest
  induction rest with
  | nil => intro b acc; exact CacheExt_refl b
  | cons l rest ih =>
    intro b acc
    rw [MIGBuilder.or_chain_loop]
    split
    · exact or2_cacheExt b acc l
    · exact CacheExt_trans _ _ _ (or2_cacheExt b acc l) (ih _ _)

theorem and_chain_cacheExt (b : MIGBuilder) (lits : List MIGInput) :
    CacheExt b (b.and_chain lits).2 := by
  cases lits with
  | nil => exact CacheExt_refl b
  | cons l rest => exact and_chain_loop_cacheExt rest b l

theorem or_chain_cacheExt (b : MIGBuilder) (terms : List MIGInput) :
    CacheExt b (b.or_chain terms).2 := by
  cases terms with
  | nil => exact CacheExt_refl b
  | cons l rest => exact or_chain_loop_cacheExt rest b l

theorem materialize_as_gate_cacheExt (b : MIGBuilder) (inp : MIGInput) :
    CacheExt b (b.materialize_as_gate inp).2 := by
  unfold MIGBuilder.materialize_as_gate
  split
  · exact CacheExt_refl b
  split
  · exact fun _ _ h => h
  split
  · exact fun _ _ h => h
  · exact fun _ _ h => h

/-- No call of a builder method removes or changes a cache entry. -/
theorem reach_cacheExt (b b2 : MIGBuilder) (h : BuilderReach b b2) : CacheExt b b2 := by
  induction h with
  | refl => exact CacheExt_refl _
  | make_maj b2 x y z _ ih => exact CacheExt_trans _ _ _ ih (make_maj_cacheExt b2 x y z)
  | and2 b2 x y _ ih => exact CacheExt_trans _ _ _ ih (and2_cacheExt b2 x y)
  | or2 b2 x y _ ih => exact CacheExt_trans _ _ _ ih (or2_cacheExt b2 x y)
  | and_chain b2 lits _ ih => exact CacheExt_trans _ _ _ ih (and_chain_cacheExt b2 lits)
  | or_chain b2 terms _ ih => exact CacheExt_trans _ _ _ ih (or_chain_cacheExt b2 terms)
  | materialize_as_gate b2 inp _ ih =>
    exact CacheExt_trans _ _ _ ih (materialize_as_gate_cacheExt b2 inp)

theorem equal_inputs_comm (x y : MIGInput) : equal_inputs x y = equal_inputs y x := by
  unfold equal_inputs
  simp only [eq_comm]

theorem complementary_comm (x y : MIGInput) : complementary x y = complementary y x := by
  unfold complementary same_base
  by_cases hk : x.kind = y.kind
  · rw [hk]
    by_cases hi : x.index = y.index
    · rw [hi]
      cases x.inverted <;> cases y.inverted <;> rfl
    · simp [hi, Ne.symm hi]
  · simp [hk, Ne.symm hk]

/-- A call of `make_maj` that passes the simplification rules returns a plain reference to
a gate and leaves the key of the triple in the cache with the id of that gate. -/
theorem make_maj_records (b : MIGBuilder) (x y z : MIGInput)
    (he1 : equal_inputs x y = false) (he2 : equal_inputs x z = false)
    (he3 : equal_inputs y z = false) (hc1 : complementary x y = false)
    (hc2 : complementary x z = false) (hc3 : complementary y z = false) :
    ∃ g, (b.make_maj x y z).1 = MIG.NODE g false ∧
      (b.make_maj x y z).2.maj_cache.lookup (maj_key x y z) = some g := by
  unfold MIGBuilder.make_maj
  simp only [he1, he2, he3, hc1, hc2, hc3, Bool.or_self, Bool.false_eq_true, if_false]
  cases hlook : List.lookup (maj_key x y z) b.maj_cache with
  | some id => exact ⟨id, rfl, hlook⟩
  | none => exact ⟨_, rfl, lookup_emplace_new _ _ _ hlook⟩

/-- A call of `make_maj` that passes the simplification rules and finds its key in the
cache returns the cached gate and leaves the builder unchanged. -/
theorem make_maj_found (b : MIGBuilder) (x y z : MIGInput) (g : Nat)
    (he1 : equal_inputs x y = false) (he2 : equal_inputs x z = false)
    (he3 : equal_inputs y z = false) (hc1 : complementary x y = false)
    (hc2 : complementary x z = false) (hc3 : complementary y z = false)
    (hlook : b.maj_cache.lookup (maj_key x y z) = some g) :
    b.make_maj x y z = (MIG.NODE g false, b) := by
  unfold MIGBuilder.make_maj
  simp only [he1, he2, he3, hc1, hc2, hc3, Bool.or_self, Bool.false_eq_true, if_false]
  rw [hlook]

theorem perm_pair_cases {α : Type} (a b c d : α) (h : [a, b].Perm [c, d]) :
    (a = c ∧ b = d) ∨ (a = d ∧ b = c) := by
  have ha : a ∈ [c, d] := h.mem_iff.mp (List.mem_cons_self _ _)
  simp only [List.mem_cons, List.mem_singleton, List.not_mem_nil, or_false] at ha
  rcases ha with ha | ha
  · subst ha
    left
    exact ⟨rfl, List.singleton_perm_singleton.mp h.cons_inv⟩
  · subst ha
    right
    have h' : [a, b].Perm [a, c] := h.trans (List.Perm.swap a c [])
    exact ⟨rfl, List.singleton_perm_singleton.mp h'.cons_inv⟩

/-- The six arrangements of a triple. -/
theorem perm_triple_cases {α : Type} (x y z x' y' z' : α) (h : [x', y', z'].Perm [x, y, z]) :
    (x' = x ∧ y' = y ∧ z' = z) ∨ (x' = x ∧ y' = z ∧ z' = y) ∨
    (x' = y ∧ y' = x ∧ z' = z) ∨ (x' = y ∧ y' = z ∧ z' = x) ∨
    (x' = z ∧ y' = x ∧ z' = y) ∨ (x' = z ∧ y' = y ∧ z' = x) := by
  have hx : x' ∈ [x, y, z] := h.mem_iff.mp (List.mem_cons_self _ _)
  simp only [List.mem_cons, List.mem_singleton, List.not_mem_nil, or_false] at hx
  rcases hx with hx | hx | hx
  · subst hx
    rcases perm_pair_cases y' z' y z h.cons_inv with ⟨h1, h2⟩ | ⟨h1, h2⟩
    · exact Or.inl ⟨rfl, h1, h2⟩
    · exact Or.inr (Or.inl ⟨rfl, h1, h2⟩)
  · subst hx
    have h' : [x', y', z'].Perm [x', x, z] := h.trans (List.Perm.swap x' x [z])
    rcases perm_pair_cases y' z' x z h'.cons_inv with ⟨h1, h2⟩ | ⟨h1, h2⟩
    · exact Or.inr (Or.inr (Or.inl ⟨rfl, h1, h2⟩))
    · exact Or.inr (Or.inr (Or.inr (Or.inl ⟨rfl, h1, h2⟩)))
  · subst hx
    have h' : [x', y', z'].Perm [x', x, y] :=
      h.trans ((List.Perm.cons x (List.Perm.swap x' y [])).trans (List.Perm.swap x' x [y]))
    rcases perm_pair_cases y' z' x y h'.cons_inv with ⟨h1, h2⟩ | ⟨h1, h2⟩
    · exact Or.inr (Or.inr (Or.inr (Or.inr (Or.inl ⟨rfl, h1, h2⟩))))
    · exact Or.inr (Or.inr (Or.inr (Or.inr (Or.inr ⟨rfl, h1, h2⟩))))

/-- C11 (hash-consing uniqueness): within one builder, for operands `a`, `b`, `c` that are
pairwise neither equal nor complementary, `make_maj(a, b, c)` returns a non-inverted
reference to a gate `g`; in every state reached afterwards by calls of the builder
methods, `make_maj` on any reordering of `(a, b, c)` returns the same non-inverted
reference to `g` and leaves the builder, in particular its gate list, unchanged. -/
theorem C11_hash_consing_unique (b b2 : MIGBuilder) (x y z x' y' z' : MIGInput)
    (he1 : equal_inputs x y = false) (he2 : equal_inputs x z = false)
    (he3 : equal_inputs y z = false) (hc1 : complementary x y = false)
    (hc2 : complementary x z = false) (hc3 : complementary y z = false)
    (hlater : BuilderReach (b.make_maj x y z).2 b2)
    (hperm : [x', y', z'].Perm [x, y, z]) :
    ∃ g, (b.make_maj x y z).1 = MIG.NODE g false ∧
      b2.make_maj x' y' z' = (MIG.NODE g false, b2) ∧
      (b2.make_maj x' y' z').2.mig.gates = b2.mig.gates := by
  obtain ⟨g, hg1, hg2⟩ := make_maj_records b x y z he1 he2 he3 hc1 hc2 hc3
  have hl : b2.maj_cache.lookup (maj_key x' y' z') = some g := by
    rw [maj_key_congr x y z x' y' z' hperm]
    exact reach_cacheExt _ _ hlater _ _ hg2
  have he1' := equal_inputs_comm y x
  have he2' := equal_inputs_comm z x
  have he3' := equal_inputs_comm z y
  have hc1' := complementary_comm y x
  have hc2' := complementary_comm z x
  have hc3' := complementary_comm z y
  rw [he1] at he1'
  rw [he2] at he2'
  rw [he3] at he3'
  rw [hc1] at hc1'
  rw [hc2] at hc2'
  rw [hc3] at hc3'
  have hres : b2.make_maj x' y' z' = (MIG.NODE g false, b2) := by
    rcases perm_triple_cases x y z x' y' z' hperm with
      ⟨h1, h2, h3⟩ | ⟨h1, h2, h3⟩ | ⟨h1, h2, h3⟩ | ⟨h1, h2, h3⟩ | ⟨h1, h2, h3⟩ | ⟨h1, h2, h3⟩ <;>
      subst h1 <;> subst h2 <;> subst h3 <;>
      apply make_maj_found <;> assumption
  exact ⟨g, hg1, hres, by rw [hres]⟩

theorem C11_witness :
    equal_inputs (MIG.PI 0 false) (MIG.PI 1 false) = false ∧
    equal_inputs (MIG.PI 0 false) (MIG.PI 2 true) = false ∧
    equal_inputs (MIG.PI 1 false) (MIG.PI 2 true) = false ∧
    complementary (MIG.PI 0 false) (MIG.PI 1 false) = false ∧
    complementary (MIG.PI 0 false) (MIG.PI 2 true) = false ∧
    complementary (MIG.PI 1 false) (MIG.PI 2 true) = false ∧
    BuilderReach ((MIGBuilder.new 3).make_maj (MIG.PI 0 false) (MIG.PI 1 false) (MIG.PI 2 true)).2
      ((((MIGBuilder.new 3).make_maj (MIG.PI 0 false) (MIG.PI 1 false) (MIG.PI 2 true)).2.and2
        (MIG.PI 0 false) (MIG.PI 1 true)).2) ∧
    [MIG.PI 2 true, MIG.PI 0 false, MIG.PI 1 false].Perm
      [MIG.PI 0 false, MIG.PI 1 false, MIG.PI 2 true] ∧
    ∃ g, ((MIGBuilder.new 3).make_maj (MIG.PI 0 false) (MIG.PI 1 false) (MIG.PI 2 true)).1 =
        MIG.NODE g false ∧
      ((((MIGBuilder.new 3).make_maj (MIG.PI 0 false) (MIG.PI 1 false) (MIG.PI 2 true)).2.and2
        (MIG.PI 0 false) (MIG.PI 1 true)).2).make_maj
          (MIG.PI 2 true) (MIG.PI 0 false) (MIG.PI 1 false) =
        (MIG.NODE g false,
          (((MIGBuilder.new 3).make_maj (MIG.PI 0 false) (MIG.PI 1 false) (MIG.PI 2 true)).2.and2
            (MIG.PI 0 false) (MIG.PI 1 true)).2) ∧
      (((((MIGBuilder.new 3).make_maj (MIG.PI 0 false) (MIG.PI 1 false) (MIG.PI 2 true)).2.and2
        (MIG.PI 0 false) (MIG.PI 1 true)).2).make_maj
          (MIG.PI 2 true) (MIG.PI 0 false) (MIG.PI 1 false)).2.mig.gates =
        ((((MIGBuilder.new 3).make_maj (MIG.PI 0 false) (MIG.PI 1 false) (MIG.PI 2 true)).2.and2
          (MIG.PI 0 false) (MIG.PI 1 true)).2).mig.gates :=
  ⟨by decide, by decide, by decide, by decide, by decide, by decide,
    BuilderReach.and2 _ _ _ _ (BuilderReach.refl _), by decide,
    C11_hash_consing_unique (MIGBuilder.new 3) _ (MIG.PI 0 false) (MIG.PI 1 false)
      (MIG.PI 2 true) (MIG.PI 2 true) (MIG.PI 0 false) (MIG.PI 1 false)
      (by decide) (by decide) (by decide) (by decide) (by decide) (by decide)
      (BuilderReach.and2 _ _ _ _ (BuilderReach.refl _)) (by decide)⟩

/-! ## Tables with a single minterm -/

/-- A call of `make_maj` that passes the simplification rules and misses the cache appends
the gate of its operands and returns a plain reference to it. -/
theorem make_maj_fresh (b : MIGBuilder) (x y z : MIGInput)
    (he1 : equal_inputs x y = false) (he2 : equal_inputs x z = false)
    (he3 : equal_inputs y z = false) (hc1 : complementary x y = false)
    (hc2 : complementary x z = false) (hc3 : complementary y z = false)
    (hlook : b.maj_cache.lookup (maj_key x y z) = none) :
    (b.make_maj x y z).1 = MIG.NODE b.mig.gates.length false ∧
      (b.make_maj x y z).2.mig.gates =
        b.mig.gates ++ [{ id := b.mig.gates.length, a := x, b := y, c := z }] ∧
      (b.make_maj x y z).2.n_vars = b.n_vars := by
  unfold MIGBuilder.make_maj
  simp only [he1, he2, he3, hc1, hc2, hc3, Bool.or_self, Bool.false_eq_true, if_false]
  rw [hlook]
  exact ⟨rfl, rfl, rfl⟩

theorem equal_inputs_kind_ne (x y : MIGInput) (h : x.kind ≠ y.kind) :
    equal_inputs x y = false := by
  simp [equal_inputs, h]

theorem equal_inputs_index_ne (x y : MIGInput) (h : x.index ≠ y.index) :
    equal_inputs x y = false := by
  simp [equal_inputs, h]

theorem complementary_kind_ne (x y : MIGInput) (h : x.kind ≠ y.kind) :
    complementary x y = false := by
  simp [complementary, same_base, h]

theorem complementary_index_ne (x y : MIGInput) (h : x.index ≠ y.index) :
    complementary x y = false := by
  simp [complementary, same_base, h]

/-- The conjunction chain over literals of fresh variables: every step misses the cache
and appends one gate `MAJ(acc, literal, 0)`. -/
theorem and_chain_loop_single :
    ∀ (lits : List MIGInput) (b : MIGBuilder) (acc : MIGInput) (j : Nat),
      BuilderInv b → b.valid acc →
      (acc.kind = Kind.PI ∧ acc.index < j ∨ acc.kind = Kind.NODE) →
      (∀ (m : Nat) (l : MIGInput), lits[m]? = some l →
        l.kind = Kind.PI ∧ l.index = j + m ∧ l.index < b.n_vars ∧ l.plainConst) →
      (∀ g ∈ b.mig.gates, g.c = MIGBuilder.c0 ∧
        ∀ o, (o = g.a ∨ o = g.b) → o.kind = Kind.PI → o.index < j) →
      (MIGBuilder.and_chain_loop b acc lits).2.mig.gates.length =
          b.mig.gates.length + lits.length ∧
        (∀ g ∈ (MIGBuilder.and_chain_loop b acc lits).2.mig.gates, g.c = MIGBuilder.c0) ∧
        (lits ≠ [] → (MIGBuilder.and_chain_loop b acc lits).1 =
          MIG.NODE (b.mig.gates.length + lits.length - 1) false) := by
  intro lits
  induction lits with
  | nil =>
    intro b acc j _ _ _ _ hg
    exact ⟨rfl, fun g hgm => (hg g hgm).1, fun h => absurd rfl h⟩
  | cons l rest ih =>
    intro b acc j hb hacc hkind hl hg
    obtain ⟨hlk, hli, hln, hlp⟩ := hl 0 l (by simp)
    have hli' : l.index = j := by omega
    have hc0k : MIGBuilder.c0.kind = Kind.CONST0 := rfl
    have hacc0 : acc.kind ≠ Kind.CONST0 := by
      rcases hkind with h | h <;> simp [h]
    have hacc1 : acc.kind ≠ Kind.CONST1 := by
      rcases hkind with h | h <;> simp [h]
    have he1 : equal_inputs acc l = false := by
      rcases hkind with h | h
      · exact equal_inputs_index_ne acc l (by omega)
      · exact equal_inputs_kind_ne acc l (by rw [h, hlk]; decide)
    have hc1 : complementary acc l = false := by
      rcases hkind with h | h
      · exact complementary_index_ne acc l (by omega)
      · exact complementary_kind_ne acc l (by rw [h, hlk]; decide)
    have he2 : equal_inputs acc MIGBuilder.c0 = false :=
      equal_inputs_kind_ne _ _ (by rw [hc0k]; exact hacc0)
    have he3 : equal_inputs l MIGBuilder.c0 = false :=
      equal_inputs_kind_ne _ _ (by rw [hc0k, hlk]; decide)
    have hc2 : complementary acc MIGBuilder.c0 = false :=
      complementary_kind_ne _ _ (by rw [hc0k]; exact hacc0)
    have hc3 : complementary l MIGBuilder.c0 = false :=
      complementary_kind_ne _ _ (by rw [hc0k, hlk]; decide)
    have hand : b.and2 acc l = b.make_maj acc l MIGBuilder.c0 := by
      unfold MIGBuilder.and2
      rw [if_neg (by rw [hlk]; simp [hacc0]), if_neg hacc1, if_neg (by rw [hlk]; decide),
        if_neg (by rw [he1]; decide), if_neg (by rw [hc1]; decide)]
    have hlook : b.maj_cache.lookup (maj_key acc l MIGBuilder.c0) = none := by
      cases hlk' : List.lookup (maj_key acc l MIGBuilder.c0) b.maj_cache with
      | none => rfl
      | some id =>
        exfalso
        obtain ⟨g, hgg, hkey⟩ := hb.2.2 _ id hlk'
        have hperm := maj_key_perm _ _ _ _ _ _ hkey
        have hmem : l ∈ [g.a, g.b, g.c] := hperm.mem_iff.mp (by simp)
        have hgm : g ∈ b.mig.gates := List.getElem?_mem hgg
        simp only [List.mem_cons, List.mem_singleton, List.not_mem_nil, or_false] at hmem
        rcases hmem with h | h | h
        · have := (hg g hgm).2 l (Or.inl h) hlk
          omega
        · have := (hg g hgm).2 l (Or.inr h) hlk
          omega
        · rw [(hg g hgm).1] at h
          rw [h] at hlk
          cases hlk
    obtain ⟨hr1, hr2, hr3⟩ := make_maj_fresh b acc l MIGBuilder.c0 he1 he2 he3 hc1 hc2 hc3 hlook
    have hlv : b.valid l :=
      ⟨⟨fun _ => hln, fun h => by rw [hlk] at h; cases h⟩, hlp⟩
    obtain ⟨⟨hinv, _, hval⟩, _⟩ := make_maj_spec b acc l MIGBuilder.c0 hb hacc hlv (valid_c0 b)
    rw [MIGBuilder.and_chain_loop, hand]
    rw [if_neg (by rw [hr1]; simp [MIG.NODE])]
    have hrest : ∀ (m : Nat) (l' : MIGInput), rest[m]? = some l' →
        l'.kind = Kind.PI ∧ l'.index = (j + 1) + m ∧
          l'.index < (b.make_maj acc l MIGBuilder.c0).2.n_vars ∧ l'.plainConst := by
      intro m l' hm
      obtain ⟨a1, a2, a3, a4⟩ := hl (m + 1) l' (by simpa using hm)
      exact ⟨a1, by omega, by rw [hr3]; exact a3, a4⟩
    have hgates : ∀ g ∈ (b.make_maj acc l MIGBuilder.c0).2.mig.gates, g.c = MIGBuilder.c0 ∧
        ∀ o, (o = g.a ∨ o = g.b) → o.kind = Kind.PI → o.index < j + 1 := by
      intro g hgm
      rw [hr2] at hgm
      rcases List.mem_append.mp hgm with h | h
      · exact ⟨(hg g h).1, fun o ho hk => Nat.lt_succ_of_lt ((hg g h).2 o ho hk)⟩
      · rw [List.mem_singleton] at h
        subst h
        refine ⟨rfl, ?_⟩
        intro o ho hk
        rcases ho with ho | ho
        · simp only [] at ho
          subst ho
          rcases hkind with h' | h'
          · omega
          · rw [h'] at hk; cases hk
        · simp only [] at ho
          subst ho
          omega
    obtain ⟨i1, i2, i3⟩ := ih (b.make_maj acc l MIGBuilder.c0).2
      (b.make_maj acc l MIGBuilder.c0).1 (j + 1) hinv hval
      (Or.inr (by rw [hr1]; rfl)) hrest hgates
    have hlen' : (b.make_maj acc l MIGBuilder.c0).2.mig.gates.length =
        b.mig.gates.length + 1 := by
      rw [hr2]; simp
    refine ⟨by rw [i1, hlen', List.length_cons]; omega, i2, fun _ => ?_⟩
    cases rest with
    | nil =>
      rw [MIGBuilder.and_chain_loop, hr1]
      simp
    | cons l2 rest2 =>
      rw [i3 (List.cons_ne_nil _ _), hlen']
      simp only [List.length_cons]
      congr 1
      omega

/-- The row loop on a table whose only `'1'` is at one position pushes the conjunction of
that row and nothing else. -/
theorem sum_terms_loop_single (b : MIGBuilder) (post : List Char)
    (hpost : ∀ ch ∈ post, ch ≠ '1') :
    ∀ (pre : List Char) (i : Nat), (∀ ch ∈ pre, ch ≠ '1') →
      MIGBuilder.sum_terms_loop b [] i (pre ++ '1' :: post) =
        ([(b.and_chain (MIGBuilder.row_lits b.n_vars (i + pre.length))).1],
          (b.and_chain (MIGBuilder.row_lits b.n_vars (i + pre.length))).2) := by
  intro pre
  induction pre with
  | nil =>
    intro i _
    rw [List.nil_append, MIGBuilder.sum_terms_loop, if_pos rfl]
    simp only [List.nil_append, List.length_nil, Nat.add_zero]
    rw [sum_terms_loop_no_one _ _ _ _ hpost]
  | cons ch pre ih =>
    intro i h
    rw [List.cons_append, MIGBuilder.sum_terms_loop,
      if_neg (h ch (List.mem_cons_self _ _)),
      ih (i + 1) (fun c hc => h c (List.mem_cons_of_mem _ hc))]
    rw [List.length_cons, show i + 1 + pre.length = i + (pre.length + 1) by omega]

/-- The conjunction of the `n ≥ 2` literals of a row, built in a fresh builder. -/
theorem and_chain_row_fresh (n i : Nat) (hn : 2 ≤ n) :
    ((MIGBuilder.new n).and_chain (MIGBuilder.row_lits n i)).2.mig.gates.length = n - 1 ∧
      (∀ g ∈ ((MIGBuilder.new n).and_chain (MIGBuilder.row_lits n i)).2.mig.gates,
        g.c = MIGBuilder.c0) ∧
      ((MIGBuilder.new n).and_chain (MIGBuilder.row_lits n i)).1 = MIG.NODE (n - 2) false := by
  obtain ⟨k, rfl⟩ : ∃ k, n = k + 1 := ⟨n - 1, by omega⟩
  rw [row_lits_eq, List.range_succ_eq_map, List.map_cons, List.map_map]
  unfold MIGBuilder.and_chain
  simp only []
  have hne : (List.map ((fun j => MIG.PI j (!(i.testBit (k + 1 - 1 - j)))) ∘ Nat.succ)
      (List.range k)) ≠ [] := by
    intro h
    have := congrArg List.length h
    simp at this
    omega
  obtain ⟨h1, h2, h3⟩ := and_chain_loop_single
    (List.map ((fun j => MIG.PI j (!(i.testBit (k + 1 - 1 - j)))) ∘ Nat.succ) (List.range k))
    (MIGBuilder.new (k + 1)) (MIG.PI 0 (!(i.testBit (k + 1 - 1 - 0)))) 1
    (BuilderInv_new _)
    ⟨⟨fun _ => Nat.succ_pos k, fun h => by simp [MIG.PI] at h⟩, fun h => by simp [MIG.PI] at h⟩
    (Or.inl ⟨rfl, Nat.zero_lt_one⟩)
    (by
      intro m l hm
      rw [List.getElem?_map] at hm
      rcases Nat.lt_or_ge m k with hmk | hmk
      · rw [List.getElem?_range hmk] at hm
        simp only [Option.map_some', Option.some.injEq, Function.comp] at hm
        subst hm
        refine ⟨rfl, ?_, ?_, fun h => by simp [MIG.PI] at h⟩
        · simp only [MIG.PI]; omega
        · simp only [MIG.PI, MIGBuilder.new]; omega
      · rw [List.getElem?_eq_none (by simpa using hmk)] at hm
        simp at hm)
    (by
      intro g hg
      simp [MIGBuilder.new, MIG.new] at hg)
  simp only [MIGBuilder.new, MIG.new, List.length_nil, List.length_map, List.length_range,
    Nat.zero_add] at h1 h2 h3 ⊢
  refine ⟨by rw [h1]; omega, h2, ?_⟩
  rw [h3 hne]
  congr 1

/-- C17: for `n ≥ 2` (below 31, the range of the `int` length check) and a table of length
`2^n` with exactly one `'1'`, `synthesize` returns a network with exactly `n - 1` gates,
each having the constant 0 as an operand, whose output is the last gate without
inversion.  For the AND table `0001` the network is the single gate `G0 = MAJ(x0, x1, 0)`
with `OUTPUT = G0`, and `validate("0001")` is true. -/
theorem C17_single_minterm (tt : List Char) (n : Nat) (hn2 : 2 ≤ n) (hn : n < 31)
    (hlen : tt.length = 2 ^ n) (hone : tt.count '1' = 1) :
    (∃ m, synthesize tt = Except.ok m ∧ m.size = n - 1 ∧
      (∀ g ∈ m.gates, g.a = MIG.C0 ∨ g.b = MIG.C0 ∨ g.c = MIG.C0) ∧
      m.output_gate = n - 2 ∧ m.output_gate + 1 = m.size ∧ m.output_inverted = false) ∧
    synthesize "0001".toList =
      Except.ok { n_vars := 2,
                  gates := [{ id := 0, a := MIG.PI 0 false, b := MIG.PI 1 false, c := MIG.C0 }],
                  output_gate := 0, output_inverted := false } ∧
    (synthesize "0001".toList).map (fun m => m.validate "0001".toList) =
      Except.ok (some true) := by
  refine ⟨?_, by decide, by decide⟩
  have hlt : tt.length < 2 ^ 31 := by
    rw [hlen]; exact Nat.pow_lt_pow_right (by norm_num) hn
  have hmem : '1' ∈ tt := List.count_pos_iff.mp (by omega)
  obtain ⟨pre, post, hsplit⟩ := List.append_of_mem hmem
  have hcount : pre.count '1' + (post.count '1' + 1) = 1 := by
    rw [hsplit, List.count_append, List.count_cons_self] at hone
    exact hone
  have hpre : ∀ ch ∈ pre, ch ≠ '1' := by
    intro ch hch e
    have : 0 < pre.count '1' := List.count_pos_iff.mpr (e ▸ hch)
    omega
  have hpost : ∀ ch ∈ post, ch ≠ '1' := by
    intro ch hch e
    have : 0 < post.count '1' := List.count_pos_iff.mpr (e ▸ hch)
    omega
  obtain ⟨h1, h2, h3⟩ := and_chain_row_fresh n (0 + pre.length) hn2
  have hroot : MIGBuilder.build_root (MIGBuilder.new n) tt =
      ((MIGBuilder.new n).and_chain (MIGBuilder.row_lits n (0 + pre.length))) := by
    unfold MIGBuilder.build_root
    rw [if_neg (show ¬ (MIGBuilder.new n).n_vars = 0 from by
      simp only [MIGBuilder.new]; omega)]
    simp only []
    rw [hsplit, sum_terms_loop_single _ post hpost pre 0 hpre]
    rfl
  refine ⟨_, synthesize_pow tt n hlen hlt, ?_⟩
  rw [hroot]
  have hmat : MIGBuilder.materialize_as_gate
      ((MIGBuilder.new n).and_chain (MIGBuilder.row_lits n (0 + pre.length))).2
      ((MIGBuilder.new n).and_chain (MIGBuilder.row_lits n (0 + pre.length))).1 =
        (n - 2, ((MIGBuilder.new n).and_chain (MIGBuilder.row_lits n (0 + pre.length))).2) := by
    unfold MIGBuilder.materialize_as_gate
    rw [h3, if_pos ⟨rfl, rfl⟩]
    rfl
  rw [hmat]
  simp only [MIG.setOutput, MIG.size]
  refine ⟨h1, fun g hg => Or.inr (Or.inr (h2 g hg)), trivial, by rw [h1]; omega, trivial⟩

theorem C17_witness :
    (2 ≤ 3) ∧ (3 < 31) ∧ ("00000100".toList.length = 2 ^ 3) ∧
      ("00000100".toList.count '1' = 1) ∧
    ((∃ m, synthesize "00000100".toList = Except.ok m ∧ m.size = 3 - 1 ∧
      (∀ g ∈ m.gates, g.a = MIG.C0 ∨ g.b = MIG.C0 ∨ g.c = MIG.C0) ∧
      m.output_gate = 3 - 2 ∧ m.output_gate + 1 = m.size ∧ m.output_inverted = false) ∧
    synthesize "0001".toList =
      Except.ok { n_vars := 2,
                  gates := [{ id := 0, a := MIG.PI 0 false, b := MIG.PI 1 false, c := MIG.C0 }],
                  output_gate := 0, output_inverted := false } ∧
    (synthesize "0001".toList).map (fun m => m.validate "0001".toList) =
      Except.ok (some true)) :=
  ⟨by decide, by decide, by decide, by decide,
    C17_single_minterm "00000100".toList 3 (by decide) (by decide) (by decide) (by decide)⟩

/-! ## Total symmetry -/

/-- On a table of length `2^n`, `applyPermutation` returns the table itself exactly when
the table is invariant under the row map of the permutation vector. -/
theorem applyPermutation_fix_iff (n : Nat) (tt : List Char) (perm : List Nat)
    (hlen : tt.length = 2 ^ n) (hp : ∀ j, j < n → perm.getD j 0 < n) :
    NPNClassifier.applyPermutation tt perm = Except.ok tt ↔
      RowInvariant n tt (fun j => perm.getD j 0) := by
  unfold NPNClassifier.applyPermutation
  rw [getNumVars_pow tt n hlen]
  simp only []
  rw [applyPermutationRows_eq n tt perm hp]
  have h2 : (List.range (2 ^ n)).map (fun k => tt.getD k '0') = tt := by
    rw [← hlen]; exact map_getD_range tt
  constructor
  · intro h r hr
    have h' := Except.ok.inj h
    have := congrArg (fun l => l.getD r '0') h'
    simp only [] at this
    rw [getD_map_range_char _ _ _ hr] at this
    exact this
  · intro h
    apply congrArg
    nth_rewrite 2 [← h2]
    apply List.map_congr_left
    intro r hr
    exact h r (List.mem_range.mp hr)

theorem RowInvariant_congr (n : Nat) (tt : List Char) (p p' : Nat → Nat)
    (h : ∀ j, j < n → p j = p' j) (hp : RowInvariant n tt p) : RowInvariant n tt p' := by
  intro r hr
  rw [← npnIndex_congr n p p' _ _ r h (fun _ _ => rfl)]
  exact hp r hr

/-- Invariance under two variable maps gives invariance under their composition. -/
theorem RowInvariant_comp (n : Nat) (tt : List Char) (p1 p2 : Nat → Nat)
    (hp1 : ∀ j, j < n → p1 j < n) (h1 : RowInvariant n tt p1) (h2 : RowInvariant n tt p2) :
    RowInvariant n tt (fun j => p2 (p1 j)) := by
  intro r hr
  have hc := npnIndex_comp n p1 p2 (fun _ => false) (fun _ => false) r hp1
  rw [npnIndex_congr n (fun j => p2 (p1 j)) (fun j => p2 (p1 j)) (fun _ => false)
    (fun j => xor false false) r (fun _ _ => rfl) (fun _ _ => rfl), ← hc,
    h1 _ (npnIndex_lt n _ _ r)]
  exact h2 r hr

theorem RowInvariant_id (n : Nat) (tt : List Char) (p : Nat → Nat)
    (hp : ∀ j, j < n → p j = j) : RowInvariant n tt p := by
  intro r hr
  apply congrArg (fun k => tt.getD k '0')
  unfold npnIndex
  rw [mkIndex_congr n _ (fun j => r.testBit (n - 1 - j)) (fun j hj => by
    simp only [hp j hj]; simp)]
  exact mkIndex_self n r hr

theorem permFun_lt (n : Nat) (σ : Equiv.Perm (Fin n)) (j : Nat) (hj : j < n) :
    permFun n σ j < n := by
  unfold permFun
  rw [dif_pos hj]
  exact (σ ⟨j, hj⟩).isLt

theorem permFun_swap_mul (n : Nat) (f : Equiv.Perm (Fin n)) (x y : Fin n) (j : Nat)
    (hj : j < n) :
    permFun n (Equiv.swap x y * f) j = Equiv.swap x.val y.val (permFun n f j) := by
  unfold permFun
  rw [dif_pos hj, dif_pos hj, Equiv.Perm.mul_apply, Equiv.swap_apply_def, Equiv.swap_apply_def]
  by_cases h1 : f ⟨j, hj⟩ = x
  · rw [if_pos h1, if_pos (by rw [h1])]
  · rw [if_neg h1, if_neg (fun h => h1 (Fin.ext h))]
    by_cases h2 : f ⟨j, hj⟩ = y
    · rw [if_pos h2, if_pos (by rw [h2])]
    · rw [if_neg h2, if_neg (fun h => h2 (Fin.ext h))]

/-- A table invariant under every exchange of two variables is invariant under every
permutation of the variables. -/
theorem RowInvariant_of_swaps (n : Nat) (tt : List Char)
    (hs : ∀ x y, x < n → y < n → RowInvariant n tt (fun k => Equiv.swap x y k))
    (σ : Equiv.Perm (Fin n)) : RowInvariant n tt (permFun n σ) := by
  refine Equiv.Perm.swap_induction_on σ ?_ ?_
  · apply RowInvariant_id
    intro j hj
    unfold permFun
    rw [dif_pos hj]
    rfl
  · intro f x y _ ih
    apply RowInvariant_congr n tt (fun j => Equiv.swap x.val y.val (permFun n f j))
    · intro j hj
      exact (permFun_swap_mul n f x y j hj).symm
    · exact RowInvariant_comp n tt (permFun n f) (fun k => Equiv.swap x.val y.val k)
        (fun j hj => permFun_lt n f j hj) ih (hs x.val y.val x.isLt y.isLt)

theorem swap_entries_getD (n i j k : Nat) (hi : i < n) (hj : j < n) (hk : k < n) :
    (NPNClassifier.swap_entries (List.range n) i j).getD k 0 = Equiv.swap i j k := by
  unfold NPNClassifier.swap_entries
  have gi : (List.range n).getD i 0 = i := by
    simp [List.getD_eq_getElem?_getD, List.getElem?_range hi]
  have gj : (List.range n).getD j 0 = j := by
    simp [List.getD_eq_getElem?_getD, List.getElem?_range hj]
  rw [gi, gj, Equiv.swap_apply_def, List.getD_eq_getElem?_getD, List.getElem?_set]
  by_cases h1 : j = k
  · subst h1
    rw [if_pos rfl, if_pos (by simpa using hk)]
    by_cases h2 : j = i
    · rw [if_pos h2]; simp [h2]
    · rw [if_neg h2, if_pos rfl]; simp
  · rw [if_neg h1, List.getElem?_set]
    by_cases h2 : i = k
    · subst h2
      rw [if_pos rfl, if_pos (by simpa using hk), if_pos rfl]
      simp
    · rw [if_neg h2, if_neg (Ne.symm h2), if_neg (Ne.symm h1), List.getElem?_range hk]
      simp

theorem swap_entries_length (n i j : Nat) :
    (NPNClassifier.swap_entries (List.range n) i j).length = n := by
  simp [NPNClassifier.swap_entries]

theorem swap_lt (n i j k : Nat) (hi : i < n) (hj : j < n) (hk : k < n) :
    Equiv.swap i j k < n := by
  rw [Equiv.swap_apply_def]
  split
  · exact hj
  · split
    · exact hi
    · exact hk

/-- The vector `perm` of `checkSymmetry` is a permutation of `0 .. n-1`. -/
theorem swap_entries_perm (n i j : Nat) (hi : i < n) (hj : j < n) :
    (NPNClassifier.swap_entries (List.range n) i j).Perm (List.range n) := by
  have he : NPNClassifier.swap_entries (List.range n) i j =
      (List.range n).map (fun k => Equiv.swap i j k) := by
    apply List.ext_getElem
    · rw [swap_entries_length, List.length_map, List.length_range]
    · intro k h1 h2
      have hk : k < n := by rw [swap_entries_length] at h1; exact h1
      have := swap_entries_getD n i j k hi hj hk
      rw [List.getD_eq_getElem?_getD, List.getElem?_eq_getElem h1] at this
      simp only [Option.getD_some] at this
      rw [this]
      simp
  rw [he]
  apply map_range_perm n (fun k => Equiv.swap i j k) (fun k => Equiv.swap i j k)
  exact ⟨fun k hk => ⟨swap_lt n i j k hi hj hk, Equiv.swap_apply_self i j k⟩,
    fun k hk => ⟨swap_lt n i j k hi hj hk, Equiv.swap_apply_self i j k⟩⟩

/-- On a table of length `2^n`, `checkSymmetry(tt, i, j)` is true exactly when the table is
invariant under the exchange of the variables `i` and `j`. -/
theorem checkSymmetry_iff (n : Nat) (tt : List Char) (i j : Nat) (hlen : tt.length = 2 ^ n)
    (hi : i < n) (hj : j < n) :
    NPNClassifier.checkSymmetry tt i j = Except.ok true ↔
      RowInvariant n tt (fun k => Equiv.swap i j k) := by
  have hp : ∀ k, k < n → (NPNClassifier.swap_entries (List.range n) i j).getD k 0 < n := by
    intro k hk
    rw [swap_entries_getD n i j k hi hj hk]
    exact swap_lt n i j k hi hj hk
  have hfix := applyPermutation_fix_iff n tt _ hlen hp
  have hinv : RowInvariant n tt
        (fun k => (NPNClassifier.swap_entries (List.range n) i j).getD k 0) ↔
      RowInvariant n tt (fun k => Equiv.swap i j k) :=
    ⟨RowInvariant_congr n tt _ _ (fun k hk => swap_entries_getD n i j k hi hj hk),
      RowInvariant_congr n tt _ _ (fun k hk => (swap_entries_getD n i j k hi hj hk).symm)⟩
  rw [← hinv, ← hfix]
  unfold NPNClassifier.checkSymmetry NPNClassifier.applyPermutation
  rw [getNumVars_pow tt n hlen]
  simp

/-- A permutation vector is the value list of a permutation of `{0, .., n-1}`. -/
theorem perm_to_equiv (n : Nat) (perm : List Nat) (h : perm.Perm (List.range n)) :
    ∃ σ : Equiv.Perm (Fin n), ∀ j, j < n → permFun n σ j = perm.getD j 0 := by
  have hpp := perm_IsPermPair n perm h
  refine ⟨{ toFun := fun k => ⟨perm.getD k.val 0, (hpp.1 k.val k.isLt).1⟩,
            invFun := fun k => ⟨perm.indexOf k.val, (hpp.2 k.val k.isLt).1⟩,
            left_inv := fun k => Fin.ext (hpp.1 k.val k.isLt).2,
            right_inv := fun k => Fin.ext (hpp.2 k.val k.isLt).2 }, ?_⟩
  intro j hj
  unfold permFun
  rw [dif_pos hj]
  rfl

/-- The value list of a permutation of `{0, .., n-1}` is a permutation vector. -/
theorem equiv_to_perm (n : Nat) (σ : Equiv.Perm (Fin n)) :
    ((List.range n).map (permFun n σ)).Perm (List.range n) := by
  apply map_range_perm n (permFun n σ) (permFun n σ⁻¹)
  constructor
  · intro j hj
    refine ⟨permFun_lt n σ j hj, ?_⟩
    unfold permFun
    rw [dif_pos hj, dif_pos (σ ⟨j, hj⟩).isLt]
    simp
  · intro j hj
    refine ⟨permFun_lt n σ⁻¹ j hj, ?_⟩
    unfold permFun
    rw [dif_pos hj, dif_pos (σ⁻¹ ⟨j, hj⟩).isLt]
    simp

/-! ## Rows with the same number of ones -/

theorem reverse_IsPermPair (n : Nat) :
    IsPermPair n (fun k => n - 1 - k) (fun k => n - 1 - k) :=
  ⟨fun j hj => ⟨by show n - 1 - j < n; omega, by show n - 1 - (n - 1 - j) = j; omega⟩,
    fun j hj => ⟨by show n - 1 - j < n; omega, by show n - 1 - (n - 1 - j) = j; omega⟩⟩

/-- The number of ones of the row with variable values `β`. -/
theorem popcount_mkIndex (n : Nat) (β : Nat → Bool) :
    popcount n (mkIndex n β) = (List.range n).countP β := by
  unfold popcount
  rw [← (map_range_perm n _ _ (reverse_IsPermPair n)).countP_eq, List.countP_map]
  apply List.countP_congr
  intro k hk
  simp only [Function.comp]
  rw [mkIndex_testBit n β k (List.mem_range.mp hk)]

theorem popcount_row (n r : Nat) (hr : r < 2 ^ n) :
    popcount n r = (List.range n).countP (fun j => r.testBit (n - 1 - j)) := by
  nth_rewrite 1 [← mkIndex_self n r hr]
  exact popcount_mkIndex n _

/-- Rearranging the variables of a row keeps its number of ones. -/
theorem popcount_npnIndex (n : Nat) (p q : Nat → Nat) (h : IsPermPair n p q) (r : Nat)
    (hr : r < 2 ^ n) :
    popcount n (npnIndex n p (fun _ => false) r) = popcount n r := by
  unfold npnIndex
  rw [popcount_mkIndex, popcount_row n r hr,
    ← (map_range_perm n p q h).countP_eq (fun j => r.testBit (n - 1 - j)), List.countP_map]
  apply List.countP_congr
  intro k _
  simp

theorem card_fin_subtype (n : Nat) (β : Nat → Bool) :
    Fintype.card { k : Fin n // β k.val = true } = (List.range n).countP β := by
  have h1 := Nat.count_eq_card_fintype (fun k => β k = true) n
  have h2 : Nat.count (fun k => β k = true) n = (List.range n).countP β := by
    unfold Nat.count
    apply List.countP_congr
    intro k _
    simp
  rw [← h2, h1]
  exact @Fintype.card_congr _ _ _ (Nat.CountSet.fintype _ n)
    { toFun := fun k => ⟨k.val.val, k.val.isLt, k.property⟩,
      invFun := fun k => ⟨⟨k.val, k.property.1⟩, k.property.2⟩,
      left_inv := fun _ => rfl,
      right_inv := fun _ => rfl }

/-- Two rows with the same number of ones differ by a permutation of the variables. -/
theorem rows_same_popcount (n r s : Nat) (hr : r < 2 ^ n) (hs : s < 2 ^ n)
    (h : popcount n r = popcount n s) :
    ∃ σ : Equiv.Perm (Fin n), npnIndex n (permFun n σ) (fun _ => false) r = s := by
  rw [popcount_row n r hr, popcount_row n s hs, ← card_fin_subtype, ← card_fin_subtype] at h
  let e : { k : Fin n // s.testBit (n - 1 - k.val) = true } ≃
      { k : Fin n // r.testBit (n - 1 - k.val) = true } := Fintype.equivOfCardEq h.symm
  refine ⟨e.extendSubtype, ?_⟩
  refine Eq.trans ?_ (mkIndex_self n s hs)
  unfold npnIndex
  apply mkIndex_congr
  intro j hj
  unfold permFun
  rw [dif_pos hj]
  simp only [Bool.xor_false]
  by_cases hb : s.testBit (n - 1 - j) = true
  · rw [hb]
    exact Equiv.extendSubtype_mem e ⟨j, hj⟩ hb
  · have := Equiv.extendSubtype_not_mem e ⟨j, hj⟩ hb
    rw [Bool.not_eq_true] at hb this
    rw [hb, this]

/-- C18: for a truth table of length `2^n`, `checkSymmetry(tt, i, j)` is true for all
`i, j` in `[0, n)` if and only if `applyPermutation(tt, perm) == tt` for every permutation
`perm` of `0 .. n-1`; and this holds if and only if `tt[r]` depends only on the number of
1 bits of `r`. -/
theorem C18_symmetry_total (tt : List Char) (n : Nat) (hlen : tt.length = 2 ^ n) :
    ((∀ i j, i < n → j < n → NPNClassifier.checkSymmetry tt i j = Except.ok true) ↔
      (∀ perm : List Nat, perm.Perm (List.range n) →
        NPNClassifier.applyPermutation tt perm = Except.ok tt)) ∧
    ((∀ perm : List Nat, perm.Perm (List.range n) →
        NPNClassifier.applyPermutation tt perm = Except.ok tt) ↔
      (∀ r s, r < 2 ^ n → s < 2 ^ n → popcount n r = popcount n s → tt[r]? = tt[s]?)) := by
  have hAB : (∀ i j, i < n → j < n → NPNClassifier.checkSymmetry tt i j = Except.ok true) →
      ∀ σ : Equiv.Perm (Fin n), RowInvariant n tt (permFun n σ) := by
    intro hA σ
    exact RowInvariant_of_swaps n tt
      (fun x y hx hy => (checkSymmetry_iff n tt x y hlen hx hy).mp (hA x y hx hy)) σ
  have hBA : (∀ perm : List Nat, perm.Perm (List.range n) →
        NPNClassifier.applyPermutation tt perm = Except.ok tt) →
      ∀ i j, i < n → j < n → NPNClassifier.checkSymmetry tt i j = Except.ok true := by
    intro hB i j hi hj
    have hperm := swap_entries_perm n i j hi hj
    have h1 := hB _ hperm
    unfold NPNClassifier.checkSymmetry
    rw [getNumVars_pow tt n hlen]
    simp only []
    rw [h1]
    simp
  have hσB : (∀ σ : Equiv.Perm (Fin n), RowInvariant n tt (permFun n σ)) →
      ∀ perm : List Nat, perm.Perm (List.range n) →
        NPNClassifier.applyPermutation tt perm = Except.ok tt := by
    intro hσ perm hperm
    obtain ⟨σ, hs⟩ := perm_to_equiv n perm hperm
    have hp : ∀ j, j < n → perm.getD j 0 < n := fun j hj =>
      ((perm_IsPermPair n perm hperm).1 j hj).1
    exact (applyPermutation_fix_iff n tt perm hlen hp).mpr
      (RowInvariant_congr n tt _ _ hs (hσ σ))
  refine ⟨⟨fun hA => hσB (hAB hA), hBA⟩, ?_, ?_⟩
  · intro hB r s hr hs hpc
    obtain ⟨σ, hσ⟩ := rows_same_popcount n r s hr hs hpc
    have hinv := hAB (hBA hB) σ r hr
    rw [hσ] at hinv
    rw [getD_eq_getElem?_of_lt tt r (by rw [hlen]; exact hr),
      getD_eq_getElem?_of_lt tt s (by rw [hlen]; exact hs), hinv]
  · intro hC perm hperm
    have hpp := perm_IsPermPair n perm hperm
    have hp : ∀ j, j < n → perm.getD j 0 < n := fun j hj => (hpp.1 j hj).1
    apply (applyPermutation_fix_iff n tt perm hlen hp).mpr
    intro r hr
    have hlt := npnIndex_lt n (fun j => perm.getD j 0) (fun _ => false) r
    have h1 := hC _ r hlt hr (popcount_npnIndex n _ _ hpp r hr)
    rw [getD_eq_getElem?_of_lt tt _ (by rw [hlen]; exact hlt),
      getD_eq_getElem?_of_lt tt r (by rw [hlen]; exact hr)] at h1
    exact Option.some.inj h1

theorem C18_witness :
    ("00010111".toList.length = 2 ^ 3) ∧
    ((∀ i j, i < 3 → j < 3 →
        NPNClassifier.checkSymmetry "00010111".toList i j = Except.ok true) ↔
      (∀ perm : List Nat, perm.Perm (List.range 3) →
        NPNClassifier.applyPermutation "00010111".toList perm =
          Except.ok "00010111".toList)) ∧
    ((∀ perm : List Nat, perm.Perm (List.range 3) →
        NPNClassifier.applyPermutation "00010111".toList perm =
          Except.ok "00010111".toList) ↔
      (∀ r s, r < 2 ^ 3 → s < 2 ^ 3 → popcount 3 r = popcount 3 s →
        "00010111".toList[r]? = "00010111".toList[s]?)) :=
  ⟨by decide, C18_symmetry_total "00010111".toList 3 (by decide)⟩

/-! ## The network interface -/

theorem addGates_size (ops : List (MIGInput × MIGInput × MIGInput)) :
    ∀ m : MIG, (m.addGates ops).size = m.size + ops.length := by
  induction ops with
  | nil => intro m; rfl
  | cons t rest ih =>
    intro m
    unfold MIG.addGates
    rw [List.foldl_cons]
    have := ih (m.addGate t.1 t.2.1 t.2.2).2
    unfold MIG.addGates at this
    rw [this]
    have h1 : (m.addGate t.1 t.2.1 t.2.2).2.size = m.size + 1 := by
      simp [MIG.size, MIG.addGate]
    rw [h1, List.length_cons]
    omega

/-- On a table of length `2^n` a returned network has `n` variables. -/
theorem synthesize_n_vars (tt : List Char) (m : MIG) (n : Nat) (hlen : tt.length = 2 ^ n)
    (h : synthesize tt = Except.ok m) : m.n_vars = n := by
  unfold synthesize at h
  simp only [hlen, deduce_n_pow] at h
  rw [if_neg (by omega)] at h
  simp only [Int.toNat_ofNat] at h
  exact (build_from_truth_ok _ tt m (BuilderInv_new n) h).1

/-- C21 (DAG invariant): in every network returned by `synthesize`, the gate at position
`k` stores the id `k`, every gate-reference operand of it has an index below `k`, and
every primary-input operand has an index below the number of variables (which is `n` for
a table of length `2^n`); `addGate` appends one gate at the end and leaves the gates
present before unchanged. -/
theorem C21_dag_invariant (tt : List Char) (m : MIG) (h : synthesize tt = Except.ok m) :
    (∀ (k : Nat) (g : MIGGate), m.gates[k]? = some g →
      g.id = k ∧
      ∀ o : MIGInput, (o = g.a ∨ o = g.b ∨ o = g.c) →
        (o.kind = Kind.NODE → o.index < k) ∧ (o.kind = Kind.PI → o.index < m.n_vars)) ∧
    (∀ n, tt.length = 2 ^ n → m.n_vars = n) ∧
    (∀ (m0 : MIG) (a b c : MIGInput),
      (m0.addGate a b c).2.gates =
          m0.gates ++ [{ id := m0.gates.length, a := a, b := b, c := c }] ∧
        ∀ k, k < m0.gates.length → (m0.addGate a b c).2.gates[k]? = m0.gates[k]?) := by
  obtain ⟨hdag, _, _⟩ := synthesize_ok tt m h
  refine ⟨?_, fun n hn => synthesize_n_vars tt m n hn h, ?_⟩
  · intro k g hk
    obtain ⟨h1, ha, hb, hc⟩ := hdag k g hk
    refine ⟨h1, ?_⟩
    intro o ho
    rcases ho with ho | ho | ho <;> subst ho
    · exact ⟨ha.2, ha.1⟩
    · exact ⟨hb.2, hb.1⟩
    · exact ⟨hc.2, hc.1⟩
  · intro m0 a b c
    refine ⟨rfl, fun k hk => ?_⟩
    simp only [MIG.addGate]
    exact List.getElem?_append_left hk

theorem C21_witness :
    synthesize "0001".toList =
      Except.ok { n_vars := 2,
                  gates := [{ id := 0, a := MIG.PI 0 false, b := MIG.PI 1 false, c := MIG.C0 }],
                  output_gate := 0, output_inverted := false } ∧
    ((∀ (k : Nat) (g : MIGGate),
      [({ id := 0, a := MIG.PI 0 false, b := MIG.PI 1 false, c := MIG.C0 } : MIGGate)][k]? =
          some g →
      g.id = k ∧
      ∀ o : MIGInput, (o = g.a ∨ o = g.b ∨ o = g.c) →
        (o.kind = Kind.NODE → o.index < k) ∧ (o.kind = Kind.PI → o.index < 2)) ∧
    (∀ n, "0001".toList.length = 2 ^ n → 2 = n) ∧
    (∀ (m0 : MIG) (a b c : MIGInput),
      (m0.addGate a b c).2.gates =
          m0.gates ++ [{ id := m0.gates.length, a := a, b := b, c := c }] ∧
        ∀ k, k < m0.gates.length → (m0.addGate a b c).2.gates[k]? = m0.gates[k]?)) :=
  ⟨by decide, C21_dag_invariant "0001".toList
    { n_vars := 2,
      gates := [{ id := 0, a := MIG.PI 0 false, b := MIG.PI 1 false, c := MIG.C0 }],
      output_gate := 0, output_inverted := false } (by decide)⟩

/-- C22: for every network, `size()` is the number of gates (after any sequence of
`addGate` calls on a new network, the number of calls) and `depth() == size()`; `addGate`
returns the previous `size()` and increases `size()` by exactly one. -/
theorem C22_size_and_depth (m : MIG) (a b c : MIGInput) (n : Nat)
    (ops : List (MIGInput × MIGInput × MIGInput)) :
    m.size = m.gates.length ∧ m.depth = m.size ∧
      (m.addGate a b c).1 = m.size ∧ (m.addGate a b c).2.size = m.size + 1 ∧
      (MIG.new n).size = 0 ∧ ((MIG.new n).addGates ops).size = ops.length := by
  refine ⟨rfl, rfl, rfl, ?_, rfl, ?_⟩
  · simp [MIG.size, MIG.addGate]
  · rw [addGates_size]
    simp [MIG.size, MIG.new]

/-! ## Simplification rules of `make_maj` -/

theorem equal_inputs_iff (x y : MIGInput) : equal_inputs x y = true ↔ x = y := by
  constructor
  · exact equal_inputs_eq x y
  · intro h
    subst h
    simp [equal_inputs]

theorem complementary_iff (x y : MIGInput) : complementary x y = true ↔ oppositeOps x y := by
  unfold complementary same_base oppositeOps
  simp only [Bool.and_eq_true, decide_eq_true_eq, bne_iff_ne, Bool.or_eq_true, ne_eq]
  tauto

theorem oppositeOps_symm (x y : MIGInput) (h : oppositeOps x y) : oppositeOps y x :=
  ⟨h.1.symm, h.2.1.symm, fun e => h.2.2.1 e.symm, by rw [← h.1]; exact h.2.2.2⟩

/-- An operand has only one complement. -/
theorem oppositeOps_unique (x y z : MIGInput) (h1 : oppositeOps x y) (h2 : oppositeOps x z) :
    y = z := by
  obtain ⟨xk, xi, xv⟩ := x
  obtain ⟨yk, yi, yv⟩ := y
  obtain ⟨zk, zi, zv⟩ := z
  obtain ⟨a1, a2, a3, _⟩ := h1
  obtain ⟨b1, b2, b3, _⟩ := h2
  simp only [] at a1 a2 a3 b1 b2 b3
  subst a1 a2 b1 b2
  have : yv = zv := by
    cases xv <;> cases yv <;> cases zv <;> simp_all
  rw [this]

/-- C23: in `make_maj`, if two of the three operands are identical (same kind, index and
polarity) the result is that operand, whatever the third operand is (so this rule has
priority over the complement rule); otherwise, if two of the operands, in any positions,
are the same primary input or gate with opposite polarity, the result is the third
operand.  In both cases the builder state returned is the one passed in: no gate is
appended and the structural cache is unchanged. -/
theorem C23_make_maj_simplifies (b : MIGBuilder) (x y z : MIGInput) :
    ((x = y ∨ x = z) → b.make_maj x y z = (x, b)) ∧
    (y = z → b.make_maj x y z = (y, b)) ∧
    (x ≠ y → x ≠ z → y ≠ z →
      ∀ p q t : MIGInput, [p, q, t].Perm [x, y, z] → oppositeOps p q →
        b.make_maj x y z = (t, b)) := by
  refine ⟨?_, ?_, ?_⟩
  · intro h
    have : (equal_inputs x y || equal_inputs x z) = true := by
      rcases h with h | h
      · rw [(equal_inputs_iff x y).mpr h]; rfl
      · rw [(equal_inputs_iff x z).mpr h]; simp
    unfold MIGBuilder.make_maj
    rw [if_pos this]
  · intro h
    by_cases hxy : x = y
    · have : (equal_inputs x y || equal_inputs x z) = true := by
        rw [(equal_inputs_iff x y).mpr hxy]; rfl
      unfold MIGBuilder.make_maj
      rw [if_pos this, hxy]
    · have hxz : x ≠ z := fun e => hxy (e.trans h.symm)
      have e1 : equal_inputs x y = false := by
        rw [← Bool.not_eq_true, equal_inputs_iff]; exact hxy
      have e2 : equal_inputs x z = false := by
        rw [← Bool.not_eq_true, equal_inputs_iff]; exact hxz
      unfold MIGBuilder.make_maj
      rw [e1, e2, if_neg (by decide), if_pos ((equal_inputs_iff y z).mpr h)]
  · intro hxy hxz hyz p q t hperm hopp
    have e1 : equal_inputs x y = false := by
      rw [← Bool.not_eq_true, equal_inputs_iff]; exact hxy
    have e2 : equal_inputs x z = false := by
      rw [← Bool.not_eq_true, equal_inputs_iff]; exact hxz
    have e3 : equal_inputs y z = false := by
      rw [← Bool.not_eq_true, equal_inputs_iff]; exact hyz
    have nxy_xz : oppositeOps x y → ¬ oppositeOps x z :=
      fun h1 h2 => hyz (oppositeOps_unique x y z h1 h2)
    have nxy_yz : oppositeOps x y → ¬ oppositeOps y z :=
      fun h1 h2 => hxz (oppositeOps_unique y x z (oppositeOps_symm x y h1) h2)
    have nxz_yz : oppositeOps x z → ¬ oppositeOps y z :=
      fun h1 h2 => hxy (oppositeOps_unique z x y (oppositeOps_symm x z h1)
        (oppositeOps_symm y z h2))
    have caseXY : oppositeOps x y → b.make_maj x y z = (z, b) := by
      intro h
      unfold MIGBuilder.make_maj
      rw [e1, e2, e3, if_neg (by decide), if_neg (by decide),
        if_pos ((complementary_iff x y).mpr h)]
    have caseXZ : oppositeOps x z → b.make_maj x y z = (y, b) := by
      intro h
      have n1 : ¬ complementary x y = true :=
        fun c => nxy_xz ((complementary_iff x y).mp c) h
      unfold MIGBuilder.make_maj
      rw [e1, e2, e3, if_neg (by decide), if_neg (by decide), if_neg n1,
        if_pos ((complementary_iff x z).mpr h)]
    have caseYZ : oppositeOps y z → b.make_maj x y z = (x, b) := by
      intro h
      have n1 : ¬ complementary x y = true :=
        fun c => nxy_yz ((complementary_iff x y).mp c) h
      have n2 : ¬ complementary x z = true :=
        fun c => nxz_yz ((complementary_iff x z).mp c) h
      unfold MIGBuilder.make_maj
      rw [e1, e2, e3, if_neg (by decide), if_neg (by decide), if_neg n1, if_neg n2,
        if_pos ((complementary_iff y z).mpr h)]
    rcases perm_triple_cases x y z p q t hperm with
      ⟨h1, h2, h3⟩ | ⟨h1, h2, h3⟩ | ⟨h1, h2, h3⟩ | ⟨h1, h2, h3⟩ | ⟨h1, h2, h3⟩ | ⟨h1, h2, h3⟩ <;>
      subst h1 <;> subst h2 <;> subst h3
    · exact caseXY hopp
    · exact caseXZ hopp
    · exact caseXY (oppositeOps_symm _ _ hopp)
    · exact caseYZ hopp
    · exact caseXZ (oppositeOps_symm _ _ hopp)
    · exact caseYZ (oppositeOps_symm _ _ hopp)

theorem C23_witness :
    (MIG.PI 0 false = MIG.PI 0 false ∨ MIG.PI 0 false = MIG.PI 0 true) ∧
    (MIGBuilder.new 2).make_maj (MIG.PI 0 false) (MIG.PI 0 false) (MIG.PI 0 true) =
      (MIG.PI 0 false, MIGBuilder.new 2) ∧
    (MIG.PI 1 false ≠ MIG.PI 0 true ∧ MIG.PI 1 false ≠ MIG.PI 0 false ∧
      MIG.PI 0 true ≠ MIG.PI 0 false) ∧
    [MIG.PI 0 false, MIG.PI 0 true, MIG.PI 1 false].Perm
      [MIG.PI 1 false, MIG.PI 0 true, MIG.PI 0 false] ∧
    oppositeOps (MIG.PI 0 false) (MIG.PI 0 true) ∧
    (MIGBuilder.new 2).make_maj (MIG.PI 1 false) (MIG.PI 0 true) (MIG.PI 0 false) =
      (MIG.PI 1 false, MIGBuilder.new 2) :=
  ⟨Or.inl rfl,
    (C23_make_maj_simplifies (MIGBuilder.new 2) (MIG.PI 0 false) (MIG.PI 0 false)
      (MIG.PI 0 true)).1 (Or.inl rfl),
    ⟨by decide, by decide, by decide⟩, by decide,
    ⟨rfl, rfl, by decide, Or.inl rfl⟩,
    (C23_make_maj_simplifies (MIGBuilder.new 2) (MIG.PI 1 false) (MIG.PI 0 true)
      (MIG.PI 0 false)).2.2 (by decide) (by decide) (by decide)
      (MIG.PI 0 false) (MIG.PI 0 true) (MIG.PI 1 false) (by decide)
      ⟨rfl, rfl, by decide, Or.inl rfl⟩⟩

/-! ## Conjunction, disjunction and output materialization -/

/-- A call of `make_maj` that passes the simplification rules returns a reference to a
gate whose operands are the requested ones, up to their order. -/
theorem make_maj_gate (b : MIGBuilder) (x y z : MIGInput) (hb : BuilderInv b)
    (hx : b.valid x) (hy : b.valid y) (hz : b.valid z)
    (he1 : equal_inputs x y = false) (he2 : equal_inputs x z = false)
    (he3 : equal_inputs y z = false) (hc1 : complementary x y = false)
    (hc2 : complementary x z = false) (hc3 : complementary y z = false) :
    ∃ (id : Nat) (g : MIGGate), (b.make_maj x y z).1 = MIG.NODE id false ∧
      (b.make_maj x y z).2.mig.gates[id]? = some g ∧ [g.a, g.b, g.c].Perm [x, y, z] := by
  obtain ⟨id, h1, h2⟩ := make_maj_records b x y z he1 he2 he3 hc1 hc2 hc3
  obtain ⟨⟨hinv, _, _⟩, _⟩ := make_maj_spec b x y z hb hx hy hz
  obtain ⟨g, hg, hkey⟩ := hinv.2.2 _ id h2
  exact ⟨id, g, h1, hg, (maj_key_perm x y z g.a g.b g.c hkey).symm⟩

/-- C27: for operands `a`, `b` usable in a builder whose network satisfies the DAG
invariant (constants carrying no inversion), the operand returned by `and2(a, b)` has,
under every assignment of bits, the conjunction of the values of `a` and `b`, and the
operand returned by `or2(a, b)` their disjunction.  When no shortcut applies (no operand
is a constant, the operands are neither identical nor complementary) the call is
`make_maj(a, b, 0)` respectively `make_maj(a, b, 1)` and returns a reference to a gate
with the operands `a`, `b` and the constant; on bits `maj(u, v, 0)` is the conjunction
and `maj(u, v, 1)` the disjunction. -/
theorem C27_and2_or2_values (b : MIGBuilder) (x y : MIGInput) (hb : BuilderInv b)
    (hx : b.valid x) (hy : b.valid y) :
    (∀ inputs : List Int, (∀ v ∈ inputs, isBit v) →
      (b.and2 x y).2.val inputs (b.and2 x y).1 = andBit (b.val inputs x) (b.val inputs y) ∧
      (b.or2 x y).2.val inputs (b.or2 x y).1 = orBit (b.val inputs x) (b.val inputs y)) ∧
    ((x.kind = Kind.PI ∨ x.kind = Kind.NODE) → (y.kind = Kind.PI ∨ y.kind = Kind.NODE) →
      x ≠ y → ¬ oppositeOps x y →
      b.and2 x y = b.make_maj x y MIGBuilder.c0 ∧
      b.or2 x y = b.make_maj x y MIGBuilder.c1 ∧
      (∃ (id : Nat) (g : MIGGate), (b.and2 x y).1 = MIG.NODE id false ∧
        (b.and2 x y).2.mig.gates[id]? = some g ∧
        [g.a, g.b, g.c].Perm [x, y, MIGBuilder.c0]) ∧
      (∃ (id : Nat) (g : MIGGate), (b.or2 x y).1 = MIG.NODE id false ∧
        (b.or2 x y).2.mig.gates[id]? = some g ∧
        [g.a, g.b, g.c].Perm [x, y, MIGBuilder.c1])) ∧
    (∀ u v : Int, isBit u → isBit v →
      MIGGate.maj u v 0 = andBit u v ∧ MIGGate.maj u v 1 = orBit u v) := by
  refine ⟨fun inputs hi => ⟨(and2_spec b x y hb hx hy).2 inputs hi,
    (or2_spec b x y hb hx hy).2 inputs hi⟩, ?_,
    fun u v hu hv => ⟨maj_zero_and u v hu hv, maj_one_or u v hu hv⟩⟩
  intro hxk hyk hne hno
  have x0 : x.kind ≠ Kind.CONST0 := by rcases hxk with h | h <;> rw [h] <;> decide
  have x1 : x.kind ≠ Kind.CONST1 := by rcases hxk with h | h <;> rw [h] <;> decide
  have y0 : y.kind ≠ Kind.CONST0 := by rcases hyk with h | h <;> rw [h] <;> decide
  have y1 : y.kind ≠ Kind.CONST1 := by rcases hyk with h | h <;> rw [h] <;> decide
  have he : equal_inputs x y = false := by
    rw [← Bool.not_eq_true, equal_inputs_iff]; exact hne
  have hc : complementary x y = false := by
    rw [← Bool.not_eq_true, complementary_iff]; exact hno
  have hand : b.and2 x y = b.make_maj x y MIGBuilder.c0 := by
    unfold MIGBuilder.and2
    rw [if_neg (by simp [x0, y0]), if_neg x1, if_neg y1, if_neg (by rw [he]; decide),
      if_neg (by rw [hc]; decide)]
  have hor : b.or2 x y = b.make_maj x y MIGBuilder.c1 := by
    unfold MIGBuilder.or2
    rw [if_neg (by simp [x1, y1]), if_neg x0, if_neg y0, if_neg (by rw [he]; decide),
      if_neg (by rw [hc]; decide)]
  refine ⟨hand, hor, ?_, ?_⟩
  · rw [hand]
    exact make_maj_gate b x y MIGBuilder.c0 hb hx hy (valid_c0 b) he
      (equal_inputs_kind_ne _ _ x0) (equal_inputs_kind_ne _ _ y0) hc
      (complementary_kind_ne _ _ x0) (complementary_kind_ne _ _ y0)
  · rw [hor]
    exact make_maj_gate b x y MIGBuilder.c1 hb hx hy (valid_c1 b) he
      (equal_inputs_kind_ne _ _ x1) (equal_inputs_kind_ne _ _ y1) hc
      (complementary_kind_ne _ _ x1) (complementary_kind_ne _ _ y1)

theorem valid_PI_new (n k : Nat) (inv : Bool) (hk : k < n) :
    (MIGBuilder.new n).valid (MIG.PI k inv) :=
  ⟨⟨fun _ => hk, fun h => by simp [MIG.PI] at h⟩, fun h => by simp [MIG.PI] at h⟩

theorem C27_witness :
    BuilderInv (MIGBuilder.new 2) ∧ (MIGBuilder.new 2).valid (MIG.PI 0 false) ∧
    (MIGBuilder.new 2).valid (MIG.PI 1 true) ∧
    ((∀ inputs : List Int, (∀ v ∈ inputs, isBit v) →
      ((MIGBuilder.new 2).and2 (MIG.PI 0 false) (MIG.PI 1 true)).2.val inputs
          ((MIGBuilder.new 2).and2 (MIG.PI 0 false) (MIG.PI 1 true)).1 =
        andBit ((MIGBuilder.new 2).val inputs (MIG.PI 0 false))
          ((MIGBuilder.new 2).val inputs (MIG.PI 1 true)) ∧
      ((MIGBuilder.new 2).or2 (MIG.PI 0 false) (MIG.PI 1 true)).2.val inputs
          ((MIGBuilder.new 2).or2 (MIG.PI 0 false) (MIG.PI 1 true)).1 =
        orBit ((MIGBuilder.new 2).val inputs (MIG.PI 0 false))
          ((MIGBuilder.new 2).val inputs (MIG.PI 1 true))) ∧
    (((MIG.PI 0 false).kind = Kind.PI ∨ (MIG.PI 0 false).kind = Kind.NODE) →
      ((MIG.PI 1 true).kind = Kind.PI ∨ (MIG.PI 1 true).kind = Kind.NODE) →
      MIG.PI 0 false ≠ MIG.PI 1 true → ¬ oppositeOps (MIG.PI 0 false) (MIG.PI 1 true) →
      (MIGBuilder.new 2).and2 (MIG.PI 0 false) (MIG.PI 1 true) =
        (MIGBuilder.new 2).make_maj (MIG.PI 0 false) (MIG.PI 1 true) MIGBuilder.c0 ∧
      (MIGBuilder.new 2).or2 (MIG.PI 0 false) (MIG.PI 1 true) =
        (MIGBuilder.new 2).make_maj (MIG.PI 0 false) (MIG.PI 1 true) MIGBuilder.c1 ∧
      (∃ (id : Nat) (g : MIGGate),
        ((MIGBuilder.new 2).and2 (MIG.PI 0 false) (MIG.PI 1 true)).1 = MIG.NODE id false ∧
        ((MIGBuilder.new 2).and2 (MIG.PI 0 false) (MIG.PI 1 true)).2.mig.gates[id]? = some g ∧
        [g.a, g.b, g.c].Perm [MIG.PI 0 false, MIG.PI 1 true, MIGBuilder.c0]) ∧
      (∃ (id : Nat) (g : MIGGate),
        ((MIGBuilder.new 2).or2 (MIG.PI 0 false) (MIG.PI 1 true)).1 = MIG.NODE id false ∧
        ((MIGBuilder.new 2).or2 (MIG.PI 0 false) (MIG.PI 1 true)).2.mig.gates[id]? = some g ∧
        [g.a, g.b, g.c].Perm [MIG.PI 0 false, MIG.PI 1 true, MIGBuilder.c1])) ∧
    (∀ u v : Int, isBit u → isBit v →
      MIGGate.maj u v 0 = andBit u v ∧ MIGGate.maj u v 1 = orBit u v)) :=
  ⟨BuilderInv_new 2, valid_PI_new 2 0 false (by decide), valid_PI_new 2 1 true (by decide),
    C27_and2_or2_values (MIGBuilder.new 2) (MIG.PI 0 false) (MIG.PI 1 true) (BuilderInv_new 2)
      (valid_PI_new 2 0 false (by decide)) (valid_PI_new 2 1 true (by decide))⟩

/-- C25 (output materialization): for an operand `r` usable in a builder whose network
satisfies the DAG invariant (the index of `r` lies within the network, and a constant
carries no inversion, as `C0()` and `C1()` create it), `materialize_as_gate(r)` returns the id of a gate of the
resulting network whose value equals the value of `r` under every assignment of bits, and
the resulting network satisfies the DAG invariant again.  For a non-inverted gate
reference it returns the id of `r` and leaves the builder unchanged; otherwise it appends
exactly one gate and returns its id: `MAJ(0,0,0)` for the constant 0, `MAJ(1,1,1)` for the
constant 1, and `MAJ(r, 0, 1)` for a literal or an inverted gate reference.  The tables
`01` and `10` give `G0 = MAJ(x0,0,1)` and `G0 = MAJ(x0',0,1)`. -/
theorem C25_output_materialization (b : MIGBuilder) (r : MIGInput) (hb : BuilderInv b)
    (hr : b.valid r) :
    ((b.materialize_as_gate r).1 < (b.materialize_as_gate r).2.mig.gates.length ∧
      DagInv (b.materialize_as_gate r).2.n_vars (b.materialize_as_gate r).2.mig.gates ∧
      ∀ inputs : List Int, (∀ v ∈ inputs, isBit v) →
        (gateVals inputs (b.materialize_as_gate r).2.mig.gates).getD
          (b.materialize_as_gate r).1 0 = b.val inputs r) ∧
    (r.kind = Kind.NODE ∧ r.inverted = false → b.materialize_as_gate r = (r.index, b)) ∧
    (r.kind = Kind.CONST0 →
      (b.materialize_as_gate r).1 = b.mig.gates.length ∧
      (b.materialize_as_gate r).2.mig.gates = b.mig.gates ++
        [{ id := b.mig.gates.length, a := MIG.C0, b := MIG.C0, c := MIG.C0 }]) ∧
    (r.kind = Kind.CONST1 →
      (b.materialize_as_gate r).1 = b.mig.gates.length ∧
      (b.materialize_as_gate r).2.mig.gates = b.mig.gates ++
        [{ id := b.mig.gates.length, a := MIG.C1, b := MIG.C1, c := MIG.C1 }]) ∧
    ((r.kind = Kind.PI ∨ (r.kind = Kind.NODE ∧ r.inverted = true)) →
      (b.materialize_as_gate r).1 = b.mig.gates.length ∧
      (b.materialize_as_gate r).2.mig.gates = b.mig.gates ++
        [{ id := b.mig.gates.length, a := r, b := MIG.C0, c := MIG.C1 }]) ∧
    synthesize "01".toList =
      Except.ok { n_vars := 1,
                  gates := [{ id := 0, a := MIG.PI 0 false, b := MIG.C0, c := MIG.C1 }],
                  output_gate := 0, output_inverted := false } ∧
    synthesize "10".toList =
      Except.ok { n_vars := 1,
                  gates := [{ id := 0, a := MIG.PI 0 true, b := MIG.C0, c := MIG.C1 }],
                  output_gate := 0, output_inverted := false } := by
  obtain ⟨m1, _, m3, m4⟩ := materialize_as_gate_spec b r hb hr
  refine ⟨⟨m3, m1.2.1, m4⟩, ?_, ?_, ?_, ?_, by decide, by decide⟩
  · intro h
    unfold MIGBuilder.materialize_as_gate
    rw [if_pos h]
  · intro h
    unfold MIGBuilder.materialize_as_gate
    rw [if_neg (by rw [h]; simp), if_pos h]
    exact ⟨rfl, rfl⟩
  · intro h
    unfold MIGBuilder.materialize_as_gate
    rw [if_neg (by rw [h]; simp), if_neg (by rw [h]; simp), if_pos h]
    exact ⟨rfl, rfl⟩
  · intro h
    unfold MIGBuilder.materialize_as_gate
    have h1 : ¬ (r.kind = Kind.NODE ∧ r.inverted = false) := by
      rcases h with h | ⟨_, h⟩
      · rw [h]; simp
      · rw [h]; simp
    have h2 : ¬ r.kind = Kind.CONST0 := by
      rcases h with h | ⟨h, _⟩ <;> rw [h] <;> simp
    have h3 : ¬ r.kind = Kind.CONST1 := by
      rcases h with h | ⟨h, _⟩ <;> rw [h] <;> simp
    rw [if_neg h1, if_neg h2, if_neg h3]
    exact ⟨rfl, rfl⟩

theorem C25_witness :
    BuilderInv (MIGBuilder.new 1) ∧ (MIGBuilder.new 1).valid (MIG.PI 0 true) ∧
    ((MIGBuilder.new 1).materialize_as_gate (MIG.PI 0 true)).1 <
      ((MIGBuilder.new 1).materialize_as_gate (MIG.PI 0 true)).2.mig.gates.length ∧
    ((MIGBuilder.new 1).materialize_as_gate (MIG.PI 0 true)).2.mig.gates =
      [{ id := 0, a := MIG.PI 0 true, b := MIG.C0, c := MIG.C1 }] ∧
    (∀ inputs : List Int, (∀ v ∈ inputs, isBit v) →
      (gateVals inputs ((MIGBuilder.new 1).materialize_as_gate (MIG.PI 0 true)).2.mig.gates).getD
        ((MIGBuilder.new 1).materialize_as_gate (MIG.PI 0 true)).1 0 =
          (MIGBuilder.new 1).val inputs (MIG.PI 0 true)) :=
  ⟨BuilderInv_new 1, valid_PI_new 1 0 true (by decide),
    (C25_output_materialization (MIGBuilder.new 1) (MIG.PI 0 true) (BuilderInv_new 1)
      (valid_PI_new 1 0 true (by decide))).1.1,
    by decide,
    (C25_output_materialization (MIGBuilder.new 1) (MIG.PI 0 true) (BuilderInv_new 1)
      (valid_PI_new 1 0 true (by decide))).1.2.2⟩

/-! ## The transforms are invertible -/

theorem applyNegationPattern_eq (n : Nat) (tt : List Char) (neg : List Int) (o : Int)
    (hlen : tt.length = 2 ^ n) :
    NPNClassifier.applyNegationPattern tt neg o =
      Except.ok (npnTransform n (fun j => j) (fun j => decide (neg.getD j 0 ≠ 0))
        (decide (o ≠ 0)) tt) := by
  unfold NPNClassifier.applyNegationPattern
  rw [getNumVars_pow tt n hlen]
  simp only []
  rw [applyNegationPatternRows_eq]
  rfl

theorem applyPermutation_eq (n : Nat) (tt : List Char) (perm : List Nat)
    (hlen : tt.length = 2 ^ n) (hp : ∀ j, j < n → perm.getD j 0 < n) :
    NPNClassifier.applyPermutation tt perm =
      Except.ok ((List.range (2 ^ n)).map (fun i =>
        tt.getD (npnIndex n (fun j => perm.getD j 0) (fun _ => false) i) '0')) := by
  unfold NPNClassifier.applyPermutation
  rw [getNumVars_pow tt n hlen]
  simp only []
  rw [applyPermutationRows_eq n tt perm hp]

/-- C30: the transforms are invertible.  For a table over `'0'`/`'1'` of length `2^n`, a
negation vector `neg` of length `n` and a flag `o`, applying `applyNegationPattern` with
`neg` and `o` twice returns the table; for a permutation `perm` of `0 .. n-1` and its
inverse `inv` (a vector of length `n` with `inv[perm[j]] = j`), `applyPermutation` with
`perm` followed by `applyPermutation` with `inv` returns the table. -/
theorem C30_transforms_invertible (tt : List Char) (n : Nat) (neg : List Int) (o : Int)
    (perm inv : List Nat) (hlen : tt.length = 2 ^ n) (hb : isBinary tt)
    (hneg : neg.length = n) (hperm : perm.Perm (List.range n)) (hinv : inv.length = n)
    (hpi : ∀ (j : Nat) (hj : j < perm.length), inv[perm.get ⟨j, hj⟩]? = some j) :
    (∃ t1, NPNClassifier.applyNegationPattern tt neg o = Except.ok t1 ∧
      NPNClassifier.applyNegationPattern t1 neg o = Except.ok tt) ∧
    (∃ t2, NPNClassifier.applyPermutation tt perm = Except.ok t2 ∧
      NPNClassifier.applyPermutation t2 inv = Except.ok tt) := by
  have _ := hneg
  constructor
  · refine ⟨_, applyNegationPattern_eq n tt neg o hlen, ?_⟩
    rw [applyNegationPattern_eq n _ neg o (npnTransform_length n _ _ _ tt),
      npnTransform_comp n _ _ _ _ _ _ tt hb (fun j hj => hj)]
    apply congrArg
    have ho : xor (decide (o ≠ 0)) (decide (o ≠ 0)) = false := by simp
    rw [ho]
    exact npnTransform_id n _ _ tt hlen hb (fun _ _ => rfl) (fun _ _ => by simp)
  · obtain ⟨hplen, _, _⟩ := perm_range_facts n perm hperm
    have hpp := perm_IsPermPair n perm hperm
    have hp : ∀ j, j < n → perm.getD j 0 < n := fun j hj => (hpp.1 j hj).1
    have hpi' : ∀ j, j < n → inv.getD (perm.getD j 0) 0 = j := by
      intro j hj
      have hj' : j < perm.length := by omega
      have := hpi j hj'
      rw [List.getD_eq_getElem?_getD, List.getD_eq_getElem?_getD,
        List.getElem?_eq_getElem hj']
      simp only [Option.getD_some]
      rw [List.get_eq_getElem] at this
      rw [this]
      rfl
    have hq : ∀ k, k < n → inv.getD k 0 < n := by
      intro k hk
      have h1 := hpi' (perm.indexOf k) (hpp.2 k hk).1
      have h2 : perm.getD (perm.indexOf k) 0 = k := (hpp.2 k hk).2
      rw [h2] at h1
      rw [h1]
      exact (hpp.2 k hk).1
    have hlen2 : ((List.range (2 ^ n)).map (fun i =>
        tt.getD (npnIndex n (fun j => perm.getD j 0) (fun _ => false) i) '0')).length =
        2 ^ n := by simp
    refine ⟨_, applyPermutation_eq n tt perm hlen hp, ?_⟩
    rw [applyPermutation_eq n _ inv hlen2 hq]
    apply congrArg
    have h2 : (List.range (2 ^ n)).map (fun k => tt.getD k '0') = tt := by
      rw [← hlen]; exact map_getD_range tt
    nth_rewrite 2 [← h2]
    apply List.map_congr_left
    intro i hi
    rw [getD_map_range_char _ _ _ (npnIndex_lt n _ _ i), npnIndex_comp n _ _ _ _ i hp]
    apply congrArg (fun k => tt.getD k '0')
    unfold npnIndex
    rw [mkIndex_congr n _ (fun j => i.testBit (n - 1 - j)) (fun j hj => by
      simp only [hpi' j hj]; simp)]
    exact mkIndex_self n i (List.mem_range.mp hi)

theorem C30_witness :
    ("00010111".toList.length = 2 ^ 3) ∧ isBinary "00010111".toList ∧
    (([1, 0, 1] : List Int).length = 3) ∧ ([2, 0, 1] : List Nat).Perm (List.range 3) ∧
    (([1, 2, 0] : List Nat).length = 3) ∧
    (∀ (j : Nat) (hj : j < ([2, 0, 1] : List Nat).length),
      ([1, 2, 0] : List Nat)[([2, 0, 1] : List Nat).get ⟨j, hj⟩]? = some j) ∧
    ((∃ t1, NPNClassifier.applyNegationPattern "00010111".toList [1, 0, 1] 1 = Except.ok t1 ∧
      NPNClassifier.applyNegationPattern t1 [1, 0, 1] 1 = Except.ok "00010111".toList) ∧
    (∃ t2, NPNClassifier.applyPermutation "00010111".toList [2, 0, 1] = Except.ok t2 ∧
      NPNClassifier.applyPermutation t2 [1, 2, 0] = Except.ok "00010111".toList)) :=
  ⟨by decide, by unfold isBinary; decide, by decide, by decide, by decide, by decide,
    C30_transforms_invertible "00010111".toList 3 [1, 0, 1] 1 [2, 0, 1] [1, 2, 0]
      (by decide) (by unfold isBinary; decide) (by decide) (by decide) (by decide)
      (by decide)⟩

/-! ## The memoized evaluator against the plain recursive definition -/

theorem plainEvalInput_leaf (n : Nat) (gates : List MIGGate) (inputs vals : List Int)
    (hin : inputs.length = n) (fuel : Nat) (x : MIGInput)
    (hwf : x.wf n gates.length) (hk : x.kind ≠ Kind.NODE) :
    plainEvalInput gates inputs fuel x = some (opVal inputs vals x) := by
  cases hkind : x.kind with
  | PI =>
    have hlt : x.index < inputs.length := by rw [hin]; exact hwf.1 hkind
    cases fuel <;>
      simp [plainEvalInput, opVal, baseVal, hkind, List.getD_eq_getElem?_getD,
        List.getElem?_eq_getElem hlt]
  | CONST0 => cases fuel <;> simp [plainEvalInput, opVal, baseVal, hkind]
  | CONST1 => cases fuel <;> simp [plainEvalInput, opVal, baseVal, hkind]
  | NODE => exact absurd hkind hk

theorem plainEvalInput_NODE (gates : List MIGGate) (inputs : List Int) (fuel : Nat)
    (x : MIGInput) (g : MIGGate) (hk : x.kind = Kind.NODE) (hg : gates[x.index]? = some g) :
    plainEvalInput gates inputs (fuel + 1) x =
      (plainEvalInput gates inputs fuel g.a).bind (fun av =>
        (plainEvalInput gates inputs fuel g.b).bind (fun bv =>
          (plainEvalInput gates inputs fuel g.c).bind (fun cv =>
            some (MIG.applyInv x.inverted (MIGGate.maj av bv cv))))) := by
  rw [plainEvalInput]
  simp only [hk, hg]

/-- Under the DAG invariant the plain recursion returns the value of the operand over the
gate values, whenever the fuel exceeds the index of a referenced gate. -/
theorem plainEvalInput_spec (n : Nat) (gates : List MIGGate) (inputs : List Int)
    (hdag : DagInv n gates) (hin : inputs.length = n) :
    ∀ (fuel : Nat) (x : MIGInput),
      x.wf n gates.length → (x.kind = Kind.NODE → x.index < fuel) →
      plainEvalInput gates inputs fuel x = some (opVal inputs (gateVals inputs gates) x) := by
  intro fuel
  induction fuel with
  | zero =>
    intro x hwf hfuel
    have hk : x.kind ≠ Kind.NODE := fun hk => absurd (hfuel hk) (Nat.not_lt_zero _)
    exact plainEvalInput_leaf n gates inputs _ hin 0 x hwf hk
  | succ f ih =>
    intro x hwf hfuel
    by_cases hkind : x.kind = Kind.NODE
    · have hidx : x.index < gates.length := hwf.2 hkind
      have hg : gates[x.index]? = some (gates[x.index]) := List.getElem?_eq_getElem hidx
      obtain ⟨_, ha, hb, hc⟩ := hdag x.index _ hg
      have hf : x.index < f + 1 := hfuel hkind
      have wa := wf_mono n _ gates.length _ ha (le_of_lt hidx)
      have wb := wf_mono n _ gates.length _ hb (le_of_lt hidx)
      have wc := wf_mono n _ gates.length _ hc (le_of_lt hidx)
      rw [plainEvalInput_NODE gates inputs f x _ hkind hg]
      rw [ih _ wa (fun hk => lt_of_lt_of_le (ha.2 hk) (Nat.le_of_lt_succ hf)),
        ih _ wb (fun hk => lt_of_lt_of_le (hb.2 hk) (Nat.le_of_lt_succ hf)),
        ih _ wc (fun hk => lt_of_lt_of_le (hc.2 hk) (Nat.le_of_lt_succ hf))]
      simp only [Option.some_bind]
      rw [← gateVals_getD inputs n gates hdag x.index _ hg]
      simp only [opVal, baseVal, hkind]
    · exact plainEvalInput_leaf n gates inputs _ hin (f + 1) x hwf hkind

theorem plainEvaluate_spec (m : MIG) (inputs : List Int) (hdag : DagInv m.n_vars m.gates)
    (hin : inputs.length = m.n_vars) (hout : m.output_gate < m.gates.length) :
    plainEvaluate m inputs =
      some (if m.output_inverted
        then Int.xor ((gateVals inputs m.gates).getD m.output_gate 0) 1
        else (gateVals inputs m.gates).getD m.output_gate 0) := by
  unfold plainEvaluate
  rw [plainEvalInput_spec m.n_vars m.gates inputs hdag hin (m.gates.length + 1)
    (MIG.NODE m.output_gate false) ⟨fun hk => by simp [MIG.NODE] at hk, fun _ => hout⟩
    (fun _ => Nat.lt_succ_of_lt hout)]
  simp [opVal, baseVal, MIG.NODE, MIG.applyInv]

theorem isBit_xor_one (v : Int) (h : isBit v) : isBit (Int.xor v 1) := by
  rcases h with h | h <;> subst h
  · right; decide
  · left; decide

/-- C26: for every network satisfying the DAG invariant (the gate at position `k` has id
`k` and references only gates before `k`, primary-input indices lie within the
assignment, `output_gate < size`) and every input assignment, the memoized `evaluate`
returns a value, the same as the plain recursive definition without a memo; the value is a
bit when the assignment consists of bits.  `evaluate` builds its memo itself, so the
result is a function of the network and the assignment only. -/
theorem C26_evaluate_refines_plain (m : MIG) (inputs : List Int)
    (hdag : DagInv inputs.length m.gates) (hout : m.output_gate < m.size) :
    ∃ v, m.evaluate inputs = some v ∧ plainEvaluate m inputs = some v ∧
      ((∀ u ∈ inputs, isBit u) → isBit v) := by
  have h1 := evaluate_spec { m with n_vars := inputs.length } inputs hdag rfl hout
  have h2 := plainEvaluate_spec { m with n_vars := inputs.length } inputs hdag rfl hout
  refine ⟨_, h1, h2, ?_⟩
  intro _
  have hb := getD_isBit _ (gateVals_isBit inputs m.gates) m.output_gate
  simp only []
  split
  · exact isBit_xor_one _ hb
  · exact hb

theorem C26_witness :
    DagInv ([1, 0] : List Int).length literalNetwork.gates ∧
    literalNetwork.output_gate < literalNetwork.size ∧
    ∃ v, literalNetwork.evaluate [1, 0] = some v ∧ plainEvaluate literalNetwork [1, 0] = some v ∧
      ((∀ u ∈ ([1, 0] : List Int), isBit u) → isBit v) := by
  have hdag : DagInv ([1, 0] : List Int).length literalNetwork.gates := by
    intro k g hk
    cases k with
    | zero =>
      simp only [literalNetwork, List.getElem?_cons_zero, Option.some.injEq] at hk
      subst hk
      simp [MIGInput.wf, MIG.C0, MIG.C1, MIG.PI]
    | succ k => simp [literalNetwork] at hk
  exact ⟨hdag, by decide, C26_evaluate_refines_plain literalNetwork [1, 0] hdag (by decide)⟩

/-! ## What `getTruthTable` reads back from a synthesized network -/

theorem bitReverse_lt (n i : Nat) : bitReverse n i < 2 ^ n := mkIndex_lt n _

theorem bitReverse_testBit (n i j : Nat) (hj : j < n) :
    (bitReverse n i).testBit (n - 1 - j) = i.testBit j :=
  mkIndex_testBit n _ j hj

/-- The LSB-first input vector of row `i` is the MSB-first assignment of the reversed
row. -/
theorem rowInputs_eq_msb (n i : Nat) :
    MIG.rowInputs n i = msbAssignment n (bitReverse n i) := by
  unfold MIG.rowInputs msbAssignment
  apply List.map_congr_left
  intro j hj
  rw [shift_and_one, shift_and_one, bitReverse_testBit n i j (List.mem_range.mp hj)]

theorem getTruthTableRows_map (m : MIG) (g : Nat → Int) :
    ∀ rows : List Nat, (∀ i ∈ rows, m.evaluate (MIG.rowInputs m.n_vars i) = some (g i)) →
      m.getTruthTableRows rows = some (rows.map (fun i => if g i ≠ 0 then '1' else '0')) := by
  intro rows
  induction rows with
  | nil => intro _; rfl
  | cons i rest ih =>
    intro h
    rw [MIG.getTruthTableRows, h i (List.mem_cons_self _ _)]
    simp only []
    rw [ih (fun k hk => h k (List.mem_cons_of_mem _ hk))]
    rfl

theorem bitReverse_small (n i : Nat) (hn : n ≤ 1) (hi : i < 2 ^ n) : bitReverse n i = i := by
  interval_cases n
  · have : i = 0 := by omega
    subst this
    rfl
  · have : i = 0 ∨ i = 1 := by omega
    rcases this with h | h <;> subst h <;> rfl

/-- The table read back by `getTruthTable` from the network synthesized for a binary
table of length `2^n < 2^31`. -/
theorem synthesize_getTruthTable (tt : List Char) (n : Nat) (hlen : tt.length = 2 ^ n)
    (hn : n < 31) (hb : isBinary tt) :
    ∃ m, synthesize tt = Except.ok m ∧
      m.getTruthTable =
        some ((List.range (2 ^ n)).map (fun i => tt.getD (bitReverse n i) '0')) := by
  have hsmall : tt.length < 2 ^ 31 := by
    rw [hlen]; exact Nat.pow_lt_pow_right (by norm_num) hn
  obtain ⟨m, hm, hnv, _⟩ := synthesize_val tt n 0 hlen hsmall (by positivity)
  obtain ⟨hdag, hout, hinv⟩ := synthesize_ok tt m hm
  refine ⟨m, hm, ?_⟩
  have hev : ∀ i ∈ List.range (2 ^ n), m.evaluate (MIG.rowInputs m.n_vars i) =
      some ((gateVals (msbAssignment n (bitReverse n i)) m.gates).getD m.output_gate 0) := by
    intro i _
    rw [hnv, rowInputs_eq_msb]
    have he := evaluate_spec m (msbAssignment n (bitReverse n i)) hdag
      (by rw [msbAssignment_length, hnv]) hout
    rw [hinv] at he
    simpa using he
  unfold MIG.getTruthTable
  rw [hnv, shl_one_int_small n hn, Int.toNat_natCast, getTruthTableRows_map m _ _ hev]
  apply congrArg
  apply List.map_congr_left
  intro i _
  obtain ⟨m', hm', _, hv⟩ := synthesize_val tt n (bitReverse n i) hlen hsmall
    (bitReverse_lt n i)
  rw [hm] at hm'
  have hmm : m = m' := Except.ok.inj hm'
  subst hmm
  have hlt : bitReverse n i < tt.length := by rw [hlen]; exact bitReverse_lt n i
  have hget : tt[bitReverse n i]? = some (tt.getD (bitReverse n i) '0') := by
    simp [List.getD_eq_getElem?_getD, List.getElem?_eq_getElem hlt]
  have hbit := getD_isBit _ (gateVals_isBit (msbAssignment n (bitReverse n i)) m.gates)
    m.output_gate
  rw [hget] at hv
  rcases getD_binary tt hb (bitReverse n i) with h0 | h1
  · rw [h0] at hv ⊢
    have hne : (gateVals (msbAssignment n (bitReverse n i)) m.gates).getD m.output_gate 0 ≠ 1 :=
      fun e => by
        have := hv.mp e
        simp at this
    rcases hbit with hz | ho
    · rw [hz]; simp
    · exact absurd ho hne
  · rw [h1] at hv ⊢
    rw [hv.mpr rfl]
    simp

/-- C28: for a truth table over `'0'`/`'1'` of length `2^n` (with `n < 31`, the range of
the `int` length check), `synthesize(tt).getTruthTable()` returns a table of length `2^n`
whose character `i` is `tt[rev(i)]`, where `rev` reverses the `n`-bit binary
representation of `i`; consequently `synthesize(tt).validate(tt)` is true if and only if
`tt` is invariant under reversing the order of its variables, which is always the case
for `n <= 1`; for `tt = "0100"` it is false. -/
theorem C28_getTruthTable_reverses_rows (tt : List Char) (n : Nat) (hlen : tt.length = 2 ^ n)
    (hn : n < 31) (hb : isBinary tt) :
    (∃ m t, synthesize tt = Except.ok m ∧ m.getTruthTable = some t ∧ t.length = 2 ^ n ∧
      (∀ i, i < 2 ^ n → bitReverse n i < 2 ^ n ∧ t[i]? = tt[bitReverse n i]?) ∧
      (∀ i j, i < 2 ^ n → j < n → (bitReverse n i).testBit (n - 1 - j) = i.testBit j) ∧
      m.validate tt = some (decide (t = tt)) ∧
      (m.validate tt = some true ↔ ∀ i, i < 2 ^ n → tt[bitReverse n i]? = tt[i]?) ∧
      (n ≤ 1 → m.validate tt = some true)) ∧
    (synthesize "0100".toList).map (fun m => m.validate "0100".toList) =
      Except.ok (some false) := by
  refine ⟨?_, by decide⟩
  obtain ⟨m, hm, ht⟩ := synthesize_getTruthTable tt n hlen hn hb
  have hrow : ∀ i, i < 2 ^ n →
      ((List.range (2 ^ n)).map (fun i => tt.getD (bitReverse n i) '0'))[i]? =
        tt[bitReverse n i]? := by
    intro i hi
    rw [getElem?_map_range_char _ _ _ hi,
      getD_eq_getElem?_of_lt tt _ (by rw [hlen]; exact bitReverse_lt n i)]
  have hval : m.validate tt =
      some (decide ((List.range (2 ^ n)).map (fun i => tt.getD (bitReverse n i) '0') = tt)) := by
    unfold MIG.validate
    rw [ht]
  have hiff : (List.range (2 ^ n)).map (fun i => tt.getD (bitReverse n i) '0') = tt ↔
      ∀ i, i < 2 ^ n → tt[bitReverse n i]? = tt[i]? := by
    constructor
    · intro h i hi
      rw [← hrow i hi, h]
    · intro h
      apply List.ext_getElem?
      intro i
      rcases Nat.lt_or_ge i (2 ^ n) with hi | hi
      · rw [hrow i hi, h i hi]
      · rw [List.getElem?_eq_none (by simpa using hi),
          List.getElem?_eq_none (by rw [hlen]; exact hi)]
  refine ⟨m, _, hm, ht, by simp, fun i hi => ⟨bitReverse_lt n i, hrow i hi⟩,
    fun i j _ hj => bitReverse_testBit n i j hj, hval, ?_, ?_⟩
  · rw [hval]
    simp only [Option.some.injEq, decide_eq_true_eq]
    exact hiff
  · intro h1
    rw [hval]
    simp only [Option.some.injEq, decide_eq_true_eq]
    exact hiff.mpr (fun i hi => by rw [bitReverse_small n i h1 hi])

theorem C28_witness :
    ("0110".toList.length = 2 ^ 2) ∧ (2 < 31) ∧ isBinary "0110".toList ∧
    ((∃ m t, synthesize "0110".toList = Except.ok m ∧ m.getTruthTable = some t ∧
      t.length = 2 ^ 2 ∧
      (∀ i, i < 2 ^ 2 → bitReverse 2 i < 2 ^ 2 ∧ t[i]? = "0110".toList[bitReverse 2 i]?) ∧
      (∀ i j, i < 2 ^ 2 → j < 2 → (bitReverse 2 i).testBit (2 - 1 - j) = i.testBit j) ∧
      m.validate "0110".toList = some (decide (t = "0110".toList)) ∧
      (m.validate "0110".toList = some true ↔
        ∀ i, i < 2 ^ 2 → "0110".toList[bitReverse 2 i]? = "0110".toList[i]?) ∧
      (2 ≤ 1 → m.validate "0110".toList = some true)) ∧
    (synthesize "0100".toList).map (fun m => m.validate "0100".toList) =
      Except.ok (some false)) :=
  ⟨by decide, by decide, by unfold isBinary; decide,
    C28_getTruthTable_reverses_rows "0110".toList 2 (by decide) (by decide)
      (by unfold isBinary; decide)⟩

/-! ## The shape of a conjunction -/

/-- C24 fails on the code: the conjunction of a minterm is a linear chain, not a balanced
reduction.  For the 4-variable AND table `0000000000000001` the code returns
`G0 = MAJ(x0,x1,0)`, `G1 = MAJ(G0,x2,0)`, `G2 = MAJ(G1,x3,0)`, not the balanced network of
the claim, and the longest chain from the output gate has 3 gates, more than
`ceil(log2 4) = 2`. -/
theorem C24_conjunction_is_not_balanced :
    synthesize "0000000000000001".toList =
        Except.ok { n_vars := 4,
                    gates := [{ id := 0, a := MIG.PI 0 false, b := MIG.PI 1 false, c := MIG.C0 },
                              { id := 1, a := MIG.NODE 0 false, b := MIG.PI 2 false, c := MIG.C0 },
                              { id := 2, a := MIG.NODE 1 false, b := MIG.PI 3 false, c := MIG.C0 }],
                    output_gate := 2, output_inverted := false } ∧
      synthesize "0000000000000001".toList ≠ Except.ok balancedAnd4 ∧
      balancedAnd4.chainLength = 2 ∧
      (synthesize "0000000000000001".toList).map MIG.chainLength = Except.ok 3 ∧
      Nat.clog 2 4 = 2 ∧
      ¬ (synthesize "0000000000000001".toList).map (fun m => decide (m.chainLength ≤ Nat.clog 2 4))
        = Except.ok true := by
  have hc : Nat.clog 2 4 = 2 := by
    rw [show (4 : Nat) = 2 ^ 2 from rfl, Nat.clog_pow 2 2 (by norm_num)]
  rw [hc]
  refine ⟨by decide, by decide, by decide, by decide, rfl, by decide⟩

/-- One step of the conjunction chain on a literal of a variable that no gate uses yet:
the cache is missed and the gate `MAJ(acc, l, 0)` is appended. -/
theorem and2_fresh (b : MIGBuilder) (acc l : MIGInput) (j : Nat) (hb : BuilderInv b)
    (hacc : b.valid acc)
    (hkind : acc.kind = Kind.PI ∧ acc.index < j ∨ acc.kind = Kind.NODE)
    (hl : l.kind = Kind.PI ∧ l.index = j ∧ l.index < b.n_vars ∧ l.plainConst)
    (hg : ∀ g ∈ b.mig.gates, g.c = MIGBuilder.c0 ∧
      ∀ o, (o = g.a ∨ o = g.b) → o.kind = Kind.PI → o.index < j) :
    (b.and2 acc l).1 = MIG.NODE b.mig.gates.length false ∧
      (b.and2 acc l).2.mig.gates =
        b.mig.gates ++ [{ id := b.mig.gates.length, a := acc, b := l, c := MIG.C0 }] ∧
      (b.and2 acc l).2.n_vars = b.n_vars ∧ BuilderInv (b.and2 acc l).2 ∧
      (b.and2 acc l).2.valid (b.and2 acc l).1 := by
  obtain ⟨hlk, hli, hln, hlp⟩ := hl
  have hc0k : MIGBuilder.c0.kind = Kind.CONST0 := rfl
  have hacc0 : acc.kind ≠ Kind.CONST0 := by
    rcases hkind with h | h <;> simp [h]
  have hacc1 : acc.kind ≠ Kind.CONST1 := by
    rcases hkind with h | h <;> simp [h]
  have he1 : equal_inputs acc l = false := by
    rcases hkind with h | h
    · exact equal_inputs_index_ne acc l (by omega)
    · exact equal_inputs_kind_ne acc l (by rw [h, hlk]; decide)
  have hc1 : complementary acc l = false := by
    rcases hkind with h | h
    · exact complementary_index_ne acc l (by omega)
    · exact complementary_kind_ne acc l (by rw [h, hlk]; decide)
  have he2 : equal_inputs acc MIGBuilder.c0 = false :=
    equal_inputs_kind_ne _ _ (by rw [hc0k]; exact hacc0)
  have he3 : equal_inputs l MIGBuilder.c0 = false :=
    equal_inputs_kind_ne _ _ (by rw [hc0k, hlk]; decide)
  have hc2 : complementary acc MIGBuilder.c0 = false :=
    complementary_kind_ne _ _ (by rw [hc0k]; exact hacc0)
  have hc3 : complementary l MIGBuilder.c0 = false :=
    complementary_kind_ne _ _ (by rw [hc0k, hlk]; decide)
  have hand : b.and2 acc l = b.make_maj acc l MIGBuilder.c0 := by
    unfold MIGBuilder.and2
    rw [if_neg (by rw [hlk]; simp [hacc0]), if_neg hacc1, if_neg (by rw [hlk]; decide),
      if_neg (by rw [he1]; decide), if_neg (by rw [hc1]; decide)]
  have hlook : b.maj_cache.lookup (maj_key acc l MIGBuilder.c0) = none := by
    cases hlk' : List.lookup (maj_key acc l MIGBuilder.c0) b.maj_cache with
    | none => rfl
    | some id =>
      exfalso
      obtain ⟨g, hgg, hkey⟩ := hb.2.2 _ id hlk'
      have hperm := maj_key_perm _ _ _ _ _ _ hkey
      have hmem : l ∈ [g.a, g.b, g.c] := hperm.mem_iff.mp (by simp)
      have hgm : g ∈ b.mig.gates := List.getElem?_mem hgg
      simp only [List.mem_cons, List.mem_singleton, List.not_mem_nil, or_false] at hmem
      rcases hmem with h | h | h
      · have := (hg g hgm).2 l (Or.inl h) hlk
        omega
      · have := (hg g hgm).2 l (Or.inr h) hlk
        omega
      · rw [(hg g hgm).1] at h
        rw [h] at hlk
        cases hlk
  obtain ⟨hr1, hr2, hr3⟩ := make_maj_fresh b acc l MIGBuilder.c0 he1 he2 he3 hc1 hc2 hc3 hlook
  have hlv : b.valid l :=
    ⟨⟨fun _ => hln, fun h => by rw [hlk] at h; cases h⟩, hlp⟩
  obtain ⟨⟨hinv, _, hval⟩, _⟩ := make_maj_spec b acc l MIGBuilder.c0 hb hacc hlv (valid_c0 b)
  rw [hand]
  exact ⟨hr1, hr2, hr3, hinv, hval⟩

/-- The conjunction chain over literals of fresh variables appends exactly the gates of
the linear chain. -/
theorem and_chain_loop_chain :
    ∀ (lits : List MIGInput) (b : MIGBuilder) (acc : MIGInput) (j : Nat),
      BuilderInv b → b.valid acc →
      (acc.kind = Kind.PI ∧ acc.index < j ∨ acc.kind = Kind.NODE) →
      (∀ (m : Nat) (l : MIGInput), lits[m]? = some l →
        l.kind = Kind.PI ∧ l.index = j + m ∧ l.index < b.n_vars ∧ l.plainConst) →
      (∀ g ∈ b.mig.gates, g.c = MIGBuilder.c0 ∧
        ∀ o, (o = g.a ∨ o = g.b) → o.kind = Kind.PI → o.index < j) →
      (MIGBuilder.and_chain_loop b acc lits).2.mig.gates =
        b.mig.gates ++ chainGates b.mig.gates.length acc lits := by
  intro lits
  induction lits with
  | nil =>
    intro b acc j _ _ _ _ _
    simp [MIGBuilder.and_chain_loop, chainGates]
  | cons l rest ih =>
    intro b acc j hb hacc hkind hl hg
    have hl0 := hl 0 l (by simp)
    obtain ⟨hr1, hr2, hr3, hinv, hval⟩ := and2_fresh b acc l j hb hacc hkind
      ⟨hl0.1, by omega, hl0.2.2.1, hl0.2.2.2⟩ hg
    have hrest : ∀ (m : Nat) (l' : MIGInput), rest[m]? = some l' →
        l'.kind = Kind.PI ∧ l'.index = (j + 1) + m ∧
          l'.index < (b.and2 acc l).2.n_vars ∧ l'.plainConst := by
      intro m l' hm
      obtain ⟨a1, a2, a3, a4⟩ := hl (m + 1) l' (by simpa using hm)
      exact ⟨a1, by omega, by rw [hr3]; exact a3, a4⟩
    have hgates : ∀ g ∈ (b.and2 acc l).2.mig.gates, g.c = MIGBuilder.c0 ∧
        ∀ o, (o = g.a ∨ o = g.b) → o.kind = Kind.PI → o.index < j + 1 := by
      intro g hgm
      rw [hr2] at hgm
      rcases List.mem_append.mp hgm with h | h
      · exact ⟨(hg g h).1, fun o ho hk => Nat.lt_succ_of_lt ((hg g h).2 o ho hk)⟩
      · rw [List.mem_singleton] at h
        subst h
        refine ⟨rfl, ?_⟩
        intro o ho hk
        rcases ho with ho | ho
        · simp only [] at ho
          subst ho
          rcases hkind with h' | h'
          · omega
          · rw [h'] at hk; cases hk
        · simp only [] at ho
          subst ho
          omega
    have hstep := ih (b.and2 acc l).2 (b.and2 acc l).1 (j + 1) hinv hval
      (Or.inr (by rw [hr1]; rfl)) hrest hgates
    rw [MIGBuilder.and_chain_loop]
    rw [if_neg (by rw [hr1]; simp [MIG.NODE])]
    rw [hstep, hr2, hr1, chainGates, List.append_assoc]
    simp

theorem gateDepths_snoc (gs : List MIGGate) (g : MIGGate) :
    gateDepths (gs ++ [g]) =
      gateDepths gs ++ [1 + max (operandDepth (gateDepths gs) g.a)
        (max (operandDepth (gateDepths gs) g.b) (operandDepth (gateDepths gs) g.c))] := by
  simp [gateDepths, List.foldl_append]

theorem gateDepths_length (gs : List MIGGate) : (gateDepths gs).length = gs.length := by
  induction gs using List.reverseRecOn with
  | nil => rfl
  | append_singleton gs g ih => rw [gateDepths_snoc]; simp [ih]

/-- In a linear chain over literals every gate is one gate deeper than the one before. -/
theorem gateDepths_chain :
    ∀ (lits : List MIGInput) (pre : List MIGGate) (acc : MIGInput),
      (∀ l ∈ lits, l.kind = Kind.PI) →
      gateDepths (pre ++ chainGates pre.length acc lits) =
        gateDepths pre ++
          (List.range lits.length).map (fun t => operandDepth (gateDepths pre) acc + 1 + t) := by
  intro lits
  induction lits with
  | nil => intro pre acc _; simp [chainGates]
  | cons l rest ih =>
    intro pre acc hl
    have hlk : l.kind = Kind.PI := hl l (List.mem_cons_self _ _)
    have hsplit : pre ++ chainGates pre.length acc (l :: rest) =
        (pre ++ [{ id := pre.length, a := acc, b := l, c := MIG.C0 }]) ++
          chainGates (pre ++ [({ id := pre.length, a := acc, b := l, c := MIG.C0 } : MIGGate)]).length
            (MIG.NODE pre.length false) rest := by
      rw [chainGates]
      simp
    rw [hsplit, ih _ _ (fun l' hl' => hl l' (List.mem_cons_of_mem _ hl')), gateDepths_snoc]
    have hd : operandDepth (gateDepths pre) l = 0 := by
      simp [operandDepth, hlk]
    have hc : operandDepth (gateDepths pre) MIG.C0 = 0 := rfl
    simp only [hd, hc, Nat.max_self, Nat.max_zero]
    have hn : operandDepth
        (gateDepths pre ++ [1 + operandDepth (gateDepths pre) acc]) (MIG.NODE pre.length false) =
        1 + operandDepth (gateDepths pre) acc := by
      simp only [operandDepth, MIG.NODE]
      rw [List.getD_eq_getElem?_getD,
        List.getElem?_append_right (by rw [gateDepths_length])]
      simp [gateDepths_length]
    rw [hn, List.length_cons, List.range_succ_eq_map, List.map_cons, List.map_map,
      List.append_assoc]
    simp only [List.singleton_append, Nat.add_zero]
    congr 1
    congr 1
    · omega
    · apply List.map_congr_left
      intro t _
      simp only [Function.comp]
      omega

theorem row_lits_cons (n i : Nat) (hn : 1 ≤ n) :
    MIGBuilder.row_lits n i =
      MIG.PI 0 (!(i.testBit (n - 1 - 0))) ::
        (List.range (n - 1)).map (fun j => MIG.PI (j + 1) (!(i.testBit (n - 1 - (j + 1))))) := by
  obtain ⟨k, rfl⟩ : ∃ k, n = k + 1 := ⟨n - 1, by omega⟩
  rw [row_lits_eq, List.range_succ_eq_map, List.map_cons, List.map_map]
  rfl

theorem chainGates_length :
    ∀ (lits : List MIGInput) (s : Nat) (acc : MIGInput),
      (chainGates s acc lits).length = lits.length := by
  intro lits
  induction lits with
  | nil => intro s acc; rfl
  | cons l rest ih => intro s acc; rw [chainGates, List.length_cons, ih]; rfl

/-- The gates of the conjunction of the `n ≥ 2` literals of a row, built in a fresh
builder. -/
theorem and_chain_row_gates (n i : Nat) (hn : 2 ≤ n) :
    ((MIGBuilder.new n).and_chain (MIGBuilder.row_lits n i)).2.mig.gates =
      chainGates 0 (MIG.PI 0 (!(i.testBit (n - 1 - 0))))
        ((List.range (n - 1)).map
          (fun j => MIG.PI (j + 1) (!(i.testBit (n - 1 - (j + 1)))))) := by
  rw [row_lits_cons n i (by omega)]
  unfold MIGBuilder.and_chain
  simp only []
  have := and_chain_loop_chain
    ((List.range (n - 1)).map (fun j => MIG.PI (j + 1) (!(i.testBit (n - 1 - (j + 1))))))
    (MIGBuilder.new n) (MIG.PI 0 (!(i.testBit (n - 1 - 0)))) 1
    (BuilderInv_new _) (valid_PI_new n 0 _ (by omega))
    (Or.inl ⟨rfl, Nat.zero_lt_one⟩)
    (by
      intro m l hm
      rw [List.getElem?_map] at hm
      rcases Nat.lt_or_ge m (n - 1) with hmk | hmk
      · rw [List.getElem?_range hmk] at hm
        simp only [Option.map_some', Option.some.injEq] at hm
        subst hm
        refine ⟨rfl, ?_, ?_, fun h => by simp [MIG.PI] at h⟩
        · simp only [MIG.PI]; omega
        · simp only [MIG.PI, MIGBuilder.new]; omega
      · rw [List.getElem?_eq_none (by simpa using hmk)] at hm
        simp at hm)
    (by
      intro g hg
      simp [MIGBuilder.new, MIG.new] at hg)
  simpa [MIGBuilder.new, MIG.new] using this

/-- C24 as amended: the conjunction of a minterm is a linear chain.  For `2 <= n < 31` and
a table of length `2^n` whose only `'1'` is at row `i0`, with `l_k` the literal of
variable `k` in that row (`x_k` if bit `n-1-k` of `i0` is 1, else `x_k'`), `synthesize`
returns the network `G0 = MAJ(l_0, l_1, 0)`, `G_k = MAJ(G_(k-1), l_(k+1), 0)` for
`k = 1 .. n-2`, `OUTPUT = G_(n-2)`, and the longest chain of gates from the output gate
down to a primary input has exactly `n - 1` gates. -/
theorem C24_conjunction_is_linear_chain (tt : List Char) (n : Nat) (hn2 : 2 ≤ n)
    (hn : n < 31) (hlen : tt.length = 2 ^ n) (hone : tt.count '1' = 1) :
    ∃ (i0 : Nat) (m : MIG), tt[i0]? = some '1' ∧ synthesize tt = Except.ok m ∧
      m = { n_vars := n,
            gates := chainGates 0 (MIG.PI 0 (!(i0.testBit (n - 1 - 0))))
              ((List.range (n - 1)).map
                (fun k => MIG.PI (k + 1) (!(i0.testBit (n - 1 - (k + 1)))))),
            output_gate := n - 2,
            output_inverted := false } ∧
      m.size = n - 1 ∧ m.chainLength = n - 1 := by
  have hlt : tt.length < 2 ^ 31 := by
    rw [hlen]; exact Nat.pow_lt_pow_right (by norm_num) hn
  have hmem : '1' ∈ tt := List.count_pos_iff.mp (by omega)
  obtain ⟨pre, post, hsplit⟩ := List.append_of_mem hmem
  have hcount : pre.count '1' + (post.count '1' + 1) = 1 := by
    rw [hsplit, List.count_append, List.count_cons_self] at hone
    exact hone
  have hpre : ∀ ch ∈ pre, ch ≠ '1' := by
    intro ch hch e
    have : 0 < pre.count '1' := List.count_pos_iff.mpr (e ▸ hch)
    omega
  have hpost : ∀ ch ∈ post, ch ≠ '1' := by
    intro ch hch e
    have : 0 < post.count '1' := List.count_pos_iff.mpr (e ▸ hch)
    omega
  have hroot : MIGBuilder.build_root (MIGBuilder.new n) tt =
      ((MIGBuilder.new n).and_chain (MIGBuilder.row_lits n (0 + pre.length))) := by
    unfold MIGBuilder.build_root
    rw [if_neg (show ¬ (MIGBuilder.new n).n_vars = 0 from by
      simp only [MIGBuilder.new]; omega)]
    simp only []
    rw [hsplit, sum_terms_loop_single _ post hpost pre 0 hpre]
    rfl
  obtain ⟨_, _, h3⟩ := and_chain_row_fresh n (0 + pre.length) hn2
  have hgates := and_chain_row_gates n (0 + pre.length) hn2
  have hmat : MIGBuilder.materialize_as_gate
      ((MIGBuilder.new n).and_chain (MIGBuilder.row_lits n (0 + pre.length))).2
      ((MIGBuilder.new n).and_chain (MIGBuilder.row_lits n (0 + pre.length))).1 =
        (n - 2, ((MIGBuilder.new n).and_chain (MIGBuilder.row_lits n (0 + pre.length))).2) := by
    unfold MIGBuilder.materialize_as_gate
    rw [h3, if_pos ⟨rfl, rfl⟩]
    rfl
  have hnv : ((MIGBuilder.new n).and_chain
      (MIGBuilder.row_lits n (0 + pre.length))).2.mig.n_vars = n := by
    have s := build_root_ok (MIGBuilder.new n) tt (BuilderInv_new n)
    rw [hroot] at s
    rw [s.1.1, s.2.1.1]
    rfl
  have hi0 : tt[0 + pre.length]? = some '1' := by
    rw [hsplit, Nat.zero_add, List.getElem?_append_right (le_refl _)]
    simp
  have hm : synthesize tt = Except.ok
      { n_vars := n,
        gates := chainGates 0 (MIG.PI 0 (!((0 + pre.length).testBit (n - 1 - 0))))
          ((List.range (n - 1)).map
            (fun j => MIG.PI (j + 1) (!((0 + pre.length).testBit (n - 1 - (j + 1)))))),
        output_gate := n - 2,
        output_inverted := false } := by
    rw [synthesize_pow tt n hlen hlt, hroot, hmat]
    simp only [MIG.setOutput]
    rw [hnv, hgates]
  refine ⟨0 + pre.length, _, hi0, hm, rfl, ?_, ?_⟩
  · simp only [MIG.size]
    rw [chainGates_length]
    simp
  · simp only [MIG.chainLength]
    have hd := gateDepths_chain
      ((List.range (n - 1)).map
        (fun j => MIG.PI (j + 1) (!((0 + pre.length).testBit (n - 1 - (j + 1))))))
      [] (MIG.PI 0 (!((0 + pre.length).testBit (n - 1 - 0))))
      (by
        intro l hl
        obtain ⟨j, _, rfl⟩ := List.mem_map.mp hl
        rfl)
    simp only [List.nil_append, List.length_nil] at hd
    rw [hd]
    have hk1 : n - 2 < n - 1 := by omega
    simp only [gateDepths, List.foldl_nil, List.nil_append, List.length_map, List.length_range,
      List.getD_eq_getElem?_getD, List.getElem?_map, List.getElem?_range hk1,
      Option.map_some', Option.getD_some, operandDepth, MIG.PI]
    omega

theorem C24_witness :
    (2 ≤ 3) ∧ (3 < 31) ∧ ("00000100".toList.length = 2 ^ 3) ∧
      ("00000100".toList.count '1' = 1) ∧
    ∃ (i0 : Nat) (m : MIG), "00000100".toList[i0]? = some '1' ∧
      synthesize "00000100".toList = Except.ok m ∧
      m = { n_vars := 3,
            gates := chainGates 0 (MIG.PI 0 (!(i0.testBit (3 - 1 - 0))))
              ((List.range (3 - 1)).map
                (fun k => MIG.PI (k + 1) (!(i0.testBit (3 - 1 - (k + 1)))))),
            output_gate := 3 - 2,
            output_inverted := false } ∧
      m.size = 3 - 1 ∧ m.chainLength = 3 - 1 :=
  ⟨by decide, by decide, by decide, by decide,
    C24_conjunction_is_linear_chain "00000100".toList 3 (by decide) (by decide) (by decide)
      (by decide)⟩

/-! ## Structural uniqueness of the gates -/

theorem BuilderUniq_new (n : Nat) : BuilderUniq (MIGBuilder.new n) := by
  constructor
  · intro k g hk
    simp [MIGBuilder.new, MIG.new] at hk
  · intro g hg
    simp [MIGBuilder.new, MIG.new] at hg

/-- In a builder with a complete cache no two gates have the same operands up to their
order. -/
theorem gates_unique_of_cache (b : MIGBuilder) (hc : CacheComplete b) (i j : Nat)
    (gi gj : MIGGate) (hi : b.mig.gates[i]? = some gi) (hj : b.mig.gates[j]? = some gj)
    (hp : [gi.a, gi.b, gi.c].Perm [gj.a, gj.b, gj.c]) : i = j := by
  have h1 := hc i gi hi
  have h2 := hc j gj hj
  rw [maj_key_congr gj.a gj.b gj.c gi.a gi.b gi.c hp, h2] at h1
  exact (Option.some.inj h1).symm

theorem make_maj_uniq (b : MIGBuilder) (x y z : MIGInput) (hu : BuilderUniq b)
    (hx : x.kind = Kind.PI ∨ x.kind = Kind.NODE) (hy : y.kind = Kind.PI ∨ y.kind = Kind.NODE)
    (hz : z.kind = Kind.CONST0 ∨ z.kind = Kind.CONST1) :
    BuilderUniq (b.make_maj x y z).2 := by
  unfold MIGBuilder.make_maj
  split
  · exact hu
  split
  · exact hu
  split
  · exact hu
  split
  · exact hu
  split
  · exact hu
  simp only []
  cases hlook : List.lookup (maj_key x y z) b.maj_cache with
  | some id => exact hu
  | none =>
    constructor
    · intro k g hk
      simp only [MIG.addGate] at hk ⊢
      rcases Nat.lt_or_ge k b.mig.gates.length with hlt | hge
      · rw [List.getElem?_append_left hlt] at hk
        exact lookup_emplace_old _ _ _ _ _ (hu.1 k g hk)
      · rw [List.getElem?_append_right hge] at hk
        have hk0 : k - b.mig.gates.length = 0 := by
          rcases Nat.eq_zero_or_pos (k - b.mig.gates.length) with h0 | h0
          · exact h0
          · rw [List.getElem?_eq_none (by simp only [List.length_singleton]; omega)] at hk
            cases hk
        rw [hk0] at hk
        simp only [List.getElem?_cons_zero, Option.some.injEq] at hk
        subst hk
        have hkeq : k = b.mig.gates.length := by omega
        rw [hkeq]
        exact lookup_emplace_new _ _ _ hlook
    · intro g hg
      simp only [MIG.addGate] at hg
      rcases List.mem_append.mp hg with h | h
      · exact hu.2 g h
      · rw [List.mem_singleton] at h
        subst h
        exact ⟨hx, hy, hz⟩

theorem kind_not_const (x : MIGInput) (h0 : x.kind ≠ Kind.CONST0) (h1 : x.kind ≠ Kind.CONST1) :
    x.kind = Kind.PI ∨ x.kind = Kind.NODE := by
  cases hk : x.kind
  · left; rfl
  · exact absurd hk h0
  · exact absurd hk h1
  · right; rfl

theorem and2_uniq (b : MIGBuilder) (x y : MIGInput) (hu : BuilderUniq b) :
    BuilderUniq (b.and2 x y).2 := by
  unfold MIGBuilder.and2
  split
  · exact hu
  · rename_i h0
    split
    · exact hu
    · rename_i hx1
      split
      · exact hu
      · rename_i hy1
        split
        · exact hu
        · split
          · exact hu
          · exact make_maj_uniq b x y MIGBuilder.c0 hu
              (kind_not_const x (fun h => h0 (Or.inl h)) hx1)
              (kind_not_const y (fun h => h0 (Or.inr h)) hy1) (Or.inl rfl)

theorem or2_uniq (b : MIGBuilder) (x y : MIGInput) (hu : BuilderUniq b) :
    BuilderUniq (b.or2 x y).2 := by
  unfold MIGBuilder.or2
  split
  · exact hu
  · rename_i h1
    split
    · exact hu
    · rename_i hx0
      split
      · exact hu
      · rename_i hy0
        split
        · exact hu
        · split
          · exact hu
          · exact make_maj_uniq b x y MIGBuilder.c1 hu
              (kind_not_const x hx0 (fun h => h1 (Or.inl h)))
              (kind_not_const y hy0 (fun h => h1 (Or.inr h))) (Or.inr rfl)

theorem and_chain_loop_uniq :
    ∀ (rest : List MIGInput) (b : MIGBuilder) (acc : MIGInput), BuilderUniq b →
      BuilderUniq (MIGBuilder.and_chain_loop b acc rest).2 := by
  intro rest
  induction rest with
  | nil => intro b acc hu; exact hu
  | cons l rest ih =>
    intro b acc hu
    rw [MIGBuilder.and_chain_loop]
    split
    · exact and2_uniq b acc l hu
    · exact ih _ _ (and2_uniq b acc l hu)

theorem or_chain_loop_uniq :
    ∀ (rest : List MIGInput) (b : MIGBuilder) (acc : MIGInput), BuilderUniq b →
      BuilderUniq (MIGBuilder.or_chain_loop b acc rest).2 := by
  intro rest
  induction rest with
  | nil => intro b acc hu; exact hu
  | cons l rest ih =>
    intro b acc hu
    rw [MIGBuilder.or_chain_loop]
    split
    · exact or2_uniq b acc l hu
    · exact ih _ _ (or2_uniq b acc l hu)

theorem and_chain_uniq (b : MIGBuilder) (lits : List MIGInput) (hu : BuilderUniq b) :
    BuilderUniq (b.and_chain lits).2 := by
  cases lits with
  | nil => exact hu
  | cons l rest => exact and_chain_loop_uniq rest b l hu

theorem or_chain_uniq (b : MIGBuilder) (terms : List MIGInput) (hu : BuilderUniq b) :
    BuilderUniq (b.or_chain terms).2 := by
  cases terms with
  | nil => exact hu
  | cons l rest => exact or_chain_loop_uniq rest b l hu

theorem sum_terms_loop_uniq :
    ∀ (rest : List Char) (b : MIGBuilder) (terms : List MIGInput) (i : Nat), BuilderUniq b →
      BuilderUniq (MIGBuilder.sum_terms_loop b terms i rest).2 := by
  intro rest
  induction rest with
  | nil => intro b terms i hu; exact hu
  | cons ch rest ih =>
    intro b terms i hu
    rw [MIGBuilder.sum_terms_loop]
    split
    · exact ih _ _ _ (and_chain_uniq b _ hu)
    · exact ih _ _ _ hu

theorem build_root_uniq (b : MIGBuilder) (tt : List Char) (hu : BuilderUniq b) :
    BuilderUniq (b.build_root tt).2 := by
  unfold MIGBuilder.build_root
  split
  · exact hu
  · have hs := sum_terms_loop_uniq tt b [] 0 hu
    simp only []
    split
    · exact hs
    · exact hs
    · exact or_chain_uniq _ _ hs

theorem shape_count (g : MIGGate) (h : GateShape g) :
    [g.a, g.b, g.c].countP MIGInput.isConst = 1 := by
  obtain ⟨ha, hb, hc⟩ := h
  have a0 : g.a.isConst = false := by
    rcases ha with h | h <;> simp [MIGInput.isConst, h]
  have b0 : g.b.isConst = false := by
    rcases hb with h | h <;> simp [MIGInput.isConst, h]
  have c1 : g.c.isConst = true := by
    rcases hc with h | h <;> simp [MIGInput.isConst, h]
  simp [List.countP_cons, a0, b0, c1]

/-- Appending a gate with at least two constant operands keeps the gates pairwise
different up to the order of their operands. -/
theorem unique_snoc (b : MIGBuilder) (hu : BuilderUniq b) (x y z : MIGInput)
    (hy : y.isConst = true) (hz : z.isConst = true) (i j : Nat) (gi gj : MIGGate)
    (hi : (b.mig.gates ++ [{ id := b.mig.gates.length, a := x, b := y, c := z }])[i]? = some gi)
    (hj : (b.mig.gates ++ [{ id := b.mig.gates.length, a := x, b := y, c := z }])[j]? = some gj)
    (hp : [gi.a, gi.b, gi.c].Perm [gj.a, gj.b, gj.c]) : i = j := by
  have hnew : 2 ≤ [x, y, z].countP MIGInput.isConst := by
    simp only [List.countP_cons, hy, hz, List.countP_nil]
    simp
  have hlast : ∀ (k : Nat) (g : MIGGate),
      (b.mig.gates ++ [{ id := b.mig.gates.length, a := x, b := y, c := z }])[k]? = some g →
      (k < b.mig.gates.length ∧ b.mig.gates[k]? = some g) ∨
        (k = b.mig.gates.length ∧ [g.a, g.b, g.c] = [x, y, z]) := by
    intro k g hk
    rcases Nat.lt_or_ge k b.mig.gates.length with hlt | hge
    · rw [List.getElem?_append_left hlt] at hk
      exact Or.inl ⟨hlt, hk⟩
    · rw [List.getElem?_append_right hge] at hk
      have hk0 : k - b.mig.gates.length = 0 := by
        rcases Nat.eq_zero_or_pos (k - b.mig.gates.length) with h0 | h0
        · exact h0
        · rw [List.getElem?_eq_none (by simp only [List.length_singleton]; omega)] at hk
          cases hk
      rw [hk0] at hk
      simp only [List.getElem?_cons_zero, Option.some.injEq] at hk
      subst hk
      exact Or.inr ⟨by omega, rfl⟩
  rcases hlast i gi hi with ⟨_, hi'⟩ | ⟨hi', ei⟩ <;> rcases hlast j gj hj with ⟨_, hj'⟩ | ⟨hj', ej⟩
  · exact gates_unique_of_cache b hu.1 i j gi gj hi' hj' hp
  · exfalso
    have h1 := shape_count gi (hu.2 gi (List.getElem?_mem hi'))
    rw [hp.countP_eq, ej] at h1
    omega
  · exfalso
    have h1 := shape_count gj (hu.2 gj (List.getElem?_mem hj'))
    rw [← hp.countP_eq, ei] at h1
    omega
  · rw [hi', hj']

theorem materialize_as_gate_unique (b : MIGBuilder) (r : MIGInput) (hu : BuilderUniq b)
    (i j : Nat) (gi gj : MIGGate)
    (hi : (b.materialize_as_gate r).2.mig.gates[i]? = some gi)
    (hj : (b.materialize_as_gate r).2.mig.gates[j]? = some gj)
    (hp : [gi.a, gi.b, gi.c].Perm [gj.a, gj.b, gj.c]) : i = j := by
  unfold MIGBuilder.materialize_as_gate at hi hj
  by_cases h1 : r.kind = Kind.NODE ∧ r.inverted = false
  · rw [if_pos h1] at hi hj
    exact gates_unique_of_cache b hu.1 i j gi gj hi hj hp
  · rw [if_neg h1] at hi hj
    by_cases h2 : r.kind = Kind.CONST0
    · rw [if_pos h2] at hi hj
      exact unique_snoc b hu MIGBuilder.c0 MIGBuilder.c0 MIGBuilder.c0 rfl rfl i j gi gj hi hj hp
    · rw [if_neg h2] at hi hj
      by_cases h3 : r.kind = Kind.CONST1
      · rw [if_pos h3] at hi hj
        exact unique_snoc b hu MIGBuilder.c1 MIGBuilder.c1 MIGBuilder.c1 rfl rfl i j gi gj hi hj
          hp
      · rw [if_neg h3] at hi hj
        exact unique_snoc b hu r MIGBuilder.c0 MIGBuilder.c1 rfl rfl i j gi gj hi hj hp

theorem build_from_truth_unique (b : MIGBuilder) (tt : List Char) (m : MIG)
    (hu : BuilderUniq b) (h : b.build_from_truth tt = Except.ok m) (i j : Nat)
    (gi gj : MIGGate) (hi : m.gates[i]? = some gi) (hj : m.gates[j]? = some gj)
    (hp : [gi.a, gi.b, gi.c].Perm [gj.a, gj.b, gj.c]) : i = j := by
  unfold MIGBuilder.build_from_truth at h
  by_cases hc : tt.length ≠ to_size_t (if b.n_vars = 0 then 1 else shl_one_int b.n_vars)
  · rw [if_pos hc] at h
    cases h
  · rw [if_neg hc] at h
    simp only [Except.ok.injEq] at h
    subst h
    simp only [MIG.setOutput] at hi hj
    exact materialize_as_gate_unique _ _ (build_root_uniq b tt hu) i j gi gj hi hj hp

/-- C29: in every network returned by `synthesize`, two gates with the same multiset of
three operands (kind, index, polarity) are the same gate: every gate, including the one
added by output materialization, is structurally unique up to the order of its
operands. -/
theorem C29_gates_structurally_unique (tt : List Char) (m : MIG)
    (h : synthesize tt = Except.ok m) (i j : Nat) (gi gj : MIGGate)
    (hi : m.gates[i]? = some gi) (hj : m.gates[j]? = some gj)
    (hp : [gi.a, gi.b, gi.c].Perm [gj.a, gj.b, gj.c]) : i = j := by
  unfold synthesize at h
  simp only [] at h
  split at h
  · simp only [Except.ok.injEq] at h
    subst h
    simp only [MIG.setOutput, MIG.addGate, MIG.new, List.nil_append] at hi hj
    have hi0 : i = 0 := by
      rcases Nat.eq_zero_or_pos i with h0 | h0
      · exact h0
      · rw [List.getElem?_eq_none (by simpa using h0)] at hi; cases hi
    have hj0 : j = 0 := by
      rcases Nat.eq_zero_or_pos j with h0 | h0
      · exact h0
      · rw [List.getElem?_eq_none (by simpa using h0)] at hj; cases hj
    rw [hi0, hj0]
  · exact build_from_truth_unique _ tt m (BuilderUniq_new _) h i j gi gj hi hj hp

theorem C29_witness :
    synthesize "0110".toList =
      Except.ok { n_vars := 2,
                  gates := [{ id := 0, a := MIG.PI 0 true, b := MIG.PI 1 false, c := MIG.C0 },
                            { id := 1, a := MIG.PI 0 false, b := MIG.PI 1 true, c := MIG.C0 },
                            { id := 2, a := MIG.NODE 0 false, b := MIG.NODE 1 false,
                              c := MIG.C1 }],
                  output_gate := 2, output_inverted := false } ∧
    [({ id := 0, a := MIG.PI 0 true, b := MIG.PI 1 false, c := MIG.C0 } : MIGGate),
      { id := 1, a := MIG.PI 0 false, b := MIG.PI 1 true, c := MIG.C0 },
      { id := 2, a := MIG.NODE 0 false, b := MIG.NODE 1 false, c := MIG.C1 }][1]? =
      some { id := 1, a := MIG.PI 0 false, b := MIG.PI 1 true, c := MIG.C0 } ∧
    [MIG.PI 0 false, MIG.PI 1 true, MIG.C0].Perm [MIG.PI 0 false, MIG.PI 1 true, MIG.C0] ∧
    1 = 1 :=
  ⟨by decide, by decide, by decide,
    C29_gates_structurally_unique "0110".toList
      { n_vars := 2,
        gates := [{ id := 0, a := MIG.PI 0 true, b := MIG.PI 1 false, c := MIG.C0 },
                  { id := 1, a := MIG.PI 0 false, b := MIG.PI 1 true, c := MIG.C0 },
                  { id := 2, a := MIG.NODE 0 false, b := MIG.NODE 1 false, c := MIG.C1 }],
        output_gate := 2, output_inverted := false }
      (by decide) 1 1 { id := 1, a := MIG.PI 0 false, b := MIG.PI 1 true, c := MIG.C0 }
      { id := 1, a := MIG.PI 0 false, b := MIG.PI 1 true, c := MIG.C0 }
      (by decide) (by decide) (by decide)⟩

/-! ## Equivalence and the 64-bit key -/

/-- On strings of at most 64 characters the 64-bit key is the unsigned value. -/
theorem key64_small (tt : List Char) (h : tt.length ≤ 64) :
    NPNClassifier.key64 tt = TruthTable.truthTableToBinary tt := by
  unfold NPNClassifier.key64
  apply Nat.mod_eq_of_lt
  exact lt_of_lt_of_le (truthTableToBinary_lt tt) (Nat.pow_le_pow_right (by norm_num) h)

theorem two_pow_le_64 (n : Nat) (hn : n ≤ 6) : 2 ^ n ≤ 64 := by
  have : 2 ^ n ≤ 2 ^ 6 := Nat.pow_le_pow_right (by norm_num) hn
  omega

/-- With a key that is injective on the binary strings of length `2^n`, two binary tables
of length `2^n` have the same representative exactly when one is a transform of the
other. -/
theorem areNPNEquivalent_iff_on (key : List Char → Nat) (n : Nat) (tt1 tt2 : List Char)
    (hkey : ∀ a b : List Char, a.length = 2 ^ n → b.length = 2 ^ n → isBinary a →
      isBinary b → key a = key b → a = b)
    (h1 : tt1.length = 2 ^ n) (h2 : tt2.length = 2 ^ n) (hb1 : isBinary tt1)
    (hb2 : isBinary tt2) :
    NPNClassifier.areNPNEquivalent key tt1 tt2 = Except.ok true ↔ NPNRel n tt1 tt2 := by
  obtain ⟨r1, e1, rel1, min1⟩ := representative_rel key n tt1 h1 hb1
  obtain ⟨r2, e2, rel2, min2⟩ := representative_rel key n tt2 h2 hb2
  unfold NPNClassifier.areNPNEquivalent
  rw [e1, e2]
  simp only [Except.ok.injEq, decide_eq_true_eq]
  constructor
  · intro h
    subst h
    exact NPNRel_trans n tt1 r1 tt2 hb1 rel1 (NPNRel_symm n tt2 r1 h2 hb2 rel2)
  · intro h
    have h' := NPNRel_symm n tt1 tt2 h1 hb1 h
    have le1 := min1 r2 (NPNRel_trans n tt1 tt2 r2 hb1 h rel2)
    have le2 := min2 r1 (NPNRel_trans n tt2 tt1 r1 hb2 h' rel1)
    exact hkey r1 r2 (NPNRel_length n tt1 r1 rel1) (NPNRel_length n tt2 r2 rel2)
      (NPNRel_binary n tt1 r1 hb1 rel1) (NPNRel_binary n tt2 r2 hb2 rel2)
      (le_antisymm le1 le2)

/-- For at most 6 variables the 64-bit key is injective on the binary tables. -/
theorem key64_injective (n : Nat) (hn : n ≤ 6) :
    ∀ a b : List Char, a.length = 2 ^ n → b.length = 2 ^ n → isBinary a → isBinary b →
      NPNClassifier.key64 a = NPNClassifier.key64 b → a = b := by
  intro a b ha hb ba bb h
  rw [key64_small a (by rw [ha]; exact two_pow_le_64 n hn),
    key64_small b (by rw [hb]; exact two_pow_le_64 n hn)] at h
  exact truthTableToBinary_injective a b (ha.trans hb.symm) ba bb h

/-- A table whose key is 0 is its own representative: no transform has a smaller key. -/
theorem representative_of_key_zero (key : List Char → Nat) (n : Nat) (tt : List Char)
    (hlen : tt.length = 2 ^ n) (h0 : key tt = 0) :
    NPNClassifier.getNPNRepresentative key tt = Except.ok tt := by
  obtain ⟨rep, h1, _, _, _, h5⟩ := getNPNRepresentative_spec key n tt hlen
  rw [h1, h5 (fun t _ => by rw [h0]; exact Nat.zero_le _)]

theorem areNPNEquivalent_of_reps (key : List Char → Nat) (a b ra rb : List Char)
    (h1 : NPNClassifier.getNPNRepresentative key a = Except.ok ra)
    (h2 : NPNClassifier.getNPNRepresentative key b = Except.ok rb) :
    NPNClassifier.areNPNEquivalent key a b = Except.ok (decide (ra = rb)) := by
  unfold NPNClassifier.areNPNEquivalent
  rw [h1, h2]

set_option maxRecDepth 100000 in
theorem rowZeroTable7_key : NPNClassifier.key64 rowZeroTable7 = 0 := by decide

set_option maxRecDepth 100000 in
theorem rowOneTable7_key : NPNClassifier.key64 rowOneTable7 = 0 := by decide

set_option maxRecDepth 100000 in
theorem rowZeroTable7_length : rowZeroTable7.length = 2 ^ 7 := by decide

set_option maxRecDepth 100000 in
theorem rowOneTable7_length : rowOneTable7.length = 2 ^ 7 := by decide

theorem rowZeroTable7_binary : isBinary rowZeroTable7 := by
  intro ch hch
  rcases List.mem_cons.mp hch with h | h
  · right; exact h
  · left; exact List.eq_of_mem_replicate h

theorem rowOneTable7_binary : isBinary rowOneTable7 := by
  intro ch hch
  rcases List.mem_cons.mp hch with h | h
  · left; exact h
  · rcases List.mem_cons.mp h with h | h
    · right; exact h
    · left; exact List.eq_of_mem_replicate h

theorem rowZeroTable7_ne : rowZeroTable7 ≠ rowOneTable7 := by decide

set_option maxRecDepth 100000 in
theorem rowZeroTable7_identity :
    NPNClassifier.applyPermutation rowZeroTable7 (List.range 7) = Except.ok rowZeroTable7 := by
  decide

set_option maxRecDepth 100000 in
theorem rowZeroTable7_negated :
    NPNClassifier.applyNegationPattern rowZeroTable7 [0, 0, 0, 0, 0, 0, 1] 0 =
      Except.ok rowOneTable7 := by
  decide

theorem rowZeroTable7_rep :
    NPNClassifier.getNPNRepresentative NPNClassifier.key64 rowZeroTable7 =
      Except.ok rowZeroTable7 :=
  representative_of_key_zero NPNClassifier.key64 7 rowZeroTable7 rowZeroTable7_length
    rowZeroTable7_key

theorem rowOneTable7_rep :
    NPNClassifier.getNPNRepresentative NPNClassifier.key64 rowOneTable7 =
      Except.ok rowOneTable7 :=
  representative_of_key_zero NPNClassifier.key64 7 rowOneTable7 rowOneTable7_length
    rowOneTable7_key

theorem rowTables7_rep_ne :
    NPNClassifier.getNPNRepresentative NPNClassifier.key64 rowZeroTable7 ≠
      NPNClassifier.getNPNRepresentative NPNClassifier.key64 rowOneTable7 := by
  rw [rowZeroTable7_rep, rowOneTable7_rep]
  exact fun h => rowZeroTable7_ne (Except.ok.inj h)

theorem rowTables7_not_equivalent :
    NPNClassifier.areNPNEquivalent NPNClassifier.key64 rowZeroTable7 rowOneTable7 =
      Except.ok false :=
  (areNPNEquivalent_of_reps _ _ _ _ _ rowZeroTable7_rep rowOneTable7_rep).trans
    (congrArg Except.ok (decide_eq_false rowZeroTable7_ne))

/-- C6 fails on the code for tables of 7 variables, whose unsigned value does not fit the
`uint64_t` key.  The table that is `'1'` at row 0 only and the table that is `'1'` at row
1 only both have the 64-bit key 0, so each is returned as its own representative and
`areNPNEquivalent` is false, although the second is
`applyNegationPattern(applyPermutation(tt1, perm), neg, 0)` of the first for the identity
permutation and `neg = (0,0,0,0,0,0,1)`. -/
theorem C6_fails_at_seven_variables :
    rowZeroTable7.length = 2 ^ 7 ∧ rowOneTable7.length = 2 ^ 7 ∧
      isBinary rowZeroTable7 ∧ isBinary rowOneTable7 ∧
      (List.range 7).Perm (List.range 7) ∧ ([0, 0, 0, 0, 0, 0, 1] : List Int).length = 7 ∧
      NPNClassifier.applyPermutation rowZeroTable7 (List.range 7) = Except.ok rowZeroTable7 ∧
      NPNClassifier.applyNegationPattern rowZeroTable7 [0, 0, 0, 0, 0, 0, 1] 0 =
        Except.ok rowOneTable7 ∧
      NPNClassifier.key64 rowZeroTable7 = 0 ∧ NPNClassifier.key64 rowOneTable7 = 0 ∧
      NPNClassifier.getNPNRepresentative NPNClassifier.key64 rowZeroTable7 =
        Except.ok rowZeroTable7 ∧
      NPNClassifier.getNPNRepresentative NPNClassifier.key64 rowOneTable7 =
        Except.ok rowOneTable7 ∧
      NPNClassifier.getNPNRepresentative NPNClassifier.key64 rowZeroTable7 ≠
        NPNClassifier.getNPNRepresentative NPNClassifier.key64 rowOneTable7 ∧
      NPNClassifier.areNPNEquivalent NPNClassifier.key64 rowZeroTable7 rowOneTable7 =
        Except.ok false :=
  ⟨rowZeroTable7_length, rowOneTable7_length, rowZeroTable7_binary, rowOneTable7_binary,
    List.Perm.refl _, rfl, rowZeroTable7_identity, rowZeroTable7_negated, rowZeroTable7_key,
    rowOneTable7_key, rowZeroTable7_rep, rowOneTable7_rep, rowTables7_rep_ne,
    rowTables7_not_equivalent⟩

/-- C6 as amended: for truth tables `tt1`, `tt2` (and `tt3`) of the same length `2^n` with
`n <= 6`, so that the unsigned value of a table fits the `uint64_t` ordering key,
`areNPNEquivalent(tt1, tt2)`, i.e. equality of the two representatives, holds if and only
if there are a permutation `perm`, a negation vector `neg` and an output flag `o` with
`tt2 == applyNegationPattern(applyPermutation(tt1, perm), neg, o)`; and the relation is
reflexive, symmetric and transitive. -/
theorem C6_equivalence_iff_orbit (tt1 tt2 tt3 : List Char) (n : Nat) (hn : n ≤ 6)
    (h1 : tt1.length = 2 ^ n) (h2 : tt2.length = 2 ^ n) (h3 : tt3.length = 2 ^ n)
    (hb1 : isBinary tt1) (hb2 : isBinary tt2) (hb3 : isBinary tt3) :
    (NPNClassifier.areNPNEquivalent NPNClassifier.key64 tt1 tt2 = Except.ok true ↔
        NPNClassifier.getNPNRepresentative NPNClassifier.key64 tt1 =
          NPNClassifier.getNPNRepresentative NPNClassifier.key64 tt2) ∧
      (NPNClassifier.areNPNEquivalent NPNClassifier.key64 tt1 tt2 = Except.ok true ↔
        ∃ (perm : List Nat) (neg : List Int) (o : Int) (t1 : List Char),
          perm.Perm (List.range n) ∧ neg.length = n ∧
            NPNClassifier.applyPermutation tt1 perm = Except.ok t1 ∧
            NPNClassifier.applyNegationPattern t1 neg o = Except.ok tt2) ∧
      NPNClassifier.areNPNEquivalent NPNClassifier.key64 tt1 tt1 = Except.ok true ∧
      (NPNClassifier.areNPNEquivalent NPNClassifier.key64 tt1 tt2 = Except.ok true →
        NPNClassifier.areNPNEquivalent NPNClassifier.key64 tt2 tt1 = Except.ok true) ∧
      (NPNClassifier.areNPNEquivalent NPNClassifier.key64 tt1 tt2 = Except.ok true →
        NPNClassifier.areNPNEquivalent NPNClassifier.key64 tt2 tt3 = Except.ok true →
        NPNClassifier.areNPNEquivalent NPNClassifier.key64 tt1 tt3 = Except.ok true) ∧
      (∀ t : List Char, t.length = 2 ^ n →
        NPNClassifier.key64 t = TruthTable.truthTableToBinary t) := by
  have hk := key64_injective n hn
  have e12 := areNPNEquivalent_iff_on _ n tt1 tt2 hk h1 h2 hb1 hb2
  have e11 := areNPNEquivalent_iff_on _ n tt1 tt1 hk h1 h1 hb1 hb1
  have e21 := areNPNEquivalent_iff_on _ n tt2 tt1 hk h2 h1 hb2 hb1
  have e23 := areNPNEquivalent_iff_on _ n tt2 tt3 hk h2 h3 hb2 hb3
  have e13 := areNPNEquivalent_iff_on _ n tt1 tt3 hk h1 h3 hb1 hb3
  refine ⟨?_, ?_, e11.mpr (NPNRel_refl n tt1 h1 hb1),
    fun h => e21.mpr (NPNRel_symm n tt1 tt2 h1 hb1 (e12.mp h)),
    fun h h' => e13.mpr (NPNRel_trans n tt1 tt2 tt3 hb1 (e12.mp h) (e23.mp h')),
    fun t ht => key64_small t (by rw [ht]; exact two_pow_le_64 n hn)⟩
  · obtain ⟨r1, g1, _⟩ := representative_rel NPNClassifier.key64 n tt1 h1 hb1
    obtain ⟨r2, g2, _⟩ := representative_rel NPNClassifier.key64 n tt2 h2 hb2
    unfold NPNClassifier.areNPNEquivalent
    rw [g1, g2]
    simp
  · rw [e12]
    exact ⟨fun h => NPNRel_to_InOrbit n tt1 tt2 h1 h, fun h => InOrbit_to_NPNRel n tt1 tt2 h1 h⟩

theorem C6_witness :
    (2 ≤ 6) ∧ ("0001".toList).length = 2 ^ 2 ∧ ("0111".toList).length = 2 ^ 2 ∧
      ("1000".toList).length = 2 ^ 2 ∧ isBinary "0001".toList ∧ isBinary "0111".toList ∧
      isBinary "1000".toList ∧
      NPNClassifier.areNPNEquivalent NPNClassifier.key64 "0001".toList "0111".toList =
        Except.ok true ∧
      NPNClassifier.areNPNEquivalent NPNClassifier.key64 "0111".toList "1000".toList =
        Except.ok true ∧
      NPNClassifier.areNPNEquivalent NPNClassifier.key64 "0001".toList "1000".toList =
        Except.ok true := by
  have h := C6_equivalence_iff_orbit "0001".toList "0111".toList "1000".toList 2
    (by decide) (by decide) (by decide) (by decide) (by unfold isBinary; decide)
    (by unfold isBinary; decide) (by unfold isBinary; decide)
  have a : NPNClassifier.areNPNEquivalent NPNClassifier.key64 "0001".toList "0111".toList =
      Except.ok true := by
    decide
  have b : NPNClassifier.areNPNEquivalent NPNClassifier.key64 "0111".toList "1000".toList =
      Except.ok true := by
    decide
  exact ⟨by decide, by decide, by decide, by decide, by unfold isBinary; decide,
    by unfold isBinary; decide, by unfold isBinary; decide, a, b, h.2.2.2.2.1 a b⟩
